import Mathlib

/-!
# randcheck: a shallow embedding of `randcheck.go`

The Go package implements six tests of NIST SP 800-22 (monobit, frequency within a
block, runs, longest run of ones in a block of 8, serial, approximate entropy) and the
battery `RunAll`.

Conventions of the embedding.

* A slice `[]T` is a `List Int` together with the element type `T : IntegerType`
  where the code computes in `T` (only `sliceToInt` does).  Slices have `cap = len`; the
  capacity matters to `bits[:m-1]` alone, and only when `m - 1` exceeds the length.
* `float64` is an arbitrary linearly ordered field `R`, so arithmetic is exact: what is
  proved of a value is proved of the computation without rounding.  Where a quantity
  lies on the edge of a condition of the code (a second argument of `GammaIncRegComp`
  that is exactly 0), the rounded computation can fall on the other side; the theorems
  that depend on it say "in exact arithmetic".  The results on the entropy are stated for
  `R = ℝ`.
* The functions of `math` and of `gonum/mathext` that the code calls (`Sqrt`, `Log`,
  `Erfc`, `GammaIncRegComp`) are the fields of `Special R`; `mathext.GammaIncRegComp`
  adds the panic of the library outside its domain.
* A division of floats by zero has no counterpart in `R`.  `Runs` divides a positive
  number by zero on constant sequences: IEEE 754 gives `+Inf` and `math.Erfc(+Inf) = 0`,
  which the model returns.  The other zero divisors need an empty sequence and give
  `NaN`, which is `Failure.notANumber`: a value of the code and not a panic, so the
  calls that follow it in `Serial` and in `appEntropyM` are still made.
* Go's `int` is 64 bits wide.  Lengths, indices, counters, the sum of a block in
  `Frequency` and the products `count * count` of `int` values are kept in `Int`: on
  sequences of 0s and 1s they are bounded by the square of the slice length.
  Conversions `int(x)` and shifts `1 << m` are reduced to 64 bits.
* A panic, explicit or raised by the runtime, is an `Except.error`.  `make` panics above
  `maxAlloc` bytes; a request below it that the machine cannot serve ends the program
  and is not modelled.
-/

namespace Randcheck

/-- Ways in which a call ends without a result. -/
inductive Failure where
  /-- The explicit panic "input too small". -/
  | inputTooSmall
  /-- The explicit panic "unnknwn val" of MonoBit. -/
  | unknownVal
  /-- The explicit panic "bad char in bit string" of BitString. -/
  | badChar
  /-- Runtime panic: index out of range. -/
  | indexOutOfRange
  /-- Runtime panic: slice bounds out of range. -/
  | sliceBounds
  /-- Runtime panic: integer divide by zero. -/
  | divideByZero
  /-- Runtime panic: makeslice, len out of range. -/
  | makeLen
  /-- The panic "cephes: parameter out of bounds" of `mathext.GammaIncRegComp`. -/
  | paramOutOfBounds
  /-- Not a panic: a float64 became NaN, which the field of results cannot hold. -/
  | notANumber
  deriving DecidableEq, Repr

/-- The types admitted by `constraints.Integer`. -/
inductive IntegerType where
  | int | int8 | int16 | int32 | int64
  | uint | uint8 | uint16 | uint32 | uint64 | uintptr
  deriving DecidableEq, Repr

/-- Width in bits of an integer type (64-bit platform). -/
def IntegerType.width : IntegerType → Nat
  | .int8 | .uint8 => 8
  | .int16 | .uint16 => 16
  | .int32 | .uint32 => 32
  | .int | .int64 | .uint | .uint64 | .uintptr => 64

/-- Whether an integer type is signed. -/
def IntegerType.signed : IntegerType → Bool
  | .int | .int8 | .int16 | .int32 | .int64 => true
  | .uint | .uint8 | .uint16 | .uint32 | .uint64 | .uintptr => false

/-- Largest value of an integer type. -/
def IntegerType.maxVal (T : IntegerType) : Int :=
  if T.signed then 2 ^ (T.width - 1) - 1 else 2 ^ T.width - 1

/-- Reduction of a mathematical integer to the value the type holds (two's complement). -/
def IntegerType.wrap (T : IntegerType) (v : Int) : Int :=
  if T.signed then (v + 2 ^ (T.width - 1)) % 2 ^ T.width - 2 ^ (T.width - 1)
  else v % 2 ^ T.width

/-- The numeric primitives the package imports: `math.Sqrt`, `math.Log`, `math.Erfc`
and `mathext.GammaIncRegComp`. -/
structure Special (R : Type) where
  Sqrt : R → R
  Log : R → R
  Erfc : R → R
  GammaIncRegComp : R → R → R

/-- A call `mathext.GammaIncRegComp(a, x)`.  The library is outside this repository; its
documentation reads "The input argument a must be positive and x must be non-negative or
GammaIncRegComp will panic".  Inside that domain the value is the function
`GammaIncRegComp` of `Special`. -/
def mathext.GammaIncRegComp {R : Type} [LinearOrderedField R] (fn : Special R) (a x : R) :
    Except Failure R :=
  if a ≤ 0 ∨ x < 0 then .error .paramOutOfBounds else .ok (fn.GammaIncRegComp a x)

/-- The largest number of bytes `make` accepts (Go runtime on 64-bit platforms,
`maxAlloc`): a longer request panics with "makeslice: len out of range". -/
def maxAlloc : Int := 2 ^ 48

/-- How a call goes on after the failure `e` of a step, `next` being the calls that
follow the step in the code: a panic ends the call; a NaN is a value, so `next` is made
and the call ends with its panic if it raises one, with a NaN otherwise. -/
def Failure.andThen {α : Type} (e : Failure) (next : Except Failure α) : Failure :=
  if e = .notANumber then
    match next with
    | .error e1 => e1
    | .ok _ => .notANumber
  else e

/-- What `RunAll` returns: `nil`, or the error naming a test with its p-value(s). -/
inductive Verdict (R : Type) where
  | pass
  | failedMonobit (pval : R)
  | failedFrequency (pval : R)
  | failedRuns (pval : R)
  | failedLongestRunOfOnes8 (pval : R)
  | failedSerial (pval1 pval2 : R)
  | failedAppEntropy (pval : R)

section Code

variable {R : Type} [LinearOrderedField R]

/-- The loop of `BitString` over the bytes of the string. -/
def BitString (s : List Int) : Except Failure (List Int) :=
  match s with
  | [] => .ok []
  | b :: rest =>
    if b = 48 then (BitString rest).map (fun bits => 0 :: bits)
    else if b = 49 then (BitString rest).map (fun bits => 1 :: bits)
    else if b = 0 ∨ b = 1 then (BitString rest).map (fun bits => b :: bits)
    else .error .badChar

/-- The bytes of a string literal made of ASCII characters. -/
def bytes (s : String) : List Int :=
  s.toList.map (fun c => (c.toNat : Int))

/-- The loop of `MonoBit` (lines 67-76): `sum` goes down on 0, up on 1. -/
def MonoBit.sumLoop : List Int → Int → Except Failure Int
  | [], sum => .ok sum
  | val :: rest, sum =>
    if val = 0 then MonoBit.sumLoop rest (sum - 1)
    else if val = 1 then MonoBit.sumLoop rest (sum + 1)
    else .error .unknownVal

/-- Model of `MonoBit` (lines 59-84). -/
def MonoBit (fn : Special R) (bits : List Int) : Except Failure R :=
  let n : R := (bits.length : R)
  if n < 100 then .error .inputTooSmall
  else
    match MonoBit.sumLoop bits 0 with
    | .error e => .error e
    | .ok sum =>
      let sobs := |(sum : R)| / fn.Sqrt n
      let pval := fn.Erfc (sobs / fn.Sqrt 2)
      .ok pval

/-- The inner loop of `Frequency` (lines 98-101): the sum of `int(bits[i*blocksize+j])`
for `j < blocksize`.  The sum is kept in `Int`: 64 bits hold it as long as the elements
of a block add up to less than 2^63, which 0s and 1s always do. -/
def Frequency.blockOnes (bits : List Int) (i blocksize : Int) : Except Failure Int :=
  (List.range blocksize.toNat).foldlM (fun (ones : Int) (j : Nat) =>
    let k : Int := i * blocksize + (j : Int)
    if k < 0 then .error .indexOutOfRange
    else match bits[k.toNat]? with
      | some b => .ok (ones + IntegerType.int.wrap b)
      | none => .error .indexOutOfRange) (0 : Int)

/-- The outer loop of `Frequency` (lines 97-103) over the block indices. -/
def Frequency.obsLoop (bits : List Int) (blocksize : Int) :
    List Nat → Except Failure (List R)
  | [] => .ok []
  | i :: rest =>
    match Frequency.blockOnes bits (i : Int) blocksize with
    | .error e => .error e
    | .ok ones =>
      match Frequency.obsLoop bits blocksize rest with
      | .error e => .error e
      | .ok obs => .ok (((ones : R) / (blocksize : R)) :: obs)

/-- Model of `Frequency` (lines 86-115). -/
def Frequency (fn : Special R) (bits : List Int) (blocksize : Int) : Except Failure R :=
  let n := bits.length
  if n < 100 then .error .inputTooSmall
  else if blocksize = 0 then .error .divideByZero
  else
    let blocks : Int := Int.tdiv (n : Int) blocksize
    if blocks < 0 then .error .makeLen
    else
      match Frequency.obsLoop bits blocksize (List.range blocks.toNat) with
      | .error e => .error e
      | .ok (obs : List R) =>
        let sum : R := (obs.map (fun val => (val - 0.5) ^ 2)).sum
        let chisqr : R := 4.0 * (blocksize : R) * sum
        mathext.GammaIncRegComp fn (0.5 * (blocks : R)) (0.5 * chisqr)

/-- The second loop of `Runs` (lines 136-143): counts the changes of value. -/
def Runs.runsLoop : List Int → Int → Nat → Nat
  | [], _, runs => runs
  | current :: rest, last, runs =>
    if current = last then Runs.runsLoop rest last runs
    else Runs.runsLoop rest current (runs + 1)

/-- Model of `Runs` (lines 117-147).  On a constant sequence `pic` is zero, the
quotient is `+Inf` (the numerator is `runs > 0`) and `math.Erfc(+Inf)` is 0. -/
def Runs (fn : Special R) (bits : List Int) : Except Failure R :=
  let n := bits.length
  let nf : R := (n : R)
  if n < 100 then .error .inputTooSmall
  else
    let pi : R := ((bits.countP (fun val => val = 1) : Nat) : R) / nf
    match bits with
    | [] => .error .indexOutOfRange
    | first :: rest =>
      let runs : R := ((Runs.runsLoop rest first 1 : Nat) : R)
      let pic : R := pi * (1.0 - pi)
      if pic = 0 then .ok 0
      else .ok (fn.Erfc ((runs - (2.0 * nf * pic)) / (2.0 * fn.Sqrt (2.0 * nf) * pic)))

/-- The loop of `onesRun` (lines 152-161) followed by the final comparison. -/
def onesRun.loop : List Int → Int → Int → Int
  | [], maxRun, currentRun => if currentRun > maxRun then currentRun else maxRun
  | b :: rest, maxRun, currentRun =>
    if b = 1 then onesRun.loop rest maxRun (currentRun + 1)
    else onesRun.loop rest (if currentRun > maxRun then currentRun else maxRun) 0

/-- Model of `onesRun` (lines 149-166). -/
def onesRun (bits : List Int) : Int :=
  onesRun.loop bits 0 0

/-- Model of `LongestRunOfOnes8` (lines 169-211).  `N` is the float quotient `n / 8`;
the blocks are the `n / 8` (integer quotient) full blocks. -/
def LongestRunOfOnes8 (fn : Special R) (bits : List Int) : Except Failure R :=
  let M : Nat := 8
  let n := bits.length
  let N : R := (n : R) / (M : R)
  let ones : List Int :=
    (List.range (n / M)).map (fun i => onesRun ((bits.drop (i * M)).take M))
  let v0 : R := ((ones.countP (fun val => val = 0 ∨ val = 1) : Nat) : R)
  let v1 : R := ((ones.countP (fun val => val = 2) : Nat) : R)
  let v2 : R := ((ones.countP (fun val => val = 3) : Nat) : R)
  let v3 : R :=
    ((ones.countP (fun val => ¬ (val = 0 ∨ val = 1) ∧ val ≠ 2 ∧ val ≠ 3) : Nat) : R)
  let K : R := 3.0
  let pi0 : R := 0.2148
  let pi1 : R := 0.3672
  let pi2 : R := 0.2305
  let pi3 : R := 0.1875
  let x0 := (v0 - N * pi0) ^ 2 / pi0
  let x1 := (v1 - N * pi1) ^ 2 / pi1
  let x2 := (v2 - N * pi2) ^ 2 / pi2
  let x3 := (v3 - N * pi3) ^ 2 / pi3
  if n = 0 then .error .notANumber
  else
    let chisqr := (x0 + x1 + x2 + x3) / N
    mathext.GammaIncRegComp fn (0.5 * K) (0.5 * chisqr)

/-- Model of `sliceToInt` (lines 286-292): the fold `val<<1 | bits[i]` is computed in
the element type `T`, the result is converted to `int`. -/
def sliceToInt (T : IntegerType) (bits : List Int) : Except Failure Int :=
  match bits with
  | [] => .error .indexOutOfRange
  | first :: rest =>
    .ok (IntegerType.int.wrap
      (rest.foldl (fun val b => T.wrap (Int.lor (val <<< (1 : Int)) b)) first))

/-- The histogram common to `serialPsiSqr` (lines 235-244) and `appEntropyPhi`
(lines 298-306): the slice is extended by its first `m-1` elements (`bits[:m-1]`, which
panics for `m - 1` below 0 or above the length, the capacity being the length), `1 << m`
bins of 8 bytes are made and each of the `n` windows of `m` elements adds one to the bin
of its value. -/
def windowBins (T : IntegerType) (bits : List Int) (m : Int) : Except Failure (List Int) :=
  let n := bits.length
  if m - 1 < 0 ∨ (n : Int) < m - 1 then .error .sliceBounds
  else
    let ext := bits ++ bits.take (m - 1).toNat
    let size : Int := IntegerType.int.wrap ((1 : Int) <<< m)
    if size < 0 ∨ maxAlloc < 8 * size then .error .makeLen
    else
      (List.range n).foldlM (fun (bins : List Int) (i : Nat) =>
        match sliceToInt T ((ext.drop i).take m.toNat) with
        | .error e => .error e
        | .ok idx =>
          if idx < 0 ∨ (bins.length : Int) ≤ idx then .error .indexOutOfRange
          else .ok (bins.set idx.toNat (bins[idx.toNat]?.getD 0 + 1)))
        (List.replicate size.toNat (0 : Int))

/-- Model of `serialPsiSqr` (lines 233-253). -/
def serialPsiSqr (T : IntegerType) (bits : List Int) (m : Int) : Except Failure R :=
  let n := bits.length
  let nf : R := (n : R)
  match windowBins T bits m with
  | .error e => .error e
  | .ok bins =>
    let sumsqr : R := (bins.map (fun count => ((count * count : Int) : R))).sum
    if n = 0 then .error .notANumber
    else
      let psisqr := ((2 : R) ^ m / nf) * sumsqr - nf
      .ok psisqr

/-- Model of `Serial` (lines 255-270).  The three calls of `serialPsiSqr` are made in
the order of the code, a NaN of one of them being followed by the calls that remain. -/
def Serial (fn : Special R) (T : IntegerType) (bits : List Int) (m : Int) :
    Except Failure (R × R) :=
  match serialPsiSqr T bits m with
  | .error e =>
    .error (e.andThen
      (match (serialPsiSqr T bits (m - 1) : Except Failure R) with
        | .error e1 => .error (e1.andThen (serialPsiSqr T bits (m - 2) : Except Failure R))
        | .ok _ => (serialPsiSqr T bits (m - 2) : Except Failure R)))
  | .ok (psisqr_m : R) =>
    match serialPsiSqr T bits (m - 1) with
    | .error e => .error (e.andThen (serialPsiSqr T bits (m - 2) : Except Failure R))
    | .ok (psisqr_m1 : R) =>
      let del_psisqr := psisqr_m - psisqr_m1
      let K : R := (2 : R) ^ (m - 1)
      match serialPsiSqr T bits (m - 2) with
      | .error e => .error (e.andThen (mathext.GammaIncRegComp fn (0.5 * K) (0.5 * del_psisqr)))
      | .ok (psisqr_m2 : R) =>
        let delsqr_psisqr := psisqr_m - 2.0 * psisqr_m1 + psisqr_m2
        match mathext.GammaIncRegComp fn (0.5 * K) (0.5 * del_psisqr) with
        | .error e => .error e
        | .ok pval1 =>
          let K2 : R := (2 : R) ^ (m - 2)
          match mathext.GammaIncRegComp fn (0.5 * K2) (0.5 * delsqr_psisqr) with
          | .error e => .error e
          | .ok pval2 => .ok (pval1, pval2)

/-- Model of `appEntropyPhi` (lines 296-325). -/
def appEntropyPhi (fn : Special R) (T : IntegerType) (bits : List Int) (blocksize : Int) :
    Except Failure R :=
  let m := blocksize
  let n := bits.length
  match windowBins T bits m with
  | .error e => .error e
  | .ok bins =>
    if n = 0 then .error .notANumber
    else
      let C : List R := bins.map (fun (count : Int) => (count : R) / (n : R))
      let phi : R := ((C.filter (fun c => ¬ c = 0)).map (fun c => c * fn.Log c)).sum
      .ok phi

/-- Model of `appEntropyM` (lines 327-335).  The two calls of `appEntropyPhi` are made
in the order of the code, a NaN of the first being followed by the second. -/
def appEntropyM (fn : Special R) (T : IntegerType) (bits : List Int) (m : Int) :
    Except Failure R :=
  match appEntropyPhi fn T bits m with
  | .error e => .error (e.andThen (appEntropyPhi fn T bits (m + 1)))
  | .ok (phi_m : R) =>
    match appEntropyPhi fn T bits (m + 1) with
    | .error e => .error e
    | .ok (phi_m1 : R) =>
      let ae := phi_m - phi_m1
      if ae ≤ 0 then .ok 0.0 else .ok ae

/-- Model of `AppEntropy` (lines 337-350).  After a NaN of `appEntropyM` the statistic
is NaN, which is not below 0: the call of `GammaIncRegComp` then checks its first
argument only. -/
def AppEntropy (fn : Special R) (T : IntegerType) (bits : List Int) (m : Int) :
    Except Failure R :=
  let n : R := (bits.length : R)
  let K : R := ((IntegerType.int.wrap ((1 : Int) <<< m) : Int) : R)
  match appEntropyM fn T bits m with
  | .error e => .error (e.andThen (mathext.GammaIncRegComp fn (0.5 * K) 0))
  | .ok (ApEn : R) =>
    let chisqr := 2.0 * n * (fn.Log 2.0 - ApEn)
    mathext.GammaIncRegComp fn (0.5 * K) (0.5 * chisqr)

/-- Model of `RunAll` (lines 11-40). -/
def RunAll (fn : Special R) (T : IntegerType) (b : List Int) : Except Failure (Verdict R) :=
  match MonoBit fn b with
  | .error e => .error e
  | .ok pval =>
    if pval < 0.01 then .ok (.failedMonobit pval)
    else
      match Frequency fn b 3 with
      | .error e => .error e
      | .ok pval =>
        if pval < 0.01 then .ok (.failedFrequency pval)
        else
          match Runs fn b with
          | .error e => .error e
          | .ok pval =>
            if pval < 0.01 then .ok (.failedRuns pval)
            else
              match LongestRunOfOnes8 fn b with
              | .error e => .error e
              | .ok pval =>
                if pval < 0.01 then .ok (.failedLongestRunOfOnes8 pval)
                else
                  match Serial fn T b 3 with
                  | .error e => .error e
                  | .ok (pval1, pval2) =>
                    if pval1 < 0.01 ∨ pval2 < 0.01 then .ok (.failedSerial pval1 pval2)
                    else
                      match AppEntropy fn T b 3 with
                      | .error e => .error e
                      | .ok pval =>
                        if pval < 0.01 then .ok (.failedAppEntropy pval)
                        else .ok .pass

end Code

/-! ## Test vectors of `randcheck_test.go` -/

/-- The 100 bits of `TestMonobit`, `TestFrequency`, `TestRuns` and `TestAppEntropy2`. -/
def testBits100 : List Int :=
  [1,1,0,0,1,0,0,1,0,0, 0,0,1,1,1,1,1,1,0,1, 1,0,1,0,1,0,1,0,0,0, 1,0,0,0,1,0,0,0,0,1,
   0,1,1,0,1,0,0,0,1,1, 0,0,0,0,1,0,0,0,1,1, 0,1,0,0,1,1,0,0,0,1, 0,0,1,1,0,0,0,1,1,0,
   0,1,1,0,0,0,1,0,1,0, 0,0,1,0,1,1,1,0,0,0]

/-- Stand-ins for the numeric primitives, to evaluate the code on rationals: the
identity for the functions of one argument, `a + x` for `GammaIncRegComp a x`. -/
def plainFn : Special ℚ :=
  ⟨fun x => x, fun x => x, fun x => x, fun a x => a + x⟩

/-- The 10 bits "0011011101" of `TestSerial1`. -/
def serialBits : List Int :=
  [0,0,1,1,0,1,1,1,0,1]

/-- The 10 bits "0100110101" of `TestAppEntropy1`. -/
def entropyBits : List Int :=
  [0,1,0,0,1,1,0,1,0,1]

/-- A hundred elements equal to 2: no element is a bit. -/
def twos100 : List Int :=
  List.replicate 100 2

/-- A hundred zeros: twelve full blocks of 8 and four more elements. -/
def zeros100 : List Int :=
  List.replicate 100 0

/-- Fifty zeros followed by fifty ones: two runs only. -/
def halfHalf : List Int :=
  List.replicate 50 0 ++ List.replicate 50 1

/-- A 1 followed by seven 0s: as a window of 8 bits it spells 128. -/
def oneThenZeros : List Int :=
  [1, 0, 0, 0, 0, 0, 0, 0]

/-- The 16 bits "0000100110101111": every window of 4 bits occurs once. -/
def deBruijn16 : List Int :=
  [0, 0, 0, 0, 1, 0, 0, 1, 1, 0, 1, 0, 1, 1, 1, 1]

/-- A hundred bits on which the second difference of the psi-squares for m = 3 is
exactly 0. -/
def edgeBits100 : List Int :=
  [1,1,0,1,1,1,1,0,1,0, 0,1,1,1,0,0,0,1,1,0, 1,1,0,1,0,1,0,1,1,0, 0,0,0,1,0,1,0,1,1,1,
   1,0,1,0,0,0,1,1,1,1, 1,0,0,0,1,0,0,0,0,0, 1,1,0,0,0,0,1,0,0,1, 1,1,1,1,0,0,1,1,0,0,
   1,1,0,0,0,0,0,1,0,0, 1,1,1,1,1,0,1,0,1,1]

/-! ## The quantities of the specification -/

section SpecDefs

variable {R : Type} [LinearOrderedField R]

/-- Specification 4.3: the number of 1s among the elements `i*M .. i*M+M-1`. -/
def specBlockOnes (bits : List Int) (M i : Nat) : Nat :=
  ((bits.drop (i * M)).take M).count 1

/-- Specification 4.3: `chi2 = 4 * M * sum over i < floor(n/M) of (ones_i/M - 1/2)^2`. -/
def specFrequencyChi2 (bits : List Int) (M : Nat) : R :=
  4 * (M : R) *
    ((List.range (bits.length / M)).map
      (fun i => ((specBlockOnes bits M i : R) / (M : R) - 1 / 2) ^ 2)).sum

/-- Claim C6: the statistic of the longest-run test as the specification words it,
with `N = floor(n/8)` the number of full blocks and `v0..v3` the numbers of blocks whose
longest run of 1s is `<= 1`, `= 2`, `= 3`, `>= 4`. -/
def specLongestRunChi2 (bits : List Int) : R :=
  let N : R := ((bits.length / 8 : Nat) : R)
  let runs : List Int :=
    (List.range (bits.length / 8)).map (fun i => onesRun ((bits.drop (i * 8)).take 8))
  let v0 : R := ((runs.countP (fun r => r ≤ 1) : Nat) : R)
  let v1 : R := ((runs.countP (fun r => r = 2) : Nat) : R)
  let v2 : R := ((runs.countP (fun r => r = 3) : Nat) : R)
  let v3 : R := ((runs.countP (fun r => 4 ≤ r) : Nat) : R)
  ((v0 - N * 0.2148) ^ 2 / 0.2148 + (v1 - N * 0.3672) ^ 2 / 0.3672
    + (v2 - N * 0.2305) ^ 2 / 0.2305 + (v3 - N * 0.1875) ^ 2 / 0.1875) / N

/-- The `k`-bit patterns, in increasing order of the number they spell (most
significant bit first). -/
def patterns : Nat → List (List Int)
  | 0 => [[]]
  | k + 1 => (patterns k).flatMap (fun w => [w ++ [0], w ++ [1]])

/-- The number a window spells, most significant bit first. -/
def windowValue (w : List Int) : Int :=
  w.foldl (fun v b => 2 * v + b) 0

/-- The cyclic (wrap-around) window of `k` elements that starts at offset `i`:
`bits[(i + j) mod n]` for `j = 0 .. k-1`. -/
def cyclicWindow (bits : List Int) (i k : Nat) : List Int :=
  (List.range k).map (fun j => bits.getD ((i + j) % bits.length) 0)

/-- The number of offsets `i` in `0 .. n-1` whose cyclic window of `k` elements reads `w`. -/
def cyclicCount (bits : List Int) (k : Nat) (w : List Int) : Nat :=
  (List.range bits.length).countP (fun i => cyclicWindow bits i k = w)

/-- Specification 4.6: `psi2(k) = (2^k / n) * sum over the k-bit patterns w of
count_k(w)^2 - n`. -/
def specPsi2 (bits : List Int) (k : Nat) : R :=
  ((2 : R) ^ k / (bits.length : R))
    * ((patterns k).map (fun w => ((cyclicCount bits k w : Nat) : R) ^ 2)).sum
    - (bits.length : R)

/-- Specification 4.7: `phi(k)` is the sum over the k-bit patterns `w` with
`count_k(w) > 0` of `(count_k(w)/n) * ln(count_k(w)/n)`. -/
def specPhi (ln : R → R) (bits : List Int) (k : Nat) : R :=
  (((patterns k).filter (fun w => 0 < cyclicCount bits k w)).map
    (fun w => ((cyclicCount bits k w : Nat) : R) / (bits.length : R)
      * ln (((cyclicCount bits k w : Nat) : R) / (bits.length : R)))).sum

/-- Specification 4.1 (`fromTextBits`): '0' and 0 give 0, '1' and 1 give 1. -/
def specCharBit (b : Int) : Int :=
  if b = 48 ∨ b = 0 then 0 else 1

/-- The longest run of 1s of `c` ones followed by `l`, read from the front: `c` is the
length of the run being read. -/
def specRunFrom : Nat → List Int → Nat
  | c, [] => c
  | c, b :: l => if b = 1 then specRunFrom (c + 1) l else max c (specRunFrom 0 l)

/-- The value of `runs` when the loop of `Runs` (lines 134-143) ends: 1 for the first
element, one more for every later element that differs from its predecessor.  (On the
empty sequence `Runs` has failed before.) -/
def Runs.runCount : List Int → Nat
  | [] => 0
  | first :: rest => Runs.runsLoop rest first 1

/-- The maximal contiguous groups of identical elements of a sequence, from the front:
an element joins the group that follows it when that group holds the same value, and
opens a group of its own otherwise. -/
def specGroups : List Int → List (List Int)
  | [] => []
  | a :: l =>
    match specGroups l with
    | [] => [[a]]
    | g :: gs => if g.head? = some a then (a :: g) :: gs else [a] :: g :: gs

/-- Exchange of the values 0 and 1 (other values stay). -/
def swapBit (b : Int) : Int :=
  if b = 0 then 1 else if b = 1 then 0 else b

/-- Claim C16: the sum over `j < m` of `w[j] * 2^(m-1-j)`, the number a window of `m`
bits spells with the most significant bit first. -/
def specWindowSum (w : List Int) : Int :=
  ((List.range w.length).map (fun j => w.getD j 0 * 2 ^ (w.length - 1 - j))).sum

end SpecDefs

/-! ## General facts -/

section Facts

variable {R : Type} [LinearOrderedField R]

set_option maxRecDepth 100000 in
theorem testBits100_eq :
    BitString (bytes "1100100100001111110110101010001000100001011010001100001000110100110001001100011001100010100010111000")
      = .ok testBits100 := by
  rfl

theorem serialBits_eq : BitString (bytes "0011011101") = .ok serialBits := by
  rfl

theorem entropyBits_eq : BitString (bytes "0100110101") = .ok entropyBits := by
  rfl

theorem sumLoop_bits (bits : List Int) (h : ∀ b ∈ bits, b = 0 ∨ b = 1) (s : Int) :
    MonoBit.sumLoop bits s = .ok (s + 2 * (bits.count 1 : Int) - (bits.length : Int)) := by
  induction bits generalizing s with
  | nil => simp [MonoBit.sumLoop]
  | cons b rest ih =>
    have hrest : ∀ x ∈ rest, x = 0 ∨ x = 1 := fun x hx => h x (List.mem_cons_of_mem _ hx)
    rcases h b (List.mem_cons_self _ _) with hb | hb
    · subst hb
      simp only [MonoBit.sumLoop, if_true, ih hrest]
      simp [List.count_cons]
      ring
    · subst hb
      simp only [MonoBit.sumLoop, ih hrest]
      simp [List.count_cons]
      ring

theorem count_zero_add_count_one (bits : List Int) (h : ∀ b ∈ bits, b = 0 ∨ b = 1) :
    bits.count 0 + bits.count 1 = bits.length := by
  induction bits with
  | nil => simp
  | cons b rest ih =>
    have hrest : ∀ x ∈ rest, x = 0 ∨ x = 1 := fun x hx => h x (List.mem_cons_of_mem _ hx)
    have := ih hrest
    rcases h b (List.mem_cons_self _ _) with hb | hb
    · subst hb
      simp [List.count_cons]
      omega
    · subst hb
      simp [List.count_cons]
      omega

theorem testBits100_count_one : testBits100.count 1 = 42 := by decide

theorem testBits100_count_zero : testBits100.count 0 = 58 := by decide

theorem sqrt_100 : Real.sqrt 100 = 10 := by
  rw [show (100 : ℝ) = 10 ^ 2 by norm_num]
  exact Real.sqrt_sq (by norm_num)

/-- C3: on a 0/1 sequence of length n >= 100, MonoBit returns
erfc(|S| / sqrt(n) / sqrt(2)) with S = (number of 1s) - (number of 0s), and
S = 2 * (number of 1s) - n. -/
theorem MonoBit_formula (fn : Special R) (bits : List Int)
    (hbits : ∀ b ∈ bits, b = 0 ∨ b = 1) (hlen : 100 ≤ bits.length) :
    ((bits.count 1 : Int) - (bits.count 0 : Int)
        = 2 * (bits.count 1 : Int) - (bits.length : Int)) ∧
    MonoBit fn bits = .ok (fn.Erfc
      (|(((bits.count 1 : Int) - (bits.count 0 : Int) : Int) : R)|
        / fn.Sqrt (bits.length : R) / fn.Sqrt 2)) := by
  have hS : (bits.count 1 : Int) - (bits.count 0 : Int)
      = 2 * (bits.count 1 : Int) - (bits.length : Int) := by
    have := count_zero_add_count_one bits hbits
    omega
  refine ⟨hS, ?_⟩
  have hn : ¬ ((bits.length : R) < 100) := by
    rw [not_lt]
    exact_mod_cast hlen
  simp only [MonoBit, if_neg hn, sumLoop_bits bits hbits 0, zero_add, hS]

/-- Witness of C3 on the string of TestMonobit: S = -16, the statistic is
16 / 10 = 1.6 and the value handed to erfc (here the identity) is 1.6 / sqrt 2. -/
theorem MonoBit_formula_witness :
    (∀ b ∈ testBits100, b = 0 ∨ b = 1) ∧ 100 ≤ testBits100.length ∧
    ((testBits100.count 1 : Int) - (testBits100.count 0 : Int) = -16) ∧
    MonoBit (⟨Real.sqrt, Real.log, fun x => x, fun _ x => x⟩ : Special ℝ) testBits100
      = .ok (1.6 / Real.sqrt 2) := by
  refine ⟨by decide, by decide, by decide, ?_⟩
  have h := (MonoBit_formula (⟨Real.sqrt, Real.log, fun x => x, fun _ x => x⟩ : Special ℝ)
    testBits100 (by decide) (by decide)).2
  rw [h, testBits100_count_one, testBits100_count_zero]
  have hlen : ((testBits100.length : Nat) : ℝ) = 100 := by
    have : testBits100.length = 100 := by decide
    rw [this]; norm_num
  simp only [hlen, sqrt_100]
  norm_num

/-- Inside its domain the call of the library returns the value of the function. -/
theorem GammaIncRegComp_ok (fn : Special R) (a x : R) (ha : 0 < a) (hx : 0 ≤ x) :
    mathext.GammaIncRegComp fn a x = .ok (fn.GammaIncRegComp a x) := by
  have h : ¬ (a ≤ 0 ∨ x < 0) := by
    rw [not_or]
    exact ⟨not_le.mpr ha, not_lt.mpr hx⟩
  simp only [mathext.GammaIncRegComp, if_neg h]

/-- The call of the library fails with its own panic only. -/
theorem GammaIncRegComp_error (fn : Special R) (a x : R) (e : Failure)
    (h : mathext.GammaIncRegComp fn a x = .error e) : e = .paramOutOfBounds := by
  simp only [mathext.GammaIncRegComp] at h
  split_ifs at h
  cases h
  rfl

/-- The call of the library returns exactly inside its domain. -/
theorem GammaIncRegComp_ok_iff (fn : Special R) (a x : R) :
    (∃ p, mathext.GammaIncRegComp fn a x = .ok p) ↔ 0 < a ∧ 0 ≤ x := by
  constructor
  · rintro ⟨p, h⟩
    simp only [mathext.GammaIncRegComp] at h
    split_ifs at h with c
    rw [not_or] at c
    exact ⟨not_le.mp c.1, not_lt.mp c.2⟩
  · rintro ⟨ha, hx⟩
    exact ⟨_, GammaIncRegComp_ok fn a x ha hx⟩

theorem wrap_int_small (v : Int) (h0 : 0 ≤ v) (h1 : v < 2 ^ 63) :
    IntegerType.int.wrap v = v := by
  simp only [IntegerType.wrap, IntegerType.signed, IntegerType.width, if_true]
  norm_num at h1 ⊢
  omega

theorem sum_wrap_bits (l : List Int) (h : ∀ b ∈ l, b = 0 ∨ b = 1) :
    (l.map IntegerType.int.wrap).sum = (l.count 1 : Int) := by
  induction l with
  | nil => simp
  | cons b rest ih =>
    have hrest : ∀ x ∈ rest, x = 0 ∨ x = 1 := fun x hx => h x (List.mem_cons_of_mem _ hx)
    rcases h b (List.mem_cons_self _ _) with hb | hb
    · subst hb
      simp [List.count_cons, ih hrest, wrap_int_small]
    · subst hb
      simp [List.count_cons, ih hrest, wrap_int_small]
      ring

/-- The inner loop of Frequency adds up the elements of block `i`. -/
theorem blockOnes_eq (bits : List Int) (i M : Nat) (h : (i + 1) * M ≤ bits.length) :
    Frequency.blockOnes bits (i : Int) (M : Int)
      = .ok (((bits.drop (i * M)).take M).map IntegerType.int.wrap).sum := by
  have key : ∀ k, k ≤ M →
      (List.range k).foldlM (fun (ones : Int) (j : Nat) =>
        let k : Int := (i : Int) * (M : Int) + (j : Int)
        if k < 0 then (.error .indexOutOfRange : Except Failure Int)
        else match bits[k.toNat]? with
          | some b => .ok (ones + IntegerType.int.wrap b)
          | none => .error .indexOutOfRange) (0 : Int)
        = .ok (((bits.drop (i * M)).take k).map IntegerType.int.wrap).sum := by
    intro k
    induction k with
    | zero => intro _; rfl
    | succ k ih =>
      intro hk
      have hlt : i * M + k < bits.length := by nlinarith
      rw [List.range_succ, List.foldlM_append, ih (by omega)]
      have hnn : ¬ ((i : Int) * (M : Int) + (k : Int) < 0) := by
        rw [not_lt]; positivity
      have hidx : ((i : Int) * (M : Int) + (k : Int)).toNat = i * M + k := by
        have : ((i : Int) * (M : Int) + (k : Int)) = ((i * M + k : Nat) : Int) := by push_cast; ring
        rw [this, Int.toNat_ofNat]
      have hget : bits[i * M + k]? = some (bits[i * M + k]) := List.getElem?_eq_getElem hlt
      have htake : (bits.drop (i * M)).take (k + 1)
          = (bits.drop (i * M)).take k ++ [bits[i * M + k]] := by
        rw [List.take_succ, List.getElem?_drop, hget]
        rfl
      simp only [List.foldlM_cons, List.foldlM_nil, if_neg hnn, hidx, hget, htake,
        List.map_append, List.sum_append, List.map_cons, List.map_nil, List.sum_cons,
        List.sum_nil, add_zero]
      rfl
  simpa [Frequency.blockOnes] using key M le_rfl

/-- The outer loop of Frequency: one quotient per block. -/
theorem obsLoop_eq (bits : List Int) (M : Nat) (is : List Nat)
    (h : ∀ i ∈ is, (i + 1) * M ≤ bits.length) :
    (Frequency.obsLoop bits (M : Int) is : Except Failure (List R))
      = .ok (is.map (fun i =>
          (((((bits.drop (i * M)).take M).map IntegerType.int.wrap).sum : Int) : R)
            / (((M : Int)) : R))) := by
  induction is with
  | nil => rfl
  | cons i rest ih =>
    have hrest : ∀ x ∈ rest, (x + 1) * M ≤ bits.length :=
      fun x hx => h x (List.mem_cons_of_mem _ hx)
    simp only [Frequency.obsLoop, blockOnes_eq bits i M (h i (List.mem_cons_self _ _)),
      ih hrest, List.map_cons]

/-- What Frequency computes on any sequence of at least 100 elements, block size `M >= 1`. -/
theorem Frequency_eq (fn : Special R) (bits : List Int) (M : Nat) (hM : 1 ≤ M)
    (hlen : 100 ≤ bits.length) :
    Frequency fn bits (M : Int) = mathext.GammaIncRegComp fn
      (0.5 * (((bits.length / M : Nat) : Int) : R))
      (0.5 * (4.0 * (((M : Int)) : R) *
        (((List.range (bits.length / M)).map (fun i =>
          (((((bits.drop (i * M)).take M).map IntegerType.int.wrap).sum : Int) : R)
            / (((M : Int)) : R))).map (fun val => (val - 0.5) ^ 2)).sum)) := by
  have hn : ¬ (bits.length < 100) := by omega
  have hM0 : ¬ ((M : Int) = 0) := by omega
  have hdiv : Int.tdiv (bits.length : Int) (M : Int) = ((bits.length / M : Nat) : Int) := rfl
  have hnonneg : ¬ (((bits.length / M : Nat) : Int) < 0) :=
    not_lt.mpr (Int.ofNat_nonneg _)
  have hloop := obsLoop_eq (R := R) bits M (List.range (bits.length / M)) (by
    intro i hi
    rw [List.mem_range] at hi
    calc (i + 1) * M ≤ (bits.length / M) * M := Nat.mul_le_mul_right _ hi
      _ ≤ bits.length := Nat.div_mul_le_self _ _)
  simp only [Frequency, if_neg hn, if_neg hM0, hdiv, if_neg hnonneg, Int.toNat_ofNat, hloop]

theorem block_of_take (bits : List Int) (M B i : Nat) (hi : i < B) :
    (bits.drop (i * M)).take M = ((bits.take (B * M)).drop (i * M)).take M := by
  have hle : i * M + M ≤ B * M := by
    calc i * M + M = (i + 1) * M := by ring
      _ ≤ B * M := Nat.mul_le_mul_right _ hi
  rw [List.take_drop, List.take_drop, List.take_take, Nat.min_eq_left hle]

/-- C4: on a 0/1 sequence of length n >= 100, with 1 <= M <= n, Frequency returns
Q(B/2, chi2/2) for B = floor(n/M) and chi2 = 4*M*sum over i < B of (ones_i/M - 1/2)^2;
the elements after the first B*M play no part: a sequence of the same length with the same
first B*M elements gets the same result. -/
theorem Frequency_formula (fn : Special R) (bits : List Int) (M : Nat)
    (hbits : ∀ b ∈ bits, b = 0 ∨ b = 1) (hlen : 100 ≤ bits.length)
    (hM : 1 ≤ M) (hMn : M ≤ bits.length) :
    Frequency fn bits (M : Int)
      = .ok (fn.GammaIncRegComp (((bits.length / M : Nat) : R) / 2)
          (specFrequencyChi2 bits M / 2)) ∧
    ∀ bits2 : List Int, bits2.length = bits.length →
      bits2.take (bits.length / M * M) = bits.take (bits.length / M * M) →
      Frequency fn bits2 (M : Int) = Frequency fn bits (M : Int) := by
  constructor
  · rw [Frequency_eq fn bits M hM hlen]
    have hblock : ∀ i, ((((bits.drop (i * M)).take M).map IntegerType.int.wrap).sum : Int)
        = (specBlockOnes bits M i : Int) := by
      intro i
      rw [specBlockOnes]
      apply sum_wrap_bits
      intro b hb
      exact hbits b (List.mem_of_mem_drop (List.mem_of_mem_take hb))
    have hB : (0 : R) < ((bits.length / M : Nat) : R) / 2 := by
      have h1 : 1 ≤ bits.length / M := (Nat.one_le_div_iff (by omega)).mpr hMn
      have h2 : (0 : R) < ((bits.length / M : Nat) : R) := by exact_mod_cast h1
      positivity
    have hchi : (0 : R) ≤ specFrequencyChi2 bits M / 2 := by
      have hs : (0 : R) ≤ ((List.range (bits.length / M)).map
          (fun i => ((specBlockOnes bits M i : R) / (M : R) - 1 / 2) ^ 2)).sum := by
        apply List.sum_nonneg
        intro x hx
        rw [List.mem_map] at hx
        obtain ⟨i, _, rfl⟩ := hx
        positivity
      rw [specFrequencyChi2]
      positivity
    rw [← GammaIncRegComp_ok fn _ _ hB hchi]
    simp only [hblock, specFrequencyChi2, List.map_map]
    congr 1
    · simp only [Int.cast_natCast]; norm_num; ring
    · have hfun : ((fun val : R => (val - 0.5) ^ 2) ∘ fun i =>
          (((specBlockOnes bits M i : Nat) : Int) : R) / (((M : Int)) : R))
          = fun i => ((specBlockOnes bits M i : R) / (M : R) - 1 / 2) ^ 2 := by
        funext i
        simp only [Function.comp, Int.cast_natCast]
        norm_num
      rw [hfun]
      simp only [Int.cast_natCast]
      norm_num
      ring
  · intro bits2 hlen2 htake
    rw [Frequency_eq fn bits M hM hlen, Frequency_eq fn bits2 M hM (by omega), hlen2]
    have hb : ∀ i ∈ List.range (bits.length / M),
        (bits2.drop (i * M)).take M = (bits.drop (i * M)).take M := by
      intro i hi
      rw [List.mem_range] at hi
      rw [block_of_take bits2 M _ i hi, block_of_take bits M _ i hi, htake]
    have hmap : (List.range (bits.length / M)).map (fun i =>
          (((((bits2.drop (i * M)).take M).map IntegerType.int.wrap).sum : Int) : R)
            / (((M : Int)) : R))
        = (List.range (bits.length / M)).map (fun i =>
          (((((bits.drop (i * M)).take M).map IntegerType.int.wrap).sum : Int) : R)
            / (((M : Int)) : R)) := by
      apply List.map_congr_left
      intro i hi
      rw [hb i hi]
    rw [hmap]

theorem testBits100_blocks :
    (List.range (testBits100.length / 10)).map (specBlockOnes testBits100 10)
      = [4, 7, 4, 3, 5, 3, 4, 4, 4, 4] := by
  decide

/-- Witness of C4 on the string of TestFrequency with M = 10: B = 10, chi2 = 7.2 and
the result is Q(5, 3.6). -/
theorem Frequency_formula_witness :
    (∀ b ∈ testBits100, b = 0 ∨ b = 1) ∧ 100 ≤ testBits100.length ∧
    testBits100.length / 10 = 10 ∧
    specFrequencyChi2 testBits100 10 = (7.2 : ℚ) ∧
    Frequency plainFn testBits100 10 = .ok (plainFn.GammaIncRegComp 5 3.6) := by
  have hchi : specFrequencyChi2 testBits100 10 = (7.2 : ℚ) := by
    have h := testBits100_blocks
    have hmap : (List.range (testBits100.length / 10)).map
        (fun i => ((specBlockOnes testBits100 10 i : ℚ) / ((10 : Nat) : ℚ) - 1 / 2) ^ 2)
        = ((List.range (testBits100.length / 10)).map (specBlockOnes testBits100 10)).map
          (fun (c : Nat) => ((c : ℚ) / ((10 : Nat) : ℚ) - 1 / 2) ^ 2) := by
      rw [List.map_map]; rfl
    rw [specFrequencyChi2, hmap, h]
    norm_num
  have hB : testBits100.length / 10 = 10 := by decide
  refine ⟨by decide, by decide, hB, hchi, ?_⟩
  have h := (Frequency_formula plainFn testBits100 10 (by decide) (by decide)
    (by decide) (by decide)).1
  have h10 : ((10 : Nat) : Int) = 10 := rfl
  rw [h10] at h
  rw [h, hchi, hB]
  norm_num

/-- What Runs computes on any sequence of at least 100 elements: the quotient has the
signed numerator `runs - 2*n*pi*(1-pi)`. -/
theorem Runs_eq (fn : Special R) (first : Int) (rest : List Int)
    (hlen : 100 ≤ (first :: rest).length) :
    Runs fn (first :: rest)
      = .ok (if (((first :: rest).count 1 : Nat) : R) / ((first :: rest).length : R)
              * (1 - (((first :: rest).count 1 : Nat) : R) / ((first :: rest).length : R)) = 0
          then 0
          else fn.Erfc ((((Runs.runsLoop rest first 1 : Nat) : R)
              - 2 * ((first :: rest).length : R)
                * ((((first :: rest).count 1 : Nat) : R) / ((first :: rest).length : R)
                  * (1 - (((first :: rest).count 1 : Nat) : R) / ((first :: rest).length : R))))
            / (2 * fn.Sqrt (2 * ((first :: rest).length : R))
                * ((((first :: rest).count 1 : Nat) : R) / ((first :: rest).length : R)
                  * (1 - (((first :: rest).count 1 : Nat) : R)
                      / ((first :: rest).length : R)))))) := by
  have hn : ¬ ((first :: rest).length < 100) := by omega
  have hcount : (first :: rest).countP (fun val => decide (val = 1)) = (first :: rest).count 1 := by
    rw [List.count]
    congr 1
  simp only [Runs, if_neg hn, hcount]
  have h1 : (1.0 : R) = 1 := by norm_num
  have h2 : (2.0 : R) = 2 := by norm_num
  simp only [h1, h2]
  split_ifs <;> rfl

theorem halfHalf_cons : halfHalf = 0 :: (List.replicate 49 0 ++ List.replicate 50 1) := by
  decide

/-- The value of Runs on fifty zeros followed by fifty ones: two runs where a hundred
fair coin flips have about fifty, and the argument of erfc is negative. -/
theorem Runs_halfHalf (fn : Special ℝ) :
    Runs fn halfHalf = .ok (fn.Erfc ((2 - 50) / (2 * fn.Sqrt 200 * (1 / 4)))) := by
  have hlen : (0 :: (List.replicate 49 (0 : Int) ++ List.replicate 50 1)).length = 100 := by
    decide
  have hcnt : (0 :: (List.replicate 49 (0 : Int) ++ List.replicate 50 1)).count 1 = 50 := by
    decide
  have hruns : Runs.runsLoop (List.replicate 49 (0 : Int) ++ List.replicate 50 1) 0 1 = 2 := by
    decide
  rw [halfHalf_cons, Runs_eq fn _ _ (by rw [hlen]), hlen, hcnt, hruns]
  norm_num

theorem halfHalf_arg_neg : ((2 : ℝ) - 50) / (2 * Real.sqrt 200 * (1 / 4)) < 0 := by
  have hs : 0 < Real.sqrt 200 := Real.sqrt_pos.mpr (by norm_num)
  apply div_neg_of_neg_of_pos
  · norm_num
  · positivity

/-- C1, at the input where it fails: fifty zeros followed by fifty ones are a 0/1
sequence of length 100, and with erfc the complementary error function (values in (0,2),
above 1 exactly at negative arguments) Runs returns a p-value above 1. -/
theorem Runs_pvalue_above_one (erfc : ℝ → ℝ) (Q : ℝ → ℝ → ℝ)
    (herfc : ∀ x, 0 < erfc x ∧ erfc x < 2 ∧ (1 < erfc x ↔ x < 0)) :
    (∀ b ∈ halfHalf, b = 0 ∨ b = 1) ∧ 100 ≤ halfHalf.length ∧
    ∃ p, Runs (⟨Real.sqrt, Real.log, erfc, Q⟩ : Special ℝ) halfHalf = .ok p ∧ 1 < p := by
  refine ⟨by decide, by decide, _, Runs_halfHalf _, ?_⟩
  exact (herfc _).2.2.mpr halfHalf_arg_neg

/-- Witness of the C1 theorem: a function with the three properties of erfc that the
theorem uses, and the p-value above 1 it yields. -/
theorem Runs_pvalue_above_one_witness :
    (∀ x : ℝ, 0 < (if x < 0 then (3 / 2 : ℝ) else 1 / 2)
      ∧ (if x < 0 then (3 / 2 : ℝ) else 1 / 2) < 2
      ∧ (1 < (if x < 0 then (3 / 2 : ℝ) else 1 / 2) ↔ x < 0)) ∧
    ∃ p, Runs (⟨Real.sqrt, Real.log, fun x => if x < 0 then (3 / 2 : ℝ) else 1 / 2,
        fun _ _ => 0⟩ : Special ℝ) halfHalf = .ok p ∧ 1 < p := by
  have h : ∀ x : ℝ, 0 < (if x < 0 then (3 / 2 : ℝ) else 1 / 2)
      ∧ (if x < 0 then (3 / 2 : ℝ) else 1 / 2) < 2
      ∧ (1 < (if x < 0 then (3 / 2 : ℝ) else 1 / 2) ↔ x < 0) := by
    intro x
    by_cases hx : x < 0
    · simp only [if_pos hx]
      refine ⟨by norm_num, by norm_num, ?_⟩
      simp only [hx, iff_true]
      norm_num
    · simp only [if_neg hx]
      refine ⟨by norm_num, by norm_num, ?_⟩
      simp only [hx, iff_false]
      norm_num
  exact ⟨h, (Runs_pvalue_above_one _ (fun _ _ => 0) h).2.2⟩

/-- C5, at an input where it fails: on fifty zeros followed by fifty ones (pi = 1/2,
V = 2, n = 100) Runs returns erfc(-x) where the claim has erfc(x), for
x = |V - 2*n*pi*(1-pi)| / (2*sqrt(2n)*pi*(1-pi)) > 0: the numerator enters with its sign. -/
theorem Runs_numerator_signed (erfc : ℝ → ℝ) (Q : ℝ → ℝ → ℝ) :
    Runs (⟨Real.sqrt, Real.log, erfc, Q⟩ : Special ℝ) halfHalf
      = .ok (erfc (-(|(2 : ℝ) - 2 * 100 * (1 / 2 * (1 - 1 / 2))|
          / (2 * Real.sqrt (2 * 100) * (1 / 2 * (1 - 1 / 2)))))) ∧
    0 < |(2 : ℝ) - 2 * 100 * (1 / 2 * (1 - 1 / 2))|
          / (2 * Real.sqrt (2 * 100) * (1 / 2 * (1 - 1 / 2))) := by
  have hs : 0 < Real.sqrt 200 := Real.sqrt_pos.mpr (by norm_num)
  have habs : |(2 : ℝ) - 2 * 100 * (1 / 2 * (1 - 1 / 2))| = 48 := by
    rw [show (2 : ℝ) - 2 * 100 * (1 / 2 * (1 - 1 / 2)) = -48 by norm_num, abs_neg]
    norm_num
  have h200 : (2 : ℝ) * 100 = 200 := by norm_num
  constructor
  · rw [Runs_halfHalf, habs, h200]
    congr 2
    field_simp
    ring_nf
  · rw [habs, h200]
    positivity

theorem zeros100_runs :
    (List.range (zeros100.length / 8)).map (fun i => onesRun ((zeros100.drop (i * 8)).take 8))
      = List.replicate 12 0 := by
  decide

/-- The value of LongestRunOfOnes8 on a hundred zeros: `N` is 100/8 = 12.5 while twelve
blocks are counted. -/
theorem LongestRunOfOnes8_zeros100 (fn : Special R) :
    LongestRunOfOnes8 fn zeros100 = .ok (fn.GammaIncRegComp (3 / 2)
      ((((12 - 12.5 * 0.2148) ^ 2 / 0.2148 + (0 - 12.5 * 0.3672) ^ 2 / 0.3672
        + (0 - 12.5 * 0.2305) ^ 2 / 0.2305 + (0 - 12.5 * 0.1875) ^ 2 / 0.1875) / 12.5) / 2)) := by
  have hlen : zeros100.length = 100 := by decide
  have hn : ¬ (zeros100.length = 0) := by decide
  have h0 : (List.replicate 12 (0 : Int)).countP (fun val => decide (val = 0 ∨ val = 1)) = 12 := by
    decide
  have h1 : (List.replicate 12 (0 : Int)).countP (fun val => decide (val = 2)) = 0 := by decide
  have h2 : (List.replicate 12 (0 : Int)).countP (fun val => decide (val = 3)) = 0 := by decide
  have h3 : (List.replicate 12 (0 : Int)).countP
      (fun val => decide (¬ (val = 0 ∨ val = 1) ∧ val ≠ 2 ∧ val ≠ 3)) = 0 := by decide
  simp only [LongestRunOfOnes8, if_neg hn, zeros100_runs, h0, h1, h2, h3]
  rw [hlen]
  refine (GammaIncRegComp_ok fn _ _ (by norm_num) (by positivity)).trans ?_
  congr 2 <;> norm_num

theorem onesRun_loop_ge (l : List Int) (maxRun currentRun : Int) :
    maxRun ≤ onesRun.loop l maxRun currentRun := by
  induction l generalizing maxRun currentRun with
  | nil =>
    simp only [onesRun.loop]
    split_ifs <;> omega
  | cons b rest ih =>
    simp only [onesRun.loop]
    split_ifs with h1 h2
    · exact ih _ _
    · exact le_trans (by omega) (ih _ _)
    · exact ih _ _

theorem onesRun_nonneg (l : List Int) : 0 ≤ onesRun l :=
  onesRun_loop_ge l 0 0

/-- When the length is a multiple of 8, LongestRunOfOnes8 returns Q(3/2, chi2/2) with
the statistic of the specification. -/
theorem LongestRunOfOnes8_of_dvd (fn : Special R) (bits : List Int)
    (hn : 8 ≤ bits.length) (hdvd : 8 ∣ bits.length) :
    LongestRunOfOnes8 fn bits
      = .ok (fn.GammaIncRegComp (3 / 2) (specLongestRunChi2 bits / 2)) := by
  have hn0 : ¬ (bits.length = 0) := by omega
  have hN : (bits.length : R) / ((8 : Nat) : R) = ((bits.length / 8 : Nat) : R) := by
    rw [Nat.cast_div hdvd (by norm_num)]
  have hmem : ∀ r ∈ (List.range (bits.length / 8)).map
      (fun i => onesRun ((bits.drop (i * 8)).take 8)), (0 : Int) ≤ r := by
    intro r hr
    rw [List.mem_map] at hr
    obtain ⟨i, _, rfl⟩ := hr
    exact onesRun_nonneg _
  have h0 : ((List.range (bits.length / 8)).map
        (fun i => onesRun ((bits.drop (i * 8)).take 8))).countP
          (fun val => decide (val = 0 ∨ val = 1))
      = ((List.range (bits.length / 8)).map
        (fun i => onesRun ((bits.drop (i * 8)).take 8))).countP (fun r => decide (r ≤ 1)) := by
    apply List.countP_congr
    intro r hr
    have := hmem r hr
    simp only [decide_eq_true_eq]
    omega
  have h3 : ((List.range (bits.length / 8)).map
        (fun i => onesRun ((bits.drop (i * 8)).take 8))).countP
          (fun val => decide (¬ (val = 0 ∨ val = 1) ∧ val ≠ 2 ∧ val ≠ 3))
      = ((List.range (bits.length / 8)).map
        (fun i => onesRun ((bits.drop (i * 8)).take 8))).countP (fun r => decide (4 ≤ r)) := by
    apply List.countP_congr
    intro r hr
    have := hmem r hr
    simp only [decide_eq_true_eq]
    omega
  simp only [LongestRunOfOnes8, if_neg hn0, hN, h0, h3, specLongestRunChi2]
  refine (GammaIncRegComp_ok fn _ _ (by norm_num) (by positivity)).trans ?_
  congr 2
  · norm_num
  · rw [show (0.5 : R) = 1 / 2 by norm_num]
    ring

/-- C6, at an input where it fails: on a hundred zeros there are floor(100/8) = 12 full
blocks, but LongestRunOfOnes8 returns Q(3/2, c/2) for the statistic c computed with
N = 100/8 = 12.5, which is not the statistic chi2 of the claim (N = 12). -/
theorem LongestRunOfOnes8_N_not_floor (fn : Special R) :
    zeros100.length / 8 = 12 ∧
    LongestRunOfOnes8 fn zeros100 = .ok (fn.GammaIncRegComp (3 / 2)
      ((((12 - 12.5 * 0.2148) ^ 2 / 0.2148 + (0 - 12.5 * 0.3672) ^ 2 / 0.3672
        + (0 - 12.5 * 0.2305) ^ 2 / 0.2305 + (0 - 12.5 * 0.1875) ^ 2 / 0.1875) / 12.5) / 2)) ∧
    (((12 - 12.5 * 0.2148) ^ 2 / 0.2148 + (0 - 12.5 * 0.3672) ^ 2 / 0.3672
        + (0 - 12.5 * 0.2305) ^ 2 / 0.2305 + (0 - 12.5 * 0.1875) ^ 2 / 0.1875) / 12.5 : R)
      ≠ specLongestRunChi2 zeros100 := by
  refine ⟨by decide, LongestRunOfOnes8_zeros100 fn, ?_⟩
  have h0 : (List.replicate 12 (0 : Int)).countP (fun r => decide (r ≤ 1)) = 12 := by decide
  have h1 : (List.replicate 12 (0 : Int)).countP (fun r => decide (r = 2)) = 0 := by decide
  have h2 : (List.replicate 12 (0 : Int)).countP (fun r => decide (r = 3)) = 0 := by decide
  have h3 : (List.replicate 12 (0 : Int)).countP (fun r => decide (4 ≤ r)) = 0 := by decide
  have hB : zeros100.length / 8 = 12 := by decide
  simp only [specLongestRunChi2, zeros100_runs]
  simp only [h0, h1, h2, h3, hB]
  norm_num

/-! ### Patterns and the numbers they spell -/

theorem windowValue_append (w : List Int) (b : Int) :
    windowValue (w ++ [b]) = 2 * windowValue w + b := by
  simp [windowValue, List.foldl_append]

theorem windowValue_foldl (w : List Int) (v : Int) :
    w.foldl (fun v b => 2 * v + b) v = v * 2 ^ w.length + windowValue w := by
  induction w generalizing v with
  | nil => simp [windowValue]
  | cons b rest ih =>
    simp only [List.foldl_cons, List.length_cons, windowValue]
    rw [ih (2 * v + b), ih (2 * 0 + b)]
    ring

theorem windowValue_cons (b : Int) (w : List Int) :
    windowValue (b :: w) = b * 2 ^ w.length + windowValue w := by
  have h := windowValue_foldl w (2 * 0 + b)
  simp only [windowValue, List.foldl_cons]
  rw [h]
  simp [windowValue]

theorem windowValue_bounds (w : List Int) (h : ∀ b ∈ w, b = 0 ∨ b = 1) :
    0 ≤ windowValue w ∧ windowValue w < 2 ^ w.length := by
  induction w with
  | nil => simp [windowValue]
  | cons b rest ih =>
    have hrest : ∀ x ∈ rest, x = 0 ∨ x = 1 := fun x hx => h x (List.mem_cons_of_mem _ hx)
    obtain ⟨h0, h1⟩ := ih hrest
    rw [windowValue_cons, List.length_cons, pow_succ]
    have hp : (0 : Int) < 2 ^ rest.length := by positivity
    rcases h b (List.mem_cons_self _ _) with hb | hb
    · subst hb; constructor <;> nlinarith
    · subst hb; constructor <;> nlinarith

/-- Two windows of 0s and 1s of the same length that spell the same number are equal. -/
theorem windowValue_injective (w1 w2 : List Int) (h1 : ∀ b ∈ w1, b = 0 ∨ b = 1)
    (h2 : ∀ b ∈ w2, b = 0 ∨ b = 1) (hlen : w1.length = w2.length)
    (hv : windowValue w1 = windowValue w2) : w1 = w2 := by
  induction w1 generalizing w2 with
  | nil =>
    cases w2 with
    | nil => rfl
    | cons b rest => simp at hlen
  | cons a r1 ih =>
    cases w2 with
    | nil => simp at hlen
    | cons b r2 =>
      have hr1 : ∀ x ∈ r1, x = 0 ∨ x = 1 := fun x hx => h1 x (List.mem_cons_of_mem _ hx)
      have hr2 : ∀ x ∈ r2, x = 0 ∨ x = 1 := fun x hx => h2 x (List.mem_cons_of_mem _ hx)
      have hl : r1.length = r2.length := by simpa using hlen
      rw [windowValue_cons, windowValue_cons, hl] at hv
      have b1 := windowValue_bounds r1 hr1
      have b2 := windowValue_bounds r2 hr2
      rw [hl] at b1
      have hp : (0 : Int) < 2 ^ r2.length := by positivity
      have hab : a = b := by
        rcases h1 a (List.mem_cons_self _ _) with ha | ha <;>
          rcases h2 b (List.mem_cons_self _ _) with hb | hb <;>
          subst ha <;> subst hb <;> first | rfl | (exfalso; nlinarith)
      subst hab
      have hvr : windowValue r1 = windowValue r2 := by linarith
      rw [ih r2 hr1 hr2 hl hvr]

theorem patterns_spec (k : Nat) :
    ∀ w ∈ patterns k, w.length = k ∧ ∀ b ∈ w, b = 0 ∨ b = 1 := by
  induction k with
  | zero =>
    intro w hw
    simp only [patterns, List.mem_singleton] at hw
    subst hw
    simp
  | succ k ih =>
    intro w hw
    simp only [patterns, List.mem_flatMap, List.mem_cons, List.mem_singleton,
      List.not_mem_nil, or_false] at hw
    obtain ⟨p, hp, hw⟩ := hw
    obtain ⟨hl, hb⟩ := ih p hp
    rcases hw with hw | hw <;>
    · subst hw
      refine ⟨by simp [hl], ?_⟩
      intro b hb2
      rw [List.mem_append, List.mem_singleton] at hb2
      rcases hb2 with hb2 | hb2
      · exact hb b hb2
      · subst hb2; simp

theorem range_flatMap_double (n : Nat) :
    ((List.range n).map (fun v : Nat => (v : Int))).flatMap (fun v => [2 * v, 2 * v + 1])
      = (List.range (2 * n)).map (fun v : Nat => (v : Int)) := by
  induction n with
  | zero => rfl
  | succ n ih =>
    rw [List.range_succ, List.map_append, List.flatMap_append, ih,
      show 2 * (n + 1) = 2 * n + 1 + 1 by ring, List.range_succ, List.range_succ]
    simp

/-- The pattern at position `v` spells `v`. -/
theorem patterns_values (k : Nat) :
    (patterns k).map windowValue = (List.range (2 ^ k)).map (fun v : Nat => (v : Int)) := by
  induction k with
  | zero => rfl
  | succ k ih =>
    have h : (patterns (k + 1)).map windowValue
        = ((patterns k).map windowValue).flatMap (fun v => [2 * v, 2 * v + 1]) := by
      rw [patterns, List.flatMap_map]
      simp only [List.flatMap_def, List.map_flatten, List.map_map]
      congr 2
      funext w
      simp [windowValue_append]
    rw [h, ih, range_flatMap_double, pow_succ, Nat.mul_comm]

theorem patterns_length (k : Nat) : (patterns k).length = 2 ^ k := by
  have h := congrArg List.length (patterns_values k)
  simpa using h

/-! ### `sliceToInt` on windows of 0s and 1s -/

theorem wrap_of_le_maxVal (T : IntegerType) (v : Int) (h0 : 0 ≤ v) (h1 : v ≤ T.maxVal) :
    T.wrap v = v := by
  cases T <;>
    simp only [IntegerType.wrap, IntegerType.maxVal, IntegerType.signed, IntegerType.width,
      if_true, Bool.false_eq_true, if_false] at h1 ⊢ <;>
    norm_num at h1 ⊢ <;> omega

theorem lor_shift_bit (v b : Int) (hv : 0 ≤ v) (hb : b = 0 ∨ b = 1) :
    Int.lor (v <<< (1 : Int)) b = 2 * v + b := by
  obtain ⟨n, rfl⟩ := Int.eq_ofNat_of_zero_le hv
  have hs : (n : Int) <<< (1 : Int) = ((2 ^ 1 * n : Nat) : Int) := by
    have := Int.shiftLeft_eq_mul_pow (n : Int) 1
    simp only [Nat.cast_one] at this
    rw [this]
    push_cast
    ring
  rw [hs]
  rcases hb with hb | hb
  · subst hb
    have h : Int.lor ((2 ^ 1 * n : Nat) : Int) ((0 : Nat) : Int) = ((2 ^ 1 * n ||| 0 : Nat) : Int) := rfl
    have h2 : (0 : Int) = ((0 : Nat) : Int) := rfl
    rw [h2, h]
    simp
  · subst hb
    have h : Int.lor ((2 ^ 1 * n : Nat) : Int) ((1 : Nat) : Int) = ((2 ^ 1 * n ||| 1 : Nat) : Int) := rfl
    have h2 : (1 : Int) = ((1 : Nat) : Int) := rfl
    have hor := Nat.mul_add_lt_is_or (show 1 < 2 ^ 1 by norm_num) n
    rw [h2, h, ← hor]
    push_cast
    ring

theorem sliceToInt_fold (T : IntegerType) (rest : List Int)
    (hrest : ∀ b ∈ rest, b = 0 ∨ b = 1) (val : Int) (hval : 0 ≤ val)
    (hfit : val * 2 ^ rest.length + 2 ^ rest.length - 1 ≤ T.maxVal) :
    rest.foldl (fun val b => T.wrap (Int.lor (val <<< (1 : Int)) b)) val
      = rest.foldl (fun v b => 2 * v + b) val := by
  induction rest generalizing val with
  | nil => rfl
  | cons b r ih =>
    have hr : ∀ x ∈ r, x = 0 ∨ x = 1 := fun x hx => hrest x (List.mem_cons_of_mem _ hx)
    have hb := hrest b (List.mem_cons_self _ _)
    have hp : (1 : Int) ≤ 2 ^ r.length := by
      have : (0 : Int) < 2 ^ r.length := by positivity
      omega
    rw [List.length_cons, pow_succ] at hfit
    have hb0 : 0 ≤ b := by rcases hb with h | h <;> omega
    have hb1 : b ≤ 1 := by rcases hb with h | h <;> omega
    have hstep : T.wrap (Int.lor (val <<< (1 : Int)) b) = 2 * val + b := by
      rw [lor_shift_bit val b hval hb]
      apply wrap_of_le_maxVal
      · omega
      · nlinarith
    simp only [List.foldl_cons, hstep]
    apply ih hr
    · omega
    · nlinarith

/-- On a non-empty window of 0s and 1s whose largest value `2^m - 1` the element type
holds, `sliceToInt` returns the number the window spells. -/
theorem sliceToInt_bits (T : IntegerType) (w : List Int) (hw : ∀ b ∈ w, b = 0 ∨ b = 1)
    (hne : w ≠ []) (hfit : 2 ^ w.length - 1 ≤ T.maxVal) (h62 : w.length ≤ 62) :
    sliceToInt T w = .ok (windowValue w) := by
  cases w with
  | nil => exact absurd rfl hne
  | cons first rest =>
    have hr : ∀ x ∈ rest, x = 0 ∨ x = 1 := fun x hx => hw x (List.mem_cons_of_mem _ hx)
    have hf := hw first (List.mem_cons_self _ _)
    have hf0 : 0 ≤ first := by rcases hf with h | h <;> omega
    have hf1 : first ≤ 1 := by rcases hf with h | h <;> omega
    have hp : (0 : Int) < 2 ^ rest.length := by positivity
    rw [List.length_cons, pow_succ] at hfit
    have hfold := sliceToInt_fold T rest hr first hf0 (by nlinarith)
    have hb := windowValue_bounds (first :: rest) hw
    have hval : windowValue (first :: rest) = rest.foldl (fun v b => 2 * v + b) first := by
      simp [windowValue]
    have hlt : windowValue (first :: rest) < 2 ^ 63 := by
      have h1 : (2 : Int) ^ (first :: rest).length ≤ 2 ^ 62 :=
        pow_le_pow_right₀ (by norm_num) h62
      have h2 : (2 : Int) ^ 62 < 2 ^ 63 := by norm_num
      omega
    simp only [sliceToInt, hfold, ← hval]
    rw [wrap_int_small _ hb.1 hlt]

/-! ### The histogram of the windows -/

/-- The windows the code slices out of the extended sequence are the cyclic windows. -/
theorem window_eq_cyclic (bits : List Int) (m i : Nat) (hmn : m - 1 ≤ bits.length)
    (hi : i < bits.length) :
    ((bits ++ bits.take (m - 1)).drop i).take m = cyclicWindow bits i m := by
  apply List.ext_getElem
  · simp only [cyclicWindow, List.length_take, List.length_drop, List.length_append,
      List.length_map, List.length_range]
    omega
  · intro j h1 h2
    have hj : j < m := by
      simp only [cyclicWindow, List.length_map, List.length_range] at h2
      exact h2
    simp only [cyclicWindow, List.getElem_take, List.getElem_drop, List.getElem_map,
      List.getElem_range]
    by_cases hlt : i + j < bits.length
    · rw [List.getElem_append_left hlt, Nat.mod_eq_of_lt hlt, List.getD_eq_getElem _ _ hlt]
    · have hge : bits.length ≤ i + j := by omega
      have hlt2 : i + j - bits.length < bits.length := by omega
      have hmod : (i + j) % bits.length = i + j - bits.length := by
        rw [Nat.mod_eq_sub_mod hge, Nat.mod_eq_of_lt hlt2]
      rw [List.getElem_append_right hge, List.getElem_take, hmod,
        List.getD_eq_getElem _ _ hlt2]

theorem cyclicWindow_bits (bits : List Int) (hbits : ∀ b ∈ bits, b = 0 ∨ b = 1)
    (i k : Nat) (hn : 0 < bits.length) :
    (cyclicWindow bits i k).length = k ∧ ∀ b ∈ cyclicWindow bits i k, b = 0 ∨ b = 1 := by
  constructor
  · simp [cyclicWindow]
  · intro b hb
    simp only [cyclicWindow, List.mem_map, List.mem_range] at hb
    obtain ⟨j, _, rfl⟩ := hb
    have hlt : (i + j) % bits.length < bits.length := Nat.mod_lt _ hn
    rw [List.getD_eq_getElem _ _ hlt]
    exact hbits _ (List.getElem_mem _)

/-- Adding one to bin `k` of a table given by a function. -/
theorem set_incr (g : Nat → Int) (size k : Nat) (hk : k < size) :
    ((List.range size).map g).set k ((((List.range size).map g)[k]?).getD 0 + 1)
      = (List.range size).map (fun v => g v + if v = k then 1 else 0) := by
  apply List.ext_getElem
  · simp
  · intro j h1 h2
    have hj : j < size := by simpa using h2
    have hk2 : k < ((List.range size).map g).length := by simpa using hk
    rw [List.getElem_set]
    simp only [List.getElem_map, List.getElem_range, List.getElem?_eq_getElem hk2,
      Option.getD_some]
    by_cases hkj : k = j
    · subst hkj; simp
    · have hjk : ¬ (j = k) := fun h => hkj h.symm
      simp [hkj, hjk]

/-- The loop that fills the bins: when every window value `f i` lies in `0 .. size-1`,
bin `v` grows by the number of offsets whose window value is `v`. -/
theorem bins_loop (T : IntegerType) (ext : List Int) (m size : Nat) (f : Nat → Nat)
    (is : List Nat)
    (hf : ∀ i ∈ is, sliceToInt T ((ext.drop i).take m) = .ok ((f i : Nat) : Int) ∧ f i < size)
    (g : Nat → Int) :
    is.foldlM (fun (bins : List Int) (i : Nat) =>
        match sliceToInt T ((ext.drop i).take m) with
        | .error e => (.error e : Except Failure (List Int))
        | .ok idx =>
          if idx < 0 ∨ (bins.length : Int) ≤ idx then .error .indexOutOfRange
          else .ok (bins.set idx.toNat (bins[idx.toNat]?.getD 0 + 1)))
        ((List.range size).map g)
      = .ok ((List.range size).map (fun v => g v + (is.countP (fun i => f i = v) : Nat))) := by
  induction is generalizing g with
  | nil => simp [pure, Except.pure]
  | cons i rest ih =>
    have hrest : ∀ x ∈ rest, sliceToInt T ((ext.drop x).take m) = .ok ((f x : Nat) : Int)
        ∧ f x < size := fun x hx => hf x (List.mem_cons_of_mem _ hx)
    obtain ⟨hi, hlt⟩ := hf i (List.mem_cons_self _ _)
    have hcond : ¬ (((f i : Nat) : Int) < 0
        ∨ ((((List.range size).map g).length : Nat) : Int) ≤ ((f i : Nat) : Int)) := by
      simp only [List.length_map, List.length_range]
      omega
    rw [List.foldlM_cons]
    simp only [hi, if_neg hcond, Int.toNat_ofNat, set_incr g size (f i) hlt]
    show List.foldlM _ _ rest = _
    rw [ih hrest]
    congr 1
    apply List.map_congr_left
    intro v _
    rw [List.countP_cons]
    by_cases hv : f i = v
    · subst hv
      simp
      ring
    · have hv2 : ¬ (v = f i) := fun h => hv h.symm
      simp [hv, hv2]

theorem patterns_getElem_value (k v : Nat) (hv : v < (patterns k).length) :
    windowValue ((patterns k)[v]) = (v : Int) := by
  have h := patterns_values k
  have h1 : ((patterns k).map windowValue)[v]? = some (windowValue ((patterns k)[v])) := by
    rw [List.getElem?_map, List.getElem?_eq_getElem hv]
    rfl
  have hv2 : v < 2 ^ k := by rwa [patterns_length] at hv
  rw [h, List.getElem?_map, List.getElem?_eq_getElem (by simpa using hv2)] at h1
  simp only [List.getElem_range, Option.map_some', Option.some.injEq] at h1
  exact h1.symm

/-- The histogram code past its checks: for `1 <= m <= 45` with `m - 1 <= n` the slice
is extended, `2^m` bins are made and the loop over the `n` windows runs. -/
theorem windowBins_unfold (T : IntegerType) (bits : List Int) (m : Nat) (hm : 1 ≤ m)
    (hmn : m - 1 ≤ bits.length) (h45 : m ≤ 45) :
    windowBins T bits (m : Int)
      = (List.range bits.length).foldlM (fun (bins : List Int) (i : Nat) =>
        match sliceToInt T (((bits ++ bits.take (m - 1)).drop i).take m) with
        | .error e => (.error e : Except Failure (List Int))
        | .ok idx =>
          if idx < 0 ∨ (bins.length : Int) ≤ idx then .error .indexOutOfRange
          else .ok (bins.set idx.toNat (bins[idx.toNat]?.getD 0 + 1)))
        (List.replicate (2 ^ m) (0 : Int)) := by
  have hcond : ¬ ((m : Int) - 1 < 0 ∨ (bits.length : Int) < (m : Int) - 1) := by omega
  have htn : ((m : Int) - 1).toNat = m - 1 := by omega
  have hpow : (2 : Int) ^ m ≤ 2 ^ 45 := pow_le_pow_right₀ (by norm_num) h45
  have hpow63 : (2 : Int) ^ m < 2 ^ 63 := by
    have h2 : (2 : Int) ^ 45 < 2 ^ 63 := by norm_num
    omega
  have hsize : IntegerType.int.wrap ((1 : Int) <<< (m : Int)) = ((2 ^ m : Nat) : Int) := by
    rw [Int.shiftLeft_eq_mul_pow, one_mul]
    apply wrap_int_small
    · positivity
    · push_cast; exact hpow63
  have hsz : ¬ (((2 ^ m : Nat) : Int) < 0 ∨ maxAlloc < 8 * ((2 ^ m : Nat) : Int)) := by
    rw [not_or, not_lt, not_lt]
    constructor
    · positivity
    · have h3 : (8 : Int) * 2 ^ 45 = 2 ^ 48 := by norm_num
      rw [maxAlloc, ← h3]
      push_cast
      omega
  simp only [windowBins, if_neg hcond, htn, hsize, if_neg hsz, Int.toNat_ofNat]

/-- The histogram the code builds when `sliceToInt` returns the number every window
spells: `2^m` bins, and the bin of a pattern holds the number of offsets whose cyclic
window reads that pattern. -/
theorem windowBins_of_fits (T : IntegerType) (bits : List Int) (m : Nat)
    (hbits : ∀ b ∈ bits, b = 0 ∨ b = 1) (hn : 0 < bits.length) (hm : 1 ≤ m)
    (hmn : m - 1 ≤ bits.length) (h45 : m ≤ 45)
    (hfits : ∀ i, i < bits.length →
      sliceToInt T (cyclicWindow bits i m) = .ok (windowValue (cyclicWindow bits i m))) :
    windowBins T bits (m : Int)
      = .ok ((patterns m).map (fun w => ((cyclicCount bits m w : Nat) : Int))) := by
  have hrep : List.replicate (2 ^ m) (0 : Int) = (List.range (2 ^ m)).map (fun _ => (0 : Int)) := by
    rw [List.map_const', List.length_range]
  have hf : ∀ i ∈ List.range bits.length,
      sliceToInt T (((bits ++ bits.take (m - 1)).drop i).take m)
        = .ok (((windowValue (cyclicWindow bits i m)).toNat : Nat) : Int)
      ∧ (windowValue (cyclicWindow bits i m)).toNat < 2 ^ m := by
    intro i hi
    rw [List.mem_range] at hi
    obtain ⟨hl, hb⟩ := cyclicWindow_bits bits hbits i m hn
    have hbd := windowValue_bounds _ hb
    rw [hl] at hbd
    rw [window_eq_cyclic bits m i hmn hi, hfits i hi, Int.toNat_of_nonneg hbd.1]
    refine ⟨rfl, ?_⟩
    have : (((windowValue (cyclicWindow bits i m)).toNat : Nat) : Int) < ((2 ^ m : Nat) : Int) := by
      rw [Int.toNat_of_nonneg hbd.1]; push_cast; exact hbd.2
    exact_mod_cast this
  have hloop := bins_loop T (bits ++ bits.take (m - 1)) m (2 ^ m)
    (fun i => (windowValue (cyclicWindow bits i m)).toNat) (List.range bits.length) hf
    (fun _ => 0)
  rw [windowBins_unfold T bits m hm hmn h45, hrep, hloop]
  refine congrArg Except.ok ?_
  apply List.ext_getElem
  · simp [patterns_length]
  · intro v h1 h2
    have hv : v < (patterns m).length := by simpa using h2
    have hc : (List.range bits.length).countP
          (fun i => decide ((windowValue (cyclicWindow bits i m)).toNat = v))
        = (List.range bits.length).countP
          (fun i => decide (cyclicWindow bits i m = (patterns m)[v])) := by
      apply List.countP_congr
      intro i hi
      rw [List.mem_range] at hi
      obtain ⟨hl, hb⟩ := cyclicWindow_bits bits hbits i m hn
      have hbd := windowValue_bounds _ hb
      obtain ⟨hpl, hpb⟩ := patterns_spec m _ (List.getElem_mem hv)
      have hpv := patterns_getElem_value m v hv
      simp only [decide_eq_true_eq]
      constructor
      · intro h
        apply windowValue_injective _ _ hb hpb (by rw [hl, hpl])
        rw [hpv, ← h, Int.toNat_of_nonneg hbd.1]
      · intro h
        rw [h, hpv]
        simp
    simp only [List.getElem_map, List.getElem_range, zero_add, cyclicCount, hc]

/-- The histogram the code builds when the element type holds the `m`-bit values. -/
theorem windowBins_eq (T : IntegerType) (bits : List Int) (m : Nat)
    (hbits : ∀ b ∈ bits, b = 0 ∨ b = 1) (hn : 0 < bits.length) (hm : 1 ≤ m)
    (hmn : m - 1 ≤ bits.length) (hfit : 2 ^ m - 1 ≤ T.maxVal) (h45 : m ≤ 45) :
    windowBins T bits (m : Int)
      = .ok ((patterns m).map (fun w => ((cyclicCount bits m w : Nat) : Int))) := by
  apply windowBins_of_fits T bits m hbits hn hm hmn h45
  intro i _
  obtain ⟨hl, hb⟩ := cyclicWindow_bits bits hbits i m hn
  have hne : cyclicWindow bits i m ≠ [] := by
    intro h
    rw [h] at hl
    simp at hl
    omega
  exact sliceToInt_bits T _ hb hne (by rw [hl]; exact hfit) (by rw [hl]; omega)

/-- A value between 0 and 255 is kept by every integer type but int8, which turns those
above 127 into negative numbers. -/
theorem wrap_byte (T : IntegerType) (x : Int) (h0 : 0 ≤ x) (h1 : x ≤ 255) :
    T.wrap x = x ∨ (T.wrap x = x - 256 ∧ 128 ≤ x) := by
  cases T <;>
    simp only [IntegerType.wrap, IntegerType.signed, IntegerType.width,
      if_true, Bool.false_eq_true, if_false] <;>
    norm_num <;> omega

theorem wrap_int_of_small (v : Int) (h0 : -2 ^ 63 ≤ v) (h1 : v < 2 ^ 63) :
    IntegerType.int.wrap v = v := by
  simp only [IntegerType.wrap, IntegerType.signed, IntegerType.width, if_true]
  norm_num at h0 h1 ⊢
  omega

/-- On a window of at most 8 bits `sliceToInt` returns the number the window spells, or
a negative number when the element type cannot hold it. -/
theorem sliceToInt_short (T : IntegerType) (w : List Int) (hw : ∀ b ∈ w, b = 0 ∨ b = 1)
    (hne : w ≠ []) (h8 : w.length ≤ 8) :
    sliceToInt T w = .ok (windowValue w)
      ∨ ∃ idx : Int, idx < 0 ∧ sliceToInt T w = .ok idx := by
  cases w with
  | nil => exact absurd rfl hne
  | cons first rest =>
    have hf := hw first (List.mem_cons_self _ _)
    have hf0 : 0 ≤ first := by rcases hf with h | h <;> omega
    have hf1 : first ≤ 1 := by rcases hf with h | h <;> omega
    rcases List.eq_nil_or_concat rest with hnil | ⟨init, b, hrest⟩
    · subst hnil
      left
      simp only [sliceToInt, List.foldl_nil, windowValue, List.foldl_cons, mul_zero, zero_add]
      rw [wrap_int_small _ hf0 (by omega)]
    · rw [List.concat_eq_append] at hrest
      subst hrest
      have hinit : ∀ x ∈ init, x = 0 ∨ x = 1 :=
        fun x hx => hw x (List.mem_cons_of_mem _ (List.mem_append_left _ hx))
      have hb : b = 0 ∨ b = 1 :=
        hw b (List.mem_cons_of_mem _ (List.mem_append_right _ (List.mem_singleton_self b)))
      have hlen : init.length ≤ 6 := by
        simp only [List.length_cons, List.length_append, List.length_nil] at h8
        omega
      have hp : (2 : Int) ^ init.length ≤ 2 ^ 6 := pow_le_pow_right₀ (by norm_num) hlen
      have hp0 : (0 : Int) < 2 ^ init.length := by positivity
      have hmax : (127 : Int) ≤ T.maxVal := by cases T <;> decide
      have hfold := sliceToInt_fold T init hinit first hf0 (by
        norm_num at hp
        nlinarith)
      have hbd := windowValue_bounds (first :: init)
        (fun x hx => hw x (by
          rcases List.mem_cons.mp hx with h | h
          · rw [h]; exact List.mem_cons_self _ _
          · exact List.mem_cons_of_mem _ (List.mem_append_left _ h)))
      have hval : windowValue (first :: init) = init.foldl (fun v b => 2 * v + b) first := by
        simp [windowValue]
      have hv7 : windowValue (first :: init) ≤ 127 := by
        have h1 : (2 : Int) ^ (first :: init).length ≤ 2 ^ 7 :=
          pow_le_pow_right₀ (by norm_num) (by simp only [List.length_cons]; omega)
        have h2 : (2 : Int) ^ 7 = 128 := by norm_num
        have h3 := hbd.2
        omega
      have hb0 : 0 ≤ b := by rcases hb with h | h <;> omega
      have hb1 : b ≤ 1 := by rcases hb with h | h <;> omega
      have hall : windowValue (first :: (init ++ [b])) = 2 * windowValue (first :: init) + b := by
        rw [← List.cons_append, windowValue_append]
      have hres : sliceToInt T (first :: (init ++ [b]))
          = .ok (IntegerType.int.wrap (T.wrap (2 * windowValue (first :: init) + b))) := by
        simp only [sliceToInt, List.foldl_append, List.foldl_cons, List.foldl_nil, hfold, ← hval]
        rw [lor_shift_bit _ b hbd.1 hb]
      rw [hres, hall]
      rcases wrap_byte T (2 * windowValue (first :: init) + b) (by omega) (by omega)
        with h | ⟨h, h128⟩
      · left
        rw [h, wrap_int_small _ (by omega) (by omega)]
      · right
        refine ⟨2 * windowValue (first :: init) + b - 256, by omega, ?_⟩
        rw [h, wrap_int_of_small _ (by omega) (by omega)]

/-- When the loop that fills the bins ends without a panic, every window had a value
that is not negative. -/
theorem bins_loop_ok (T : IntegerType) (ext : List Int) (m : Nat) (is : List Nat)
    (bins0 r : List Int)
    (h : is.foldlM (fun (bins : List Int) (i : Nat) =>
        match sliceToInt T ((ext.drop i).take m) with
        | .error e => (.error e : Except Failure (List Int))
        | .ok idx =>
          if idx < 0 ∨ (bins.length : Int) ≤ idx then .error .indexOutOfRange
          else .ok (bins.set idx.toNat (bins[idx.toNat]?.getD 0 + 1))) bins0 = .ok r) :
    ∀ i ∈ is, ∃ idx : Int, sliceToInt T ((ext.drop i).take m) = .ok idx ∧ 0 ≤ idx := by
  induction is generalizing bins0 with
  | nil => intro i hi; simp at hi
  | cons a rest ih =>
    rw [List.foldlM_cons] at h
    cases hs : sliceToInt T ((ext.drop a).take m) with
    | error e =>
      rw [hs] at h
      simp only [bind, Except.bind] at h
      cases h
    | ok idx =>
      rw [hs] at h
      simp only at h
      by_cases hc : idx < 0 ∨ (bins0.length : Int) ≤ idx
      · rw [if_pos hc] at h
        simp only [bind, Except.bind] at h
        cases h
      · rw [if_neg hc] at h
        rw [not_or] at hc
        intro i hi
        rcases List.mem_cons.mp hi with hia | hir
        · subst hia
          exact ⟨idx, hs, not_lt.mp hc.1⟩
        · exact ih _ h i hir

/-- A loop over a list fails only with a failure one of its steps can raise. -/
theorem foldlM_error {α β : Type} (step : β → α → Except Failure β) (P : Failure → Prop)
    (hstep : ∀ b a e, step b a = .error e → P e) (l : List α) (init : β) (e : Failure)
    (h : l.foldlM step init = .error e) : P e := by
  induction l generalizing init with
  | nil => simp [pure, Except.pure] at h
  | cons a rest ih =>
    rw [List.foldlM_cons] at h
    cases hs : step init a with
    | error e2 =>
      rw [hs] at h
      simp only [bind, Except.bind, Except.error.injEq] at h
      subst h
      exact hstep _ _ _ hs
    | ok b2 =>
      rw [hs] at h
      exact ih b2 h

/-- The histogram code fails with one of three runtime panics. -/
theorem windowBins_error (T : IntegerType) (bits : List Int) (m : Int) (e : Failure)
    (h : windowBins T bits m = .error e) :
    e = .sliceBounds ∨ e = .makeLen ∨ e = .indexOutOfRange := by
  simp only [windowBins] at h
  split_ifs at h with c1 c2
  · cases h; exact Or.inl rfl
  · cases h; exact Or.inr (Or.inl rfl)
  · refine foldlM_error _ (fun e => e = .sliceBounds ∨ e = .makeLen ∨ e = .indexOutOfRange)
      ?_ _ _ e h
    intro bins i e2 hs
    cases hw : sliceToInt T (List.take m.toNat (List.drop i (bits ++ List.take (m - 1).toNat bits))) with
    | error e3 =>
      rw [hw] at hs
      simp only [Except.error.injEq] at hs
      subst hs
      cases hd : List.take m.toNat (List.drop i (bits ++ List.take (m - 1).toNat bits)) with
      | nil => rw [hd] at hw; simp only [sliceToInt] at hw; cases hw; exact Or.inr (Or.inr rfl)
      | cons a r => rw [hd] at hw; simp only [sliceToInt] at hw; cases hw
    | ok idx =>
      rw [hw] at hs
      simp only at hs
      split_ifs at hs
      cases hs; exact Or.inr (Or.inr rfl)

/-- On a non-empty sequence of 0s and 1s and windows of at most 8 bits the histogram
code returns the histogram of the cyclic windows, or stops on an index out of range (a
window whose value the element type cannot hold). -/
theorem windowBins_short (T : IntegerType) (bits : List Int) (m : Nat)
    (hbits : ∀ b ∈ bits, b = 0 ∨ b = 1) (hn : 0 < bits.length) (hm : 1 ≤ m)
    (hm8 : m ≤ 8) (hmn : m - 1 ≤ bits.length) :
    windowBins T bits (m : Int)
        = .ok ((patterns m).map (fun w => ((cyclicCount bits m w : Nat) : Int)))
      ∨ windowBins T bits (m : Int) = .error .indexOutOfRange := by
  cases hwb : windowBins T bits (m : Int) with
  | error e =>
    right
    have hu := windowBins_unfold T bits m hm hmn (by omega)
    rw [hwb] at hu
    have he : e = .indexOutOfRange := by
      refine foldlM_error _ (fun e => e = .indexOutOfRange) ?_ _ _ e hu.symm
      intro bins i e2 hs
      cases hw : sliceToInt T (((bits ++ bits.take (m - 1)).drop i).take m) with
      | error e3 =>
        rw [hw] at hs
        simp only [Except.error.injEq] at hs
        subst hs
        cases hd : ((bits ++ bits.take (m - 1)).drop i).take m with
        | nil => rw [hd] at hw; simp only [sliceToInt] at hw; cases hw; rfl
        | cons a r => rw [hd] at hw; simp only [sliceToInt] at hw; cases hw
      | ok idx =>
        rw [hw] at hs
        simp only at hs
        split_ifs at hs
        cases hs; rfl
    rw [he]
  | ok bins =>
    left
    rw [← hwb]
    apply windowBins_of_fits T bits m hbits hn hm hmn (by omega)
    intro i hi
    have hu := windowBins_unfold T bits m hm hmn (by omega)
    rw [hwb] at hu
    obtain ⟨idx, hidx, hpos⟩ := bins_loop_ok T _ m _ _ bins hu.symm i (List.mem_range.mpr hi)
    rw [window_eq_cyclic bits m i hmn hi] at hidx
    obtain ⟨hl, hb⟩ := cyclicWindow_bits bits hbits i m hn
    have hne : cyclicWindow bits i m ≠ [] := by
      intro h
      rw [h] at hl
      simp at hl
      omega
    rcases sliceToInt_short T _ hb hne (by rw [hl]; exact hm8) with h | ⟨idx2, hneg, h⟩
    · exact h
    · rw [h] at hidx
      simp only [Except.ok.injEq] at hidx
      omega

theorem wrap_one_shift (m : Nat) (h62 : m ≤ 62) :
    IntegerType.int.wrap ((1 : Int) <<< (m : Int)) = ((2 ^ m : Nat) : Int) := by
  have hpow : (2 : Int) ^ m < 2 ^ 63 := by
    have h1 : (2 : Int) ^ m ≤ 2 ^ 62 := pow_le_pow_right₀ (by norm_num) h62
    have h2 : (2 : Int) ^ 62 < 2 ^ 63 := by norm_num
    omega
  rw [Int.shiftLeft_eq_mul_pow, one_mul]
  apply wrap_int_small
  · positivity
  · push_cast; exact hpow

theorem fits_mono (T : IntegerType) (k m : Nat) (hkm : k ≤ m) (hT : 2 ^ m - 1 ≤ T.maxVal) :
    2 ^ k - 1 ≤ T.maxVal := by
  have h : (2 : Int) ^ k ≤ 2 ^ m := pow_le_pow_right₀ (by norm_num) hkm
  omega

/-- A panic ends the call whatever follows it in the code. -/
theorem andThen_of_panic {α : Type} (e : Failure) (next : Except Failure α)
    (h : e ≠ .notANumber) : e.andThen next = e := by
  simp only [Failure.andThen, if_neg h]

/-- From the histogram of the cyclic windows `serialPsiSqr` computes the psi-square of
the specification. -/
theorem serialPsiSqr_of_bins (T : IntegerType) (bits : List Int) (m : Nat)
    (hn : 0 < bits.length)
    (h : windowBins T bits (m : Int)
      = .ok ((patterns m).map (fun w => ((cyclicCount bits m w : Nat) : Int)))) :
    (serialPsiSqr T bits (m : Int) : Except Failure R) = .ok (specPsi2 bits m) := by
  have hn0 : ¬ (bits.length = 0) := by omega
  have hsum : (((patterns m).map (fun w => ((cyclicCount bits m w : Nat) : Int))).map
        (fun count => ((count * count : Int) : R))).sum
      = ((patterns m).map (fun w => ((cyclicCount bits m w : Nat) : R) ^ 2)).sum := by
    rw [List.map_map]
    refine congrArg List.sum (List.map_congr_left ?_)
    intro w _
    simp only [Function.comp]
    push_cast
    ring
  simp only [serialPsiSqr, h, if_neg hn0, hsum, specPsi2, zpow_natCast]

/-- On a non-empty sequence of 0s and 1s, `serialPsiSqr` returns the psi-square of the
specification. -/
theorem serialPsiSqr_eq (T : IntegerType) (bits : List Int) (m : Nat)
    (hbits : ∀ b ∈ bits, b = 0 ∨ b = 1) (hn : 0 < bits.length) (hm : 1 ≤ m)
    (hmn : m - 1 ≤ bits.length) (hfit : 2 ^ m - 1 ≤ T.maxVal) (h45 : m ≤ 45) :
    (serialPsiSqr T bits (m : Int) : Except Failure R) = .ok (specPsi2 bits m) :=
  serialPsiSqr_of_bins T bits m hn (windowBins_eq T bits m hbits hn hm hmn hfit h45)

/-- For windows of at most 8 bits and every element type, `serialPsiSqr` returns the
psi-square of the specification or stops on an index out of range. -/
theorem serialPsiSqr_short (T : IntegerType) (bits : List Int) (m : Nat)
    (hbits : ∀ b ∈ bits, b = 0 ∨ b = 1) (hn : 0 < bits.length) (hm : 1 ≤ m)
    (hm8 : m ≤ 8) (hmn : m - 1 ≤ bits.length) :
    (serialPsiSqr T bits (m : Int) : Except Failure R) = .ok (specPsi2 bits m)
      ∨ (serialPsiSqr T bits (m : Int) : Except Failure R) = .error .indexOutOfRange := by
  rcases windowBins_short T bits m hbits hn hm hm8 hmn with h | h
  · exact Or.inl (serialPsiSqr_of_bins T bits m hn h)
  · right
    simp only [serialPsiSqr, h]

theorem specPsi2_of_counts (bits : List Int) (k : Nat) (cs : List Nat)
    (h : (patterns k).map (cyclicCount bits k) = cs) :
    (specPsi2 bits k : R)
      = (2 : R) ^ k / (bits.length : R) * (cs.map (fun c : Nat => (c : R) ^ 2)).sum
        - (bits.length : R) := by
  rw [specPsi2, ← h, List.map_map]
  rfl

theorem serialBits_counts :
    (patterns 3).map (cyclicCount serialBits 3) = [0, 1, 1, 2, 1, 2, 2, 1]
    ∧ (patterns 2).map (cyclicCount serialBits 2) = [1, 3, 3, 3]
    ∧ (patterns 1).map (cyclicCount serialBits 1) = [4, 6] := by
  decide

/-- From the histogram of the cyclic windows `appEntropyPhi` computes the phi of the
specification. -/
theorem appEntropyPhi_of_bins (fn : Special R) (T : IntegerType) (bits : List Int) (m : Nat)
    (hn : 0 < bits.length)
    (h : windowBins T bits (m : Int)
      = .ok ((patterns m).map (fun w => ((cyclicCount bits m w : Nat) : Int)))) :
    appEntropyPhi fn T bits (m : Int) = .ok (specPhi fn.Log bits m) := by
  have hn0 : ¬ (bits.length = 0) := by omega
  have hnR : (0 : R) < (bits.length : R) := by exact_mod_cast hn
  have hfilter : (patterns m).filter
        ((fun c : R => decide (¬ c = 0)) ∘
          (fun (count : Int) => (count : R) / (bits.length : R)) ∘
          (fun w => ((cyclicCount bits m w : Nat) : Int)))
      = (patterns m).filter (fun w => decide (0 < cyclicCount bits m w)) := by
    apply List.filter_congr
    intro w _
    simp only [Function.comp, Int.cast_natCast, div_eq_zero_iff, Nat.cast_eq_zero,
      ne_of_gt hnR, or_false, decide_not, Nat.pos_iff_ne_zero]
  simp only [appEntropyPhi, h, if_neg hn0, specPhi, List.map_map, List.filter_map, hfilter]
  refine congrArg Except.ok (congrArg List.sum (List.map_congr_left ?_))
  intro w _
  simp only [Function.comp, Int.cast_natCast]

/-- On a non-empty sequence of 0s and 1s, `appEntropyPhi` returns the phi of the
specification. -/
theorem appEntropyPhi_eq (fn : Special R) (T : IntegerType) (bits : List Int) (m : Nat)
    (hbits : ∀ b ∈ bits, b = 0 ∨ b = 1) (hn : 0 < bits.length) (hm : 1 ≤ m)
    (hmn : m - 1 ≤ bits.length) (hfit : 2 ^ m - 1 ≤ T.maxVal) (h45 : m ≤ 45) :
    appEntropyPhi fn T bits (m : Int) = .ok (specPhi fn.Log bits m) :=
  appEntropyPhi_of_bins fn T bits m hn (windowBins_eq T bits m hbits hn hm hmn hfit h45)

/-- For windows of at most 8 bits and every element type, `appEntropyPhi` returns the
phi of the specification or stops on an index out of range. -/
theorem appEntropyPhi_short (fn : Special R) (T : IntegerType) (bits : List Int) (m : Nat)
    (hbits : ∀ b ∈ bits, b = 0 ∨ b = 1) (hn : 0 < bits.length) (hm : 1 ≤ m)
    (hm8 : m ≤ 8) (hmn : m - 1 ≤ bits.length) :
    appEntropyPhi fn T bits (m : Int) = .ok (specPhi fn.Log bits m)
      ∨ appEntropyPhi fn T bits (m : Int) = .error .indexOutOfRange := by
  rcases windowBins_short T bits m hbits hn hm hm8 hmn with h | h
  · exact Or.inl (appEntropyPhi_of_bins fn T bits m hn h)
  · right
    simp only [appEntropyPhi, h]

theorem entropyBits_counts :
    (patterns 3).map (cyclicCount entropyBits 3) = [0, 1, 3, 1, 1, 3, 1, 0]
    ∧ (patterns 4).map (cyclicCount entropyBits 4)
        = [0, 0, 0, 1, 1, 2, 1, 0, 0, 1, 3, 0, 0, 1, 0, 0] := by
  decide

theorem three_le_maxVal (T : IntegerType) : (2 : Int) ^ 2 - 1 ≤ T.maxVal := by
  cases T <;> decide

/-- The histogram for windows of no element cannot be built: `bits[:m-1]` is `bits[:-1]`. -/
theorem serialPsiSqr_zero (T : IntegerType) (bits : List Int) :
    (serialPsiSqr T bits 0 : Except Failure R) = .error .sliceBounds := by
  simp [serialPsiSqr, windowBins]

/-- C9, on the inputs where it fails: for every 0/1 sequence of length n >= 2, Serial
with m = 2 computes psi2(2) and psi2(1) and then fails on psi2(0) with the runtime panic
"slice bounds out of range" instead of returning a pair. -/
theorem Serial_two_fails (fn : Special R) (T : IntegerType) (bits : List Int)
    (hbits : ∀ b ∈ bits, b = 0 ∨ b = 1) (hn : 2 ≤ bits.length) :
    Serial fn T bits 2 = .error .sliceBounds := by
  have p2 := serialPsiSqr_eq (R := R) T bits 2 hbits (by omega) (by omega) (by omega)
    (three_le_maxVal T) (by omega)
  have p1 := serialPsiSqr_eq (R := R) T bits 1 hbits (by omega) (by omega) (by omega)
    (fits_mono T 1 2 (by omega) (three_le_maxVal T)) (by omega)
  have h2 : ((2 : Nat) : Int) = 2 := rfl
  have h1 : ((1 : Nat) : Int) = 1 := rfl
  rw [h2] at p2
  rw [h1] at p1
  have e1 : (2 : Int) - 1 = 1 := rfl
  have e2 : (2 : Int) - 2 = 0 := rfl
  simp only [Serial, e1, e2, p2, p1, serialPsiSqr_zero]
  rw [andThen_of_panic _ _ (by decide)]

/-- Witness of the C9 theorem on the string of TestSerial1. -/
theorem Serial_two_fails_witness :
    (∀ b ∈ serialBits, b = 0 ∨ b = 1) ∧ 2 ≤ serialBits.length ∧
    Serial plainFn IntegerType.uint8 serialBits 2 = .error .sliceBounds :=
  ⟨by decide, by decide,
    Serial_two_fails plainFn IntegerType.uint8 serialBits (by decide) (by decide)⟩

/-! ### The tests that return on every sequence of at least 100 elements -/

theorem MonoBit_ok (fn : Special R) (bits : List Int)
    (hbits : ∀ b ∈ bits, b = 0 ∨ b = 1) (hlen : 100 ≤ bits.length) :
    ∃ S : Int, MonoBit fn bits
      = .ok (fn.Erfc (|(S : R)| / fn.Sqrt (bits.length : R) / fn.Sqrt 2)) := by
  have hn : ¬ ((bits.length : R) < 100) := by
    rw [not_lt]
    exact_mod_cast hlen
  refine ⟨0 + 2 * (bits.count 1 : Int) - (bits.length : Int), ?_⟩
  simp only [MonoBit, if_neg hn, sumLoop_bits bits hbits 0]

theorem Runs_ok (fn : Special R) (bits : List Int) (hlen : 100 ≤ bits.length) :
    ∃ p, Runs fn bits = .ok p := by
  cases bits with
  | nil => simp at hlen
  | cons first rest => exact ⟨_, Runs_eq fn first rest hlen⟩

/-- The statistic of LongestRunOfOnes8 is a sum of squares over positive numbers, so the
call of `GammaIncRegComp` is inside its domain on every non-empty sequence. -/
theorem LongestRunOfOnes8_ok (fn : Special R) (bits : List Int) (hlen : bits.length ≠ 0) :
    ∃ a x, LongestRunOfOnes8 fn bits = .ok (fn.GammaIncRegComp a x) := by
  simp only [LongestRunOfOnes8, if_neg hlen]
  exact ⟨_, _, GammaIncRegComp_ok fn _ _ (by norm_num) (by positivity)⟩

/-- Frequency returns on every sequence of at least 100 elements when the block size
lies between 1 and the length: there is a block, and the statistic is a sum of squares. -/
theorem Frequency_ok (fn : Special R) (bits : List Int) (M : Nat) (hM : 1 ≤ M)
    (hMn : M ≤ bits.length) (hlen : 100 ≤ bits.length) :
    ∃ a x, Frequency fn bits (M : Int) = .ok (fn.GammaIncRegComp a x) := by
  rw [Frequency_eq fn bits M hM hlen]
  refine ⟨_, _, GammaIncRegComp_ok fn _ _ ?_ ?_⟩
  · have h1 : 1 ≤ bits.length / M := (Nat.one_le_div_iff (by omega)).mpr hMn
    have h2 : (0 : R) < (((bits.length / M : Nat) : Int) : R) := by exact_mod_cast h1
    positivity
  · have hs : (0 : R) ≤ (((List.range (bits.length / M)).map (fun i =>
          (((((bits.drop (i * M)).take M).map IntegerType.int.wrap).sum : Int) : R)
            / (((M : Int)) : R))).map (fun val => (val - 0.5) ^ 2)).sum := by
      apply List.sum_nonneg
      intro x hx
      rw [List.mem_map] at hx
      obtain ⟨y, _, rfl⟩ := hx
      positivity
    have hMR : (0 : R) ≤ (((M : Int)) : R) := by exact_mod_cast Nat.zero_le M
    positivity

theorem fifteen_le_maxVal (T : IntegerType) : (2 : Int) ^ (3 + 1) - 1 ≤ T.maxVal := by
  cases T <;> decide

/-- C2: RunAll calls MonoBit, Frequency (block size 3), Runs, LongestRunOfOnes8, Serial
(m = 3) and AppEntropy (m = 3) in that order, and what it returns is fixed by the results
of the tests up to the first that does not return a p-value (or pair) of at least 0.01:
when a test returns a p-value below 0.01 (for Serial, one of the two), the earlier ones
having returned at least 0.01, RunAll returns the error of that test with its
p-value(s), whatever the later tests would do; when a test fails, RunAll fails in the
same way; and RunAll returns success if and only if all six tests return and their seven
p-values are at least 0.01.  Nothing is assumed of the sequence. -/
theorem RunAll_verdict (fn : Special R) (T : IntegerType) (b : List Int) :
    (∀ e, MonoBit fn b = .error e → RunAll fn T b = .error e) ∧
    (∀ p1, MonoBit fn b = .ok p1 →
      (p1 < 0.01 → RunAll fn T b = .ok (.failedMonobit p1)) ∧
      (0.01 ≤ p1 →
        (∀ e, Frequency fn b 3 = .error e → RunAll fn T b = .error e) ∧
        (∀ p2, Frequency fn b 3 = .ok p2 →
          (p2 < 0.01 → RunAll fn T b = .ok (.failedFrequency p2)) ∧
          (0.01 ≤ p2 →
            (∀ e, Runs fn b = .error e → RunAll fn T b = .error e) ∧
            (∀ p3, Runs fn b = .ok p3 →
              (p3 < 0.01 → RunAll fn T b = .ok (.failedRuns p3)) ∧
              (0.01 ≤ p3 →
                (∀ e, LongestRunOfOnes8 fn b = .error e → RunAll fn T b = .error e) ∧
                (∀ p4, LongestRunOfOnes8 fn b = .ok p4 →
                  (p4 < 0.01 → RunAll fn T b = .ok (.failedLongestRunOfOnes8 p4)) ∧
                  (0.01 ≤ p4 →
                    (∀ e, Serial fn T b 3 = .error e → RunAll fn T b = .error e) ∧
                    (∀ p5 p6, Serial fn T b 3 = .ok (p5, p6) →
                      (p5 < 0.01 ∨ p6 < 0.01 →
                        RunAll fn T b = .ok (.failedSerial p5 p6)) ∧
                      (0.01 ≤ p5 → 0.01 ≤ p6 →
                        (∀ e, AppEntropy fn T b 3 = .error e →
                          RunAll fn T b = .error e) ∧
                        (∀ p7, AppEntropy fn T b 3 = .ok p7 →
                          (p7 < 0.01 → RunAll fn T b = .ok (.failedAppEntropy p7)) ∧
                          (0.01 ≤ p7 → RunAll fn T b = .ok .pass)))))))))))) ∧
    (RunAll fn T b = .ok .pass ↔
      ∃ p1 p2 p3 p4 p5 p6 p7 : R,
        MonoBit fn b = .ok p1 ∧ Frequency fn b 3 = .ok p2 ∧ Runs fn b = .ok p3 ∧
        LongestRunOfOnes8 fn b = .ok p4 ∧ Serial fn T b 3 = .ok (p5, p6) ∧
        AppEntropy fn T b 3 = .ok p7 ∧
        0.01 ≤ p1 ∧ 0.01 ≤ p2 ∧ 0.01 ≤ p3 ∧ 0.01 ≤ p4 ∧ 0.01 ≤ p5 ∧ 0.01 ≤ p6 ∧ 0.01 ≤ p7) := by
  refine ⟨?_, ?_, ?_⟩
  · intro e h
    simp only [RunAll, h]
  · intro p1 h1
    refine ⟨fun c => by simp only [RunAll, h1, if_pos c], fun a1 => ?_⟩
    have n1 : ¬ p1 < 0.01 := not_lt.mpr a1
    refine ⟨fun e h => by simp only [RunAll, h1, if_neg n1, h], fun p2 h2 => ?_⟩
    refine ⟨fun c => by simp only [RunAll, h1, if_neg n1, h2, if_pos c], fun a2 => ?_⟩
    have n2 : ¬ p2 < 0.01 := not_lt.mpr a2
    refine ⟨fun e h => by simp only [RunAll, h1, if_neg n1, h2, if_neg n2, h],
      fun p3 h3 => ?_⟩
    refine ⟨fun c => by simp only [RunAll, h1, if_neg n1, h2, if_neg n2, h3, if_pos c],
      fun a3 => ?_⟩
    have n3 : ¬ p3 < 0.01 := not_lt.mpr a3
    refine ⟨fun e h => by simp only [RunAll, h1, if_neg n1, h2, if_neg n2, h3, if_neg n3, h],
      fun p4 h4 => ?_⟩
    refine ⟨fun c => by
      simp only [RunAll, h1, if_neg n1, h2, if_neg n2, h3, if_neg n3, h4, if_pos c],
      fun a4 => ?_⟩
    have n4 : ¬ p4 < 0.01 := not_lt.mpr a4
    refine ⟨fun e h => by
      simp only [RunAll, h1, if_neg n1, h2, if_neg n2, h3, if_neg n3, h4, if_neg n4, h],
      fun p5 p6 h5 => ?_⟩
    refine ⟨fun c => by
      simp only [RunAll, h1, if_neg n1, h2, if_neg n2, h3, if_neg n3, h4, if_neg n4, h5,
        if_pos c],
      fun a5 a6 => ?_⟩
    have n5 : ¬ (p5 < 0.01 ∨ p6 < 0.01) := by
      rw [not_or]
      exact ⟨not_lt.mpr a5, not_lt.mpr a6⟩
    refine ⟨fun e h => by
      simp only [RunAll, h1, if_neg n1, h2, if_neg n2, h3, if_neg n3, h4, if_neg n4, h5,
        if_neg n5, h],
      fun p7 h7 => ?_⟩
    refine ⟨fun c => by
      simp only [RunAll, h1, if_neg n1, h2, if_neg n2, h3, if_neg n3, h4, if_neg n4, h5,
        if_neg n5, h7, if_pos c],
      fun a7 => by
      simp only [RunAll, h1, if_neg n1, h2, if_neg n2, h3, if_neg n3, h4, if_neg n4, h5,
        if_neg n5, h7, if_neg (not_lt.mpr a7)]⟩
  · constructor
    · intro h
      simp only [RunAll] at h
      cases h1 : MonoBit fn b with
      | error e => rw [h1] at h; cases h
      | ok p1 =>
        rw [h1] at h
        simp only at h
        by_cases c1 : p1 < 0.01
        · rw [if_pos c1] at h; cases h
        rw [if_neg c1] at h
        cases h2 : Frequency fn b 3 with
        | error e => rw [h2] at h; cases h
        | ok p2 =>
          rw [h2] at h
          simp only at h
          by_cases c2 : p2 < 0.01
          · rw [if_pos c2] at h; cases h
          rw [if_neg c2] at h
          cases h3 : Runs fn b with
          | error e => rw [h3] at h; cases h
          | ok p3 =>
            rw [h3] at h
            simp only at h
            by_cases c3 : p3 < 0.01
            · rw [if_pos c3] at h; cases h
            rw [if_neg c3] at h
            cases h4 : LongestRunOfOnes8 fn b with
            | error e => rw [h4] at h; cases h
            | ok p4 =>
              rw [h4] at h
              simp only at h
              by_cases c4 : p4 < 0.01
              · rw [if_pos c4] at h; cases h
              rw [if_neg c4] at h
              cases h5 : Serial fn T b 3 with
              | error e => rw [h5] at h; cases h
              | ok pq =>
                obtain ⟨p5, p6⟩ := pq
                rw [h5] at h
                simp only at h
                by_cases c5 : p5 < 0.01 ∨ p6 < 0.01
                · rw [if_pos c5] at h; cases h
                rw [if_neg c5] at h
                rw [not_or] at c5
                cases h7 : AppEntropy fn T b 3 with
                | error e => rw [h7] at h; cases h
                | ok p7 =>
                  rw [h7] at h
                  simp only at h
                  by_cases c7 : p7 < 0.01
                  · rw [if_pos c7] at h; cases h
                  exact ⟨p1, p2, p3, p4, p5, p6, p7, rfl, rfl, rfl, rfl, rfl, rfl,
                    not_lt.mp c1, not_lt.mp c2, not_lt.mp c3, not_lt.mp c4, not_lt.mp c5.1,
                    not_lt.mp c5.2, not_lt.mp c7⟩
    · rintro ⟨p1, p2, p3, p4, p5, p6, p7, h1, h2, h3, h4, h5, h7, a1, a2, a3, a4, a5, a6, a7⟩
      simp only [RunAll, h1, h2, h3, h4, h5, h7, if_neg (not_lt.mpr a1),
        if_neg (not_lt.mpr a2), if_neg (not_lt.mpr a3), if_neg (not_lt.mpr a4),
        if_neg (not_lt.mpr a7)]
      rw [if_neg (by rw [not_or]; exact ⟨not_lt.mpr a5, not_lt.mpr a6⟩)]

/-! ### Elements other than 0 and 1 -/

theorem sumLoop_bad (bits : List Int) (h : ∃ b ∈ bits, b ≠ 0 ∧ b ≠ 1) (s : Int) :
    MonoBit.sumLoop bits s = .error .unknownVal := by
  induction bits generalizing s with
  | nil =>
    obtain ⟨b, hb, _⟩ := h
    simp at hb
  | cons a rest ih =>
    by_cases h0 : a = 0
    · obtain ⟨b, hb, hb0, hb1⟩ := h
      have hrest : ∃ x ∈ rest, x ≠ 0 ∧ x ≠ 1 := by
        rcases List.mem_cons.mp hb with hba | hbr
        · exact absurd (hba.trans h0) hb0
        · exact ⟨b, hbr, hb0, hb1⟩
      simp only [MonoBit.sumLoop, if_pos h0, ih hrest]
    · by_cases h1 : a = 1
      · obtain ⟨b, hb, hb0, hb1⟩ := h
        have hrest : ∃ x ∈ rest, x ≠ 0 ∧ x ≠ 1 := by
          rcases List.mem_cons.mp hb with hba | hbr
          · exact absurd (hba.trans h1) hb1
          · exact ⟨b, hbr, hb0, hb1⟩
        simp only [MonoBit.sumLoop, if_neg h0, if_pos h1, ih hrest]
      · simp only [MonoBit.sumLoop, if_neg h0, if_neg h1]

theorem runtime_ne_nan (e : Failure)
    (h : e = .sliceBounds ∨ e = .makeLen ∨ e = .indexOutOfRange) : e ≠ .notANumber := by
  rcases h with h | h | h <;> rw [h] <;> decide

/-- On a non-empty sequence `serialPsiSqr` fails with a panic of the histogram code only. -/
theorem serialPsiSqr_error (T : IntegerType) (bits : List Int) (m : Int) (e : Failure)
    (hn : bits.length ≠ 0)
    (h : (serialPsiSqr T bits m : Except Failure R) = .error e) :
    e = .sliceBounds ∨ e = .makeLen ∨ e = .indexOutOfRange := by
  simp only [serialPsiSqr] at h
  cases hw : windowBins T bits m with
  | error e2 =>
    rw [hw] at h
    simp only [Except.error.injEq] at h
    subst h
    exact windowBins_error T bits m _ hw
  | ok bins =>
    rw [hw] at h
    simp only [if_neg hn] at h
    cases h

/-- On a non-empty sequence Serial fails with a panic of the histogram code or with the
panic of `GammaIncRegComp`. -/
theorem Serial_error (fn : Special R) (T : IntegerType) (bits : List Int) (m : Int)
    (e : Failure) (hn : bits.length ≠ 0) (h : Serial fn T bits m = .error e) :
    e = .sliceBounds ∨ e = .makeLen ∨ e = .indexOutOfRange ∨ e = .paramOutOfBounds := by
  have lift : ∀ e2 : Failure, (e2 = .sliceBounds ∨ e2 = .makeLen ∨ e2 = .indexOutOfRange) →
      e2 = .sliceBounds ∨ e2 = .makeLen ∨ e2 = .indexOutOfRange ∨ e2 = .paramOutOfBounds := by
    intro e2 h2
    rcases h2 with h2 | h2 | h2
    · exact Or.inl h2
    · exact Or.inr (Or.inl h2)
    · exact Or.inr (Or.inr (Or.inl h2))
  simp only [Serial] at h
  cases h0 : (serialPsiSqr T bits m : Except Failure R) with
  | error e2 =>
    have he2 := serialPsiSqr_error T bits m e2 hn h0
    rw [h0] at h
    simp only at h
    rw [andThen_of_panic _ _ (runtime_ne_nan _ he2)] at h
    simp only [Except.error.injEq] at h
    subst h
    exact lift _ he2
  | ok a0 =>
    rw [h0] at h
    simp only at h
    cases h1 : (serialPsiSqr T bits (m - 1) : Except Failure R) with
    | error e2 =>
      have he2 := serialPsiSqr_error T bits (m - 1) e2 hn h1
      rw [h1] at h
      simp only at h
      rw [andThen_of_panic _ _ (runtime_ne_nan _ he2)] at h
      simp only [Except.error.injEq] at h
      subst h
      exact lift _ he2
    | ok a1 =>
      rw [h1] at h
      simp only at h
      cases h2 : (serialPsiSqr T bits (m - 2) : Except Failure R) with
      | error e2 =>
        have he2 := serialPsiSqr_error T bits (m - 2) e2 hn h2
        rw [h2] at h
        simp only at h
        rw [andThen_of_panic _ _ (runtime_ne_nan _ he2)] at h
        simp only [Except.error.injEq] at h
        subst h
        exact lift _ he2
      | ok a2 =>
        rw [h2] at h
        simp only at h
        cases h3 : mathext.GammaIncRegComp fn (0.5 * (2 : R) ^ (m - 1)) (0.5 * (a0 - a1)) with
        | error e2 =>
          rw [h3] at h
          simp only [Except.error.injEq] at h
          subst h
          exact Or.inr (Or.inr (Or.inr (GammaIncRegComp_error fn _ _ _ h3)))
        | ok q1 =>
          rw [h3] at h
          simp only at h
          cases h4 : mathext.GammaIncRegComp fn (0.5 * (2 : R) ^ (m - 2))
              (0.5 * (a0 - 2.0 * a1 + a2)) with
          | error e2 =>
            rw [h4] at h
            simp only [Except.error.injEq] at h
            subst h
            exact Or.inr (Or.inr (Or.inr (GammaIncRegComp_error fn _ _ _ h4)))
          | ok q2 =>
            rw [h4] at h
            cases h

/-- On a non-empty sequence `appEntropyPhi` fails with a panic of the histogram code
only. -/
theorem appEntropyPhi_error (fn : Special R) (T : IntegerType) (bits : List Int) (m : Int)
    (e : Failure) (hn : bits.length ≠ 0) (h : appEntropyPhi fn T bits m = .error e) :
    e = .sliceBounds ∨ e = .makeLen ∨ e = .indexOutOfRange := by
  simp only [appEntropyPhi] at h
  cases hw : windowBins T bits m with
  | error e2 =>
    rw [hw] at h
    simp only [Except.error.injEq] at h
    subst h
    exact windowBins_error T bits m _ hw
  | ok bins =>
    rw [hw] at h
    simp only [if_neg hn] at h
    cases h

/-- On a non-empty sequence `appEntropyM` fails with a panic of the histogram code only. -/
theorem appEntropyM_error (fn : Special R) (T : IntegerType) (bits : List Int) (m : Int)
    (e : Failure) (hn : bits.length ≠ 0) (h : appEntropyM fn T bits m = .error e) :
    e = .sliceBounds ∨ e = .makeLen ∨ e = .indexOutOfRange := by
  simp only [appEntropyM] at h
  cases h0 : appEntropyPhi fn T bits m with
  | error e2 =>
    have he2 := appEntropyPhi_error fn T bits m e2 hn h0
    rw [h0] at h
    simp only at h
    rw [andThen_of_panic _ _ (runtime_ne_nan _ he2)] at h
    simp only [Except.error.injEq] at h
    subst h
    exact he2
  | ok a0 =>
    rw [h0] at h
    simp only at h
    cases h1 : appEntropyPhi fn T bits (m + 1) with
    | error e2 =>
      rw [h1] at h
      simp only [Except.error.injEq] at h
      subst h
      exact appEntropyPhi_error fn T bits (m + 1) _ hn h1
    | ok a1 =>
      rw [h1] at h
      simp only at h
      split_ifs at h

/-- On a non-empty sequence AppEntropy fails with a panic of the histogram code or with
the panic of `GammaIncRegComp`. -/
theorem AppEntropy_error (fn : Special R) (T : IntegerType) (bits : List Int) (m : Int)
    (e : Failure) (hn : bits.length ≠ 0) (h : AppEntropy fn T bits m = .error e) :
    e = .sliceBounds ∨ e = .makeLen ∨ e = .indexOutOfRange ∨ e = .paramOutOfBounds := by
  simp only [AppEntropy] at h
  cases h0 : appEntropyM fn T bits m with
  | error e2 =>
    have he2 := appEntropyM_error fn T bits m e2 hn h0
    rw [h0] at h
    simp only at h
    rw [andThen_of_panic _ _ (runtime_ne_nan _ he2)] at h
    simp only [Except.error.injEq] at h
    subst h
    rcases he2 with h2 | h2 | h2
    · exact Or.inl h2
    · exact Or.inr (Or.inl h2)
    · exact Or.inr (Or.inr (Or.inl h2))
  | ok a0 =>
    rw [h0] at h
    simp only at h
    exact Or.inr (Or.inr (Or.inr (GammaIncRegComp_error fn _ _ _ h)))

theorem blockOnes_error (bits : List Int) (i blocksize : Int) (e : Failure)
    (h : Frequency.blockOnes bits i blocksize = .error e) : e = .indexOutOfRange := by
  simp only [Frequency.blockOnes] at h
  refine foldlM_error _ (fun e => e = .indexOutOfRange) ?_ _ _ e h
  intro ones j e2 hs
  simp only at hs
  split_ifs at hs with c
  · cases hs; rfl
  · cases hg : bits[(i * blocksize + (j : Int)).toNat]? with
    | none => rw [hg] at hs; cases hs; rfl
    | some b => rw [hg] at hs; cases hs

theorem obsLoop_error (bits : List Int) (blocksize : Int) (is : List Nat) (e : Failure)
    (h : (Frequency.obsLoop bits blocksize is : Except Failure (List R)) = .error e) :
    e = .indexOutOfRange := by
  induction is with
  | nil => simp [Frequency.obsLoop] at h
  | cons i rest ih =>
    simp only [Frequency.obsLoop] at h
    cases hb : Frequency.blockOnes bits (i : Int) blocksize with
    | error e2 =>
      rw [hb] at h
      simp only [Except.error.injEq] at h
      subst h
      exact blockOnes_error bits _ _ _ hb
    | ok ones =>
      rw [hb] at h
      simp only at h
      cases hr : (Frequency.obsLoop bits blocksize rest : Except Failure (List R)) with
      | error e2 =>
        rw [hr] at h
        simp only [Except.error.injEq] at h
        subst h
        exact ih hr
      | ok obs =>
        rw [hr] at h
        cases h

/-- The failures of Frequency: the explicit panic on short input, the division by a
block size of 0, the negative length of `make`, an index out of range, and the panic of
`GammaIncRegComp`. -/
theorem Frequency_error (fn : Special R) (bits : List Int) (blocksize : Int) (e : Failure)
    (h : Frequency fn bits blocksize = .error e) :
    e = .inputTooSmall ∨ e = .divideByZero ∨ e = .makeLen ∨ e = .indexOutOfRange
      ∨ e = .paramOutOfBounds := by
  simp only [Frequency] at h
  split_ifs at h with c1 c2 c3
  · cases h; exact Or.inl rfl
  · cases h; exact Or.inr (Or.inl rfl)
  · cases h; exact Or.inr (Or.inr (Or.inl rfl))
  cases ho : (Frequency.obsLoop bits blocksize
      (List.range (Int.tdiv (bits.length : Int) blocksize).toNat) :
        Except Failure (List R)) with
  | error e2 =>
    rw [ho] at h
    simp only [Except.error.injEq] at h
    subst h
    exact Or.inr (Or.inr (Or.inr (Or.inl (obsLoop_error bits blocksize _ _ ho))))
  | ok obs =>
    rw [ho] at h
    simp only at h
    exact Or.inr (Or.inr (Or.inr (Or.inr (GammaIncRegComp_error fn _ _ _ h))))

/-- LongestRunOfOnes8 has two failures: the NaN of the empty sequence and the panic of
`GammaIncRegComp`. -/
theorem LongestRunOfOnes8_error (fn : Special R) (bits : List Int) (e : Failure)
    (h : LongestRunOfOnes8 fn bits = .error e) :
    e = .notANumber ∨ e = .paramOutOfBounds := by
  simp only [LongestRunOfOnes8] at h
  split_ifs at h with c
  · cases h; exact Or.inl rfl
  · exact Or.inr (GammaIncRegComp_error fn _ _ _ h)

theorem twos100_blocks :
    (List.range (twos100.length / 10)).map
      (fun i => (((twos100.drop (i * 10)).take 10).map IntegerType.int.wrap).sum)
      = List.replicate 10 20 := by
  decide

set_option maxRecDepth 100000 in
/-- C10 as stated fails: a hundred elements equal to 2 are a sequence of length 100 with
an element other than 0 and 1, and Frequency (block size 10) returns the value
Q(5, 450) on it instead of failing.  Runs and LongestRunOfOnes8 return a value on it as
well, and Serial and AppEntropy (bytes, m = 3) stop on an index out of range, which is
not the invalid-input failure. -/
theorem Frequency_accepts_twos :
    (∃ b ∈ twos100, b ≠ 0 ∧ b ≠ 1) ∧ 100 ≤ twos100.length ∧
    Frequency plainFn twos100 10 = .ok (plainFn.GammaIncRegComp 5 450) ∧
    Runs plainFn twos100 = .ok 0 ∧
    (∃ p, LongestRunOfOnes8 plainFn twos100 = .ok p) ∧
    Serial plainFn IntegerType.uint8 twos100 3 = .error .indexOutOfRange ∧
    AppEntropy plainFn IntegerType.uint8 twos100 3 = .error .indexOutOfRange := by
  refine ⟨⟨2, by decide, by decide, by decide⟩, by decide, ?_, ?_, ?_, rfl, rfl⟩
  · have h := Frequency_eq plainFn twos100 10 (by decide) (by decide)
    have e10 : ((10 : Nat) : Int) = 10 := rfl
    have hB : twos100.length / 10 = 10 := by decide
    have hmap : (List.range (twos100.length / 10)).map (fun i =>
          (((((twos100.drop (i * 10)).take 10).map IntegerType.int.wrap).sum : Int) : ℚ)
            / (((10 : Int)) : ℚ))
        = ((List.range (twos100.length / 10)).map
            (fun i => (((twos100.drop (i * 10)).take 10).map IntegerType.int.wrap).sum)).map
            (fun (c : Int) => (c : ℚ) / (((10 : Int)) : ℚ)) := by
      rw [List.map_map]; rfl
    rw [e10, hmap, twos100_blocks, hB] at h
    rw [h]
    refine (GammaIncRegComp_ok plainFn _ _ (by norm_num) (by norm_num)).trans ?_
    norm_num [plainFn]
  · have h := Runs_eq plainFn 2 (List.replicate 99 2) (by decide)
    have hc : ((2 : Int) :: List.replicate 99 2).count 1 = 0 := by decide
    rw [hc] at h
    have ht : twos100 = 2 :: List.replicate 99 2 := by decide
    rw [ht, h]
    norm_num
  · obtain ⟨a, x, h⟩ := LongestRunOfOnes8_ok plainFn twos100 (by decide)
    exact ⟨_, h⟩

/-- C10 as amended: on a sequence of length at least 100 with an element other than 0
and 1, MonoBit fails with its invalid-input panic; the five other tests have no such
check: none of them, for any block size and any window length, fails with the
invalid-input panic. -/
theorem invalid_elements (fn : Special R) (T : IntegerType) (bits : List Int)
    (hlen : 100 ≤ bits.length) (hbad : ∃ b ∈ bits, b ≠ 0 ∧ b ≠ 1) :
    MonoBit fn bits = .error .unknownVal ∧
    (∀ blocksize : Int, Frequency fn bits blocksize ≠ .error .unknownVal) ∧
    Runs fn bits ≠ .error .unknownVal ∧
    LongestRunOfOnes8 fn bits ≠ .error .unknownVal ∧
    (∀ m : Int, Serial fn T bits m ≠ .error .unknownVal) ∧
    (∀ m : Int, AppEntropy fn T bits m ≠ .error .unknownVal) := by
  have hn0 : bits.length ≠ 0 := by omega
  refine ⟨?_, ?_, ?_, ?_, ?_, ?_⟩
  · have hn : ¬ ((bits.length : R) < 100) := by
      rw [not_lt]
      exact_mod_cast hlen
    simp only [MonoBit, if_neg hn, sumLoop_bad bits hbad 0]
  · intro blocksize h
    rcases Frequency_error fn bits blocksize _ h with h | h | h | h | h <;> cases h
  · intro h
    obtain ⟨p, hp⟩ := Runs_ok fn bits hlen
    rw [hp] at h
    cases h
  · intro h
    rcases LongestRunOfOnes8_error fn bits _ h with h | h <;> cases h
  · intro m h
    rcases Serial_error fn T bits m _ hn0 h with h | h | h | h <;> cases h
  · intro m h
    rcases AppEntropy_error fn T bits m _ hn0 h with h | h | h | h <;> cases h

/-- Witness of the amended C10 on a hundred elements equal to 2. -/
theorem invalid_elements_witness :
    100 ≤ twos100.length ∧ (∃ b ∈ twos100, b ≠ 0 ∧ b ≠ 1) ∧
    MonoBit plainFn twos100 = .error .unknownVal ∧
    (∀ blocksize : Int, Frequency plainFn twos100 blocksize ≠ .error .unknownVal) ∧
    Runs plainFn twos100 ≠ .error .unknownVal ∧
    LongestRunOfOnes8 plainFn twos100 ≠ .error .unknownVal ∧
    (∀ m : Int, Serial plainFn IntegerType.uint8 twos100 m ≠ .error .unknownVal) ∧
    (∀ m : Int, AppEntropy plainFn IntegerType.uint8 twos100 m ≠ .error .unknownVal) :=
  ⟨by decide, ⟨2, by decide, by decide, by decide⟩,
    invalid_elements plainFn IntegerType.uint8 twos100 (by decide)
      ⟨2, by decide, by decide, by decide⟩⟩

/-- C11: MonoBit fails with "input too small" exactly on sequences of fewer than 100
elements, whatever they hold; it fails with its invalid-input panic exactly on sequences
of at least 100 elements one of which is neither 0 nor 1; it returns a p-value exactly
on the 0/1 sequences of at least 100 elements; so it fails if and only if the sequence is
shorter than 100 or has an element outside 0 and 1. -/
theorem MonoBit_failures (fn : Special R) (bits : List Int) :
    (MonoBit fn bits = .error .inputTooSmall ↔ bits.length < 100) ∧
    (MonoBit fn bits = .error .unknownVal
      ↔ 100 ≤ bits.length ∧ ∃ b ∈ bits, b ≠ 0 ∧ b ≠ 1) ∧
    ((∃ p, MonoBit fn bits = .ok p) ↔ 100 ≤ bits.length ∧ ∀ b ∈ bits, b = 0 ∨ b = 1) ∧
    ((∃ e, MonoBit fn bits = .error e)
      ↔ bits.length < 100 ∨ ∃ b ∈ bits, b ≠ 0 ∧ b ≠ 1) := by
  by_cases hlen : bits.length < 100
  · have hn : ((bits.length : R) < 100) := by exact_mod_cast hlen
    have h : MonoBit fn bits = .error .inputTooSmall := by
      simp only [MonoBit, if_pos hn]
    rw [h]
    refine ⟨by simp [hlen], ?_, ?_, ?_⟩
    · constructor
      · intro h2; cases h2
      · rintro ⟨h2, _⟩; omega
    · constructor
      · rintro ⟨p, h2⟩; cases h2
      · rintro ⟨h2, _⟩; omega
    · exact ⟨fun _ => Or.inl hlen, fun _ => ⟨_, rfl⟩⟩
  · have hge : 100 ≤ bits.length := by omega
    by_cases hbits : ∀ b ∈ bits, b = 0 ∨ b = 1
    · obtain ⟨S, hS⟩ := MonoBit_ok fn bits hbits hge
      have hnb : ¬ ∃ b ∈ bits, b ≠ 0 ∧ b ≠ 1 := by
        rintro ⟨b, hb, h0, h1⟩
        rcases hbits b hb with h | h
        · exact h0 h
        · exact h1 h
      rw [hS]
      refine ⟨?_, ?_, ?_, ?_⟩
      · exact ⟨(fun h => nomatch h), fun h => absurd h hlen⟩
      · exact ⟨(fun h => nomatch h), fun h => absurd h.2 hnb⟩
      · exact ⟨fun _ => ⟨hge, hbits⟩, fun _ => ⟨_, rfl⟩⟩
      · constructor
        · rintro ⟨e, h⟩; cases h
        · rintro (h | h)
          · exact absurd h hlen
          · exact absurd h hnb
    · have hbad : ∃ b ∈ bits, b ≠ 0 ∧ b ≠ 1 := by
        by_contra hcon
        apply hbits
        intro b hb
        by_contra hb2
        rw [not_or] at hb2
        exact hcon ⟨b, hb, hb2.1, hb2.2⟩
      have hn : ¬ ((bits.length : R) < 100) := by
        rw [not_lt]
        exact_mod_cast hge
      have h : MonoBit fn bits = .error .unknownVal := by
        simp only [MonoBit, if_neg hn, sumLoop_bad bits hbad 0]
      rw [h]
      refine ⟨?_, ?_, ?_, ?_⟩
      · exact ⟨(fun h => nomatch h), fun h => absurd h hlen⟩
      · exact ⟨fun _ => ⟨hge, hbad⟩, fun _ => rfl⟩
      · constructor
        · rintro ⟨p, h2⟩; cases h2
        · rintro ⟨_, h2⟩; exact absurd h2 hbits
      · exact ⟨fun _ => Or.inr hbad, fun _ => ⟨_, rfl⟩⟩

/-- C12: Frequency, for every block size (0 and negative ones included), and Runs fail
with "input too small" exactly on the sequences of fewer than 100 elements: the length
is tested before anything else, and no other failure of theirs is that one. -/
theorem inputTooSmall_iff (fn : Special R) (bits : List Int) (blocksize : Int) :
    (Frequency fn bits blocksize = .error .inputTooSmall ↔ bits.length < 100) ∧
    (Runs fn bits = .error .inputTooSmall ↔ bits.length < 100) := by
  by_cases hlen : bits.length < 100
  · have h1 : Frequency fn bits blocksize = .error .inputTooSmall := by
      simp only [Frequency, if_pos hlen]
    have h2 : Runs fn bits = .error .inputTooSmall := by
      simp only [Runs, if_pos hlen]
    simp [h1, h2, hlen]
  · have hge : 100 ≤ bits.length := by omega
    obtain ⟨p, hp⟩ := Runs_ok fn bits hge
    refine ⟨⟨fun h => ?_, fun h => absurd h hlen⟩, ⟨fun h => ?_, fun h => absurd h hlen⟩⟩
    · exfalso
      simp only [Frequency, if_neg hlen] at h
      split_ifs at h with c1 c2
      · cases h
      · cases h
      cases ho : (Frequency.obsLoop bits blocksize
          (List.range (Int.tdiv (bits.length : Int) blocksize).toNat) :
            Except Failure (List R)) with
      | error e2 =>
        rw [ho] at h
        simp only [Except.error.injEq] at h
        have := obsLoop_error bits blocksize _ e2 ho
        rw [h] at this
        cases this
      | ok obs =>
        rw [ho] at h
        simp only at h
        have := GammaIncRegComp_error fn _ _ _ h
        cases this
    · rw [hp] at h
      cases h

theorem BitString_ok (s : List Int) (h : ∀ b ∈ s, b = 48 ∨ b = 49 ∨ b = 0 ∨ b = 1) :
    BitString s = .ok (s.map specCharBit) := by
  induction s with
  | nil => rfl
  | cons b rest ih =>
    have hrest := ih (fun x hx => h x (List.mem_cons_of_mem _ hx))
    rcases h b (List.mem_cons_self _ _) with hb | hb | hb | hb <;> subst hb <;>
      simp [BitString, hrest, specCharBit, Except.map]

theorem BitString_bad (s : List Int) (h : ∃ b ∈ s, ¬ (b = 48 ∨ b = 49 ∨ b = 0 ∨ b = 1)) :
    BitString s = .error .badChar := by
  induction s with
  | nil =>
    obtain ⟨b, hb, _⟩ := h
    simp at hb
  | cons a rest ih =>
    by_cases ha : a = 48 ∨ a = 49 ∨ a = 0 ∨ a = 1
    · obtain ⟨b, hb, hbad⟩ := h
      have hr : BitString rest = .error .badChar := by
        apply ih
        rcases List.mem_cons.mp hb with hba | hbr
        · subst hba; exact absurd ha hbad
        · exact ⟨b, hbr, hbad⟩
      rcases ha with ha | ha | ha | ha <;> subst ha <;> simp [BitString, hr, Except.map]
    · simp only [not_or] at ha
      simp [BitString, ha.1, ha.2.1, ha.2.2.1, ha.2.2.2]

/-- C13: BitString succeeds exactly on the byte strings made of '0' (48), '1' (49), 0
and 1; its result then has the length of the string, holds 0 where the string has '0' or
0 and 1 where it has '1' or 1, so only 0s and 1s; on every other string it fails with
"bad char in bit string". -/
theorem BitString_spec (s : List Int) :
    ((∃ bits, BitString s = .ok bits) ↔ ∀ b ∈ s, b = 48 ∨ b = 49 ∨ b = 0 ∨ b = 1) ∧
    (BitString s = .error .badChar ↔ ∃ b ∈ s, ¬ (b = 48 ∨ b = 49 ∨ b = 0 ∨ b = 1)) ∧
    (∀ bits, BitString s = .ok bits →
      bits.length = s.length ∧
      (∀ i : Nat, (s[i]? = some 48 ∨ s[i]? = some 0 → bits[i]? = some 0) ∧
            (s[i]? = some 49 ∨ s[i]? = some 1 → bits[i]? = some 1)) ∧
      ∀ x ∈ bits, x = 0 ∨ x = 1) := by
  by_cases hv : ∀ b ∈ s, b = 48 ∨ b = 49 ∨ b = 0 ∨ b = 1
  · have hok := BitString_ok s hv
    have hnb : ¬ ∃ b ∈ s, ¬ (b = 48 ∨ b = 49 ∨ b = 0 ∨ b = 1) := by
      rintro ⟨b, hb, hbad⟩
      exact hbad (hv b hb)
    rw [hok]
    refine ⟨⟨fun _ => hv, fun _ => ⟨_, rfl⟩⟩, ⟨(fun h => nomatch h), fun h => absurd h hnb⟩, ?_⟩
    intro bits hbits
    cases hbits
    refine ⟨by simp, ?_, ?_⟩
    · intro i
      constructor
      · rintro (h | h) <;> simp [List.getElem?_map, h, specCharBit]
      · rintro (h | h) <;> simp [List.getElem?_map, h, specCharBit]
    · intro x hx
      rw [List.mem_map] at hx
      obtain ⟨b, _, rfl⟩ := hx
      unfold specCharBit
      split_ifs
      · exact Or.inl rfl
      · exact Or.inr rfl
  · have hbad : ∃ b ∈ s, ¬ (b = 48 ∨ b = 49 ∨ b = 0 ∨ b = 1) := by
      by_contra hcon
      apply hv
      intro b hb
      by_contra hb2
      exact hcon ⟨b, hb, hb2⟩
    have herr := BitString_bad s hbad
    rw [herr]
    refine ⟨⟨?_, fun h => absurd h hv⟩, ⟨fun _ => hbad, fun _ => rfl⟩, ?_⟩
    · rintro ⟨bits, h⟩; cases h
    · intro bits h; cases h

/-! ### The longest run of ones -/

theorem onesRun_loop_eq (l : List Int) (m c : Nat) :
    onesRun.loop l (m : Int) (c : Int) = ((max m (specRunFrom c l) : Nat) : Int) := by
  induction l generalizing m c with
  | nil =>
    simp only [onesRun.loop, specRunFrom]
    split_ifs with h
    · have : m ≤ c := by omega
      rw [max_eq_right this]
    · have : c ≤ m := by omega
      rw [max_eq_left this]
  | cons b rest ih =>
    simp only [onesRun.loop, specRunFrom]
    by_cases hb : b = 1
    · simp only [if_pos hb]
      have := ih m (c + 1)
      simp only [Nat.cast_add, Nat.cast_one] at this
      rw [this]
    · simp only [if_neg hb]
      have h2 : (if (c : Int) > (m : Int) then (c : Int) else (m : Int)) = ((max m c : Nat) : Int) := by
        split_ifs with h
        · have : m ≤ c := by omega
          rw [max_eq_right this]
        · have : c ≤ m := by omega
          rw [max_eq_left this]
      have := ih (max m c) 0
      rw [h2]
      simp only [Nat.cast_zero] at this
      rw [this, max_assoc]

theorem replicate_append_one (c : Nat) (l : List Int) :
    List.replicate c (1 : Int) ++ 1 :: l = List.replicate (c + 1) 1 ++ l := by
  rw [List.replicate_succ', List.append_assoc]
  rfl

theorem specRunFrom_infix (l : List Int) (c : Nat) :
    List.replicate (specRunFrom c l) (1 : Int) <:+: List.replicate c 1 ++ l := by
  induction l generalizing c with
  | nil => simp [specRunFrom]
  | cons b rest ih =>
    simp only [specRunFrom]
    by_cases hb : b = 1
    · subst hb
      simp only [if_true]
      rw [replicate_append_one]
      exact ih (c + 1)
    · simp only [if_neg hb]
      rcases le_total c (specRunFrom 0 rest) with h | h
      · rw [max_eq_right h]
        have h0 := ih 0
        simp only [List.replicate_zero, List.nil_append] at h0
        exact h0.trans ((List.suffix_cons b rest).isInfix.trans
          (List.suffix_append _ _).isInfix)
      · rw [max_eq_left h]
        exact (List.prefix_append _ _).isInfix

theorem replicate_prefix_le (k c : Nat) (b : Int) (l : List Int) (hb : b ≠ 1)
    (h : List.replicate k (1 : Int) <+: List.replicate c 1 ++ b :: l) : k ≤ c := by
  induction c generalizing k with
  | zero =>
    cases k with
    | zero => exact le_rfl
    | succ k =>
      simp only [List.replicate_zero, List.nil_append, List.replicate_succ,
        List.cons_prefix_cons] at h
      exact absurd h.1.symm hb
  | succ c ih =>
    cases k with
    | zero => omega
    | succ k =>
      simp only [List.replicate_succ, List.cons_append, List.cons_prefix_cons, true_and] at h
      have := ih k h
      omega

theorem replicate_infix_split (k c : Nat) (b : Int) (l : List Int) (hb : b ≠ 1)
    (h : List.replicate k (1 : Int) <:+: List.replicate c 1 ++ b :: l) :
    k ≤ c ∨ List.replicate k (1 : Int) <:+: l := by
  induction c with
  | zero =>
    simp only [List.replicate_zero, List.nil_append] at h
    rcases List.infix_cons_iff.mp h with h | h
    · left
      exact replicate_prefix_le k 0 b l hb (by simpa using h)
    · exact Or.inr h
  | succ c ih =>
    have h2 : List.replicate k (1 : Int) <:+: 1 :: (List.replicate c 1 ++ b :: l) := by
      simpa [List.replicate_succ] using h
    rcases List.infix_cons_iff.mp h2 with h3 | h3
    · left
      apply replicate_prefix_le k (c + 1) b l hb
      simpa [List.replicate_succ] using h3
    · rcases ih h3 with h4 | h4
      · left; omega
      · exact Or.inr h4

theorem specRunFrom_max (l : List Int) (c k : Nat)
    (h : List.replicate k (1 : Int) <:+: List.replicate c 1 ++ l) : k ≤ specRunFrom c l := by
  induction l generalizing c with
  | nil =>
    simp only [List.append_nil] at h
    have := h.length_le
    simpa [specRunFrom] using this
  | cons b rest ih =>
    simp only [specRunFrom]
    by_cases hb : b = 1
    · subst hb
      simp only [if_true]
      rw [replicate_append_one] at h
      exact ih (c + 1) h
    · simp only [if_neg hb]
      rcases replicate_infix_split k c b rest hb h with h2 | h2
      · exact le_trans h2 (le_max_left _ _)
      · have := ih 0 (by simpa using h2)
        exact le_trans this (le_max_right _ _)

/-- C14: for every block, `onesRun` is the length of the longest contiguous run of
elements equal to 1: it is a number between 0 and the length of the block, the block
holds a stretch of that many consecutive 1s and no stretch of one more, and it is 0
exactly when no element is 1. -/
theorem onesRun_longest (block : List Int) :
    0 ≤ onesRun block ∧ onesRun block ≤ (block.length : Int) ∧
    List.replicate (onesRun block).toNat (1 : Int) <:+: block ∧
    ¬ (List.replicate ((onesRun block).toNat + 1) (1 : Int) <:+: block) ∧
    (∀ k : Nat, List.replicate k (1 : Int) <:+: block → (k : Int) ≤ onesRun block) ∧
    (onesRun block = 0 ↔ ∀ b ∈ block, b ≠ 1) := by
  have heq : onesRun block = ((specRunFrom 0 block : Nat) : Int) := by
    have := onesRun_loop_eq block 0 0
    simpa [onesRun] using this
  have hin : List.replicate (specRunFrom 0 block) (1 : Int) <:+: block := by
    simpa using specRunFrom_infix block 0
  have hmax : ∀ k : Nat, List.replicate k (1 : Int) <:+: block → k ≤ specRunFrom 0 block := by
    intro k hk
    exact specRunFrom_max block 0 k (by simpa using hk)
  rw [heq]
  refine ⟨by positivity, ?_, ?_, ?_, ?_, ?_⟩
  · have := hin.length_le
    simp only [List.length_replicate] at this
    exact_mod_cast this
  · simpa using hin
  · intro h
    have := hmax _ (by simpa using h)
    omega
  · intro k hk
    exact_mod_cast hmax k hk
  · constructor
    · intro h0 b hb hb1
      subst hb1
      have h1 : List.replicate 1 (1 : Int) <:+: block := by
        obtain ⟨s, t, rfl⟩ := List.append_of_mem hb
        exact ⟨s, t, by simp⟩
      have := hmax 1 h1
      have h00 : specRunFrom 0 block = 0 := by exact_mod_cast h0
      omega
    · intro hno
      by_contra hne
      have hpos : 0 < specRunFrom 0 block := by
        rcases Nat.eq_zero_or_pos (specRunFrom 0 block) with h | h
        · exact absurd (by exact_mod_cast h) hne
        · exact h
      have hmem : (1 : Int) ∈ List.replicate (specRunFrom 0 block) (1 : Int) := by
        simp [List.mem_replicate]
        omega
      exact hno 1 (hin.subset hmem) rfl

/-! ### The number of runs -/

theorem runsLoop_shift (l : List Int) (a : Int) (r k : Nat) :
    Runs.runsLoop l a (r + k) = Runs.runsLoop l a r + k := by
  induction l generalizing a r with
  | nil => rfl
  | cons b t ih =>
    simp only [Runs.runsLoop]
    split_ifs
    · exact ih a r
    · have := ih b (r + 1)
      rw [show r + k + 1 = r + 1 + k by ring]
      exact this

theorem specGroups_head (a : Int) (l : List Int) :
    ∃ g gs, specGroups (a :: l) = (a :: g) :: gs := by
  simp only [specGroups]
  cases specGroups l with
  | nil => exact ⟨[], [], rfl⟩
  | cons g gs =>
    simp only
    split_ifs
    · exact ⟨g, gs, rfl⟩
    · exact ⟨[], g :: gs, rfl⟩

theorem specGroups_flatten (l : List Int) : (specGroups l).flatten = l := by
  induction l with
  | nil => rfl
  | cons a l ih =>
    simp only [specGroups]
    cases h : specGroups l with
    | nil =>
      rw [h] at ih
      simp only [List.flatten_nil] at ih
      simp [← ih]
    | cons g gs =>
      rw [h] at ih
      simp only
      split_ifs <;> simp [← ih]

theorem specGroups_constant (l : List Int) :
    ∀ g ∈ specGroups l, g ≠ [] ∧ ∀ x ∈ g, ∀ y ∈ g, x = y := by
  induction l with
  | nil => intro g hg; simp [specGroups] at hg
  | cons a l ih =>
    intro g hg
    simp only [specGroups] at hg
    cases h : specGroups l with
    | nil =>
      rw [h] at hg
      simp only [List.mem_singleton] at hg
      subst hg
      simp
    | cons g0 gs =>
      rw [h] at hg ih
      simp only at hg
      split_ifs at hg with hh
      · rcases List.mem_cons.mp hg with hg1 | hg1
        · subst hg1
          obtain ⟨hne, hc⟩ := ih g0 (List.mem_cons_self _ _)
          have ha : a ∈ g0 := by
            cases g0 with
            | nil => simp at hh
            | cons z zs =>
              simp only [List.head?_cons, Option.some.injEq] at hh
              subst hh
              exact List.mem_cons_self _ _
          refine ⟨by simp, ?_⟩
          intro x hx y hy
          have hx2 : x ∈ g0 := by
            rcases List.mem_cons.mp hx with h1 | h1
            · rw [h1]; exact ha
            · exact h1
          have hy2 : y ∈ g0 := by
            rcases List.mem_cons.mp hy with h1 | h1
            · rw [h1]; exact ha
            · exact h1
          exact hc x hx2 y hy2
        · exact ih g (List.mem_cons_of_mem _ hg1)
      · rcases List.mem_cons.mp hg with hg1 | hg1
        · subst hg1
          simp
        · exact ih g hg1

theorem specGroups_chain (l : List Int) :
    List.Chain' (fun g h : List Int => g.head? ≠ h.head?) (specGroups l) := by
  induction l with
  | nil => simp [specGroups]
  | cons a l ih =>
    simp only [specGroups]
    cases h : specGroups l with
    | nil => simp
    | cons g gs =>
      rw [h] at ih
      simp only
      split_ifs with hh
      · cases gs with
        | nil => simp
        | cons g2 gs2 =>
          rw [List.chain'_cons] at ih ⊢
          refine ⟨?_, ih.2⟩
          rw [List.head?_cons, ← hh]
          exact ih.1
      · rw [List.chain'_cons]
        refine ⟨?_, ih⟩
        rw [List.head?_cons]
        exact fun h2 => hh h2.symm

theorem runCount_eq_groups (l : List Int) :
    Runs.runCount l = (specGroups l).length := by
  cases l with
  | nil => rfl
  | cons first rest =>
    simp only [Runs.runCount]
    induction rest generalizing first with
    | nil => rfl
    | cons b t ih =>
      obtain ⟨g, gs, hg⟩ := specGroups_head b t
      have ihb := ih b
      rw [hg] at ihb
      simp only [Runs.runsLoop]
      rw [specGroups, hg]
      simp only [List.head?_cons, Option.some.injEq]
      by_cases hb : b = first
      · subst hb
        simp only [if_true, List.length_cons]
        rw [ihb]
        rfl
      · simp only [if_neg hb, List.length_cons]
        have := runsLoop_shift t b 1 1
        rw [this, ihb]
        rfl

theorem runsLoop_bounds (l : List Int) (a : Int) (r : Nat) :
    r ≤ Runs.runsLoop l a r ∧ Runs.runsLoop l a r ≤ r + l.length := by
  induction l generalizing a r with
  | nil => simp [Runs.runsLoop]
  | cons b t ih =>
    simp only [Runs.runsLoop, List.length_cons]
    split_ifs
    · have := ih a r
      omega
    · have := ih b (r + 1)
      omega

theorem runsLoop_eq_iff (l : List Int) (a : Int) (r : Nat) :
    Runs.runsLoop l a r = r ↔ ∀ x ∈ l, x = a := by
  induction l generalizing a r with
  | nil => simp [Runs.runsLoop]
  | cons b t ih =>
    simp only [Runs.runsLoop]
    by_cases hb : b = a
    · subst hb
      simp only [if_true, ih]
      constructor
      · intro h x hx
        rcases List.mem_cons.mp hx with h1 | h1
        · exact h1
        · exact h x h1
      · intro h x hx
        exact h x (List.mem_cons_of_mem _ hx)
    · simp only [if_neg hb]
      have := (runsLoop_bounds t b (r + 1)).1
      constructor
      · intro h; omega
      · intro h
        exact absurd (h b (List.mem_cons_self _ _)) hb

theorem runCount_cons (a : Int) (l : List Int) :
    Runs.runCount (a :: l)
      = Runs.runCount l + (match l.head? with
          | none => 1
          | some x => if x = a then 0 else 1) := by
  cases l with
  | nil => rfl
  | cons b t =>
    simp only [Runs.runCount, Runs.runsLoop, List.head?_cons]
    by_cases hb : b = a
    · subst hb; simp
    · simp only [if_neg hb]
      exact runsLoop_shift t b 1 1

theorem runCount_concat (l : List Int) (c : Int) :
    Runs.runCount (l ++ [c])
      = Runs.runCount l + (match l.getLast? with
          | none => 1
          | some x => if x = c then 0 else 1) := by
  induction l with
  | nil => rfl
  | cons a t ih =>
    cases t with
    | nil =>
      simp only [List.cons_append, List.nil_append, Runs.runCount, Runs.runsLoop,
        List.getLast?_singleton]
      by_cases hc : c = a
      · subst hc; simp
      · have hc2 : ¬ (a = c) := fun h => hc h.symm
        simp [hc, hc2]
    | cons b t2 =>
      have h1 := runCount_cons a (b :: t2 ++ [c])
      have h2 := runCount_cons a (b :: t2)
      simp only [List.cons_append, List.head?_cons] at h1 h2 ih ⊢
      rw [h1, ih, h2, List.getLast?_cons_cons]
      omega

theorem runCount_reverse (l : List Int) :
    Runs.runCount l.reverse = Runs.runCount l := by
  induction l with
  | nil => rfl
  | cons a t ih =>
    rw [List.reverse_cons, runCount_concat, ih, runCount_cons, List.getLast?_reverse]

theorem swapBit_injective (x y : Int) (h : swapBit x = swapBit y) : x = y := by
  unfold swapBit at h
  split_ifs at h <;> omega

theorem runsLoop_swap (l : List Int) (a : Int) (r : Nat) :
    Runs.runsLoop (l.map swapBit) (swapBit a) r = Runs.runsLoop l a r := by
  induction l generalizing a r with
  | nil => rfl
  | cons b t ih =>
    simp only [List.map_cons, Runs.runsLoop]
    by_cases hb : b = a
    · subst hb
      simp only [if_true]
      exact ih b r
    · have hs : ¬ (swapBit b = swapBit a) := fun h => hb (swapBit_injective _ _ h)
      simp only [if_neg hb, if_neg hs]
      exact ih b (r + 1)

/-- C17: on every sequence of at least 100 elements, the run count of Runs (1 for the
first element, plus 1 for every element that differs from its predecessor) is the number
of maximal contiguous groups of identical elements: the groups are non-empty, constant,
neighbours hold different values and together they spell the sequence.  The count lies
between 1 and n, is 1 exactly when all elements are equal, and does not change when the
sequence is reversed or when 0s and 1s are exchanged. -/
theorem runCount_spec (bits : List Int) (hlen : 100 ≤ bits.length) :
    (∃ first rest, bits = first :: rest ∧ Runs.runCount bits = Runs.runsLoop rest first 1) ∧
    Runs.runCount bits = (specGroups bits).length ∧
    (specGroups bits).flatten = bits ∧
    (∀ g ∈ specGroups bits, g ≠ [] ∧ ∀ x ∈ g, ∀ y ∈ g, x = y) ∧
    List.Chain' (fun g h : List Int => g.head? ≠ h.head?) (specGroups bits) ∧
    1 ≤ Runs.runCount bits ∧ Runs.runCount bits ≤ bits.length ∧
    (Runs.runCount bits = 1 ↔ ∀ x ∈ bits, ∀ y ∈ bits, x = y) ∧
    Runs.runCount bits.reverse = Runs.runCount bits ∧
    Runs.runCount (bits.map swapBit) = Runs.runCount bits := by
  cases bits with
  | nil => simp at hlen
  | cons first rest =>
    have hb := runsLoop_bounds rest first 1
    refine ⟨⟨first, rest, rfl, rfl⟩, runCount_eq_groups _, specGroups_flatten _,
      specGroups_constant _, specGroups_chain _, hb.1, ?_, ?_, runCount_reverse _, ?_⟩
    · simp only [Runs.runCount, List.length_cons]
      omega
    · simp only [Runs.runCount, runsLoop_eq_iff]
      constructor
      · intro h x hx y hy
        have hx2 : x = first := by
          rcases List.mem_cons.mp hx with h1 | h1
          · exact h1
          · exact h x h1
        have hy2 : y = first := by
          rcases List.mem_cons.mp hy with h1 | h1
          · exact h1
          · exact h y h1
        rw [hx2, hy2]
      · intro h x hx
        exact h x (List.mem_cons_of_mem _ hx) first (List.mem_cons_self _ _)
    · simp only [List.map_cons, Runs.runCount]
      exact runsLoop_swap rest first 1

/-- Witness of C17 on the 100-bit string of TestRuns, which has 52 runs. -/
theorem runCount_spec_witness :
    100 ≤ testBits100.length ∧ Runs.runCount testBits100 = 52 ∧
    Runs.runCount testBits100 = (specGroups testBits100).length ∧
    Runs.runCount testBits100.reverse = Runs.runCount testBits100 ∧
    Runs.runCount (testBits100.map swapBit) = Runs.runCount testBits100 := by
  have h := runCount_spec testBits100 (by decide)
  exact ⟨by decide, by decide, h.2.1, h.2.2.2.2.2.2.2.2.1, h.2.2.2.2.2.2.2.2.2⟩

/-! ### The bins and their sum -/

theorem windowValue_eq_sum (w : List Int) : windowValue w = specWindowSum w := by
  induction w with
  | nil => rfl
  | cons b t ih =>
    rw [windowValue_cons, ih, specWindowSum, specWindowSum, List.length_cons,
      List.range_succ_eq_map, List.map_cons, List.sum_cons, List.map_map]
    have hmap : List.map ((fun j => (b :: t).getD j 0 * 2 ^ (t.length + 1 - 1 - j)) ∘ Nat.succ)
          (List.range t.length)
        = List.map (fun j => t.getD j 0 * 2 ^ (t.length - 1 - j)) (List.range t.length) := by
      apply List.map_congr_left
      intro j _
      simp only [Function.comp, Nat.succ_eq_add_one, List.getD_cons_succ]
      congr 2
      omega
    rw [hmap]
    simp

theorem sum_indicator_eq_count {β : Type} [DecidableEq β] (ps : List β) (a : β) :
    (ps.map (fun w => if a = w then 1 else 0)).sum = ps.count a := by
  induction ps with
  | nil => rfl
  | cons p t ih =>
    rw [List.map_cons, List.sum_cons, ih, List.count_cons]
    by_cases h : a = p
    · subst h; simp; omega
    · have h2 : ¬ (p = a) := fun e => h e.symm
      simp [h, h2]

/-- Counting, for every value of a duplicate-free list, the entries of `l` that `f`
sends to it counts every entry of `l` once. -/
theorem sum_countP_eq_length {α β : Type} [DecidableEq β] (ps : List β) (hnd : ps.Nodup)
    (f : α → β) (l : List α) (hmem : ∀ i ∈ l, f i ∈ ps) :
    (ps.map (fun w => l.countP (fun i => f i = w))).sum = l.length := by
  induction l with
  | nil => simp
  | cons i t ih =>
    have hone : (ps.map (fun w => if f i = w then 1 else 0)).sum = 1 := by
      rw [sum_indicator_eq_count]
      exact List.count_eq_one_of_mem hnd (hmem i (List.mem_cons_self _ _))
    have hsplit : (ps.map (fun w => (i :: t).countP (fun i => f i = w)))
        = ps.map (fun w => t.countP (fun i => f i = w) + (if f i = w then 1 else 0)) := by
      apply List.map_congr_left
      intro w _
      rw [List.countP_cons]
      simp
    rw [hsplit, List.sum_map_add, ih (fun x hx => hmem x (List.mem_cons_of_mem _ hx)), hone,
      List.length_cons]

theorem patterns_nodup (k : Nat) : (patterns k).Nodup := by
  have h : ((patterns k).map windowValue).Nodup := by
    rw [patterns_values]
    exact (List.nodup_range _).map (fun a b hab => by exact_mod_cast hab)
  exact List.Nodup.of_map _ h

/-- Every list of `k` bits is one of the `k`-bit patterns. -/
theorem mem_patterns (k : Nat) (w : List Int) (hl : w.length = k)
    (hw : ∀ b ∈ w, b = 0 ∨ b = 1) : w ∈ patterns k := by
  have hb := windowValue_bounds w hw
  rw [hl] at hb
  have hv : (windowValue w).toNat < (patterns k).length := by
    rw [patterns_length]
    have : ((windowValue w).toNat : Int) < ((2 ^ k : Nat) : Int) := by
      rw [Int.toNat_of_nonneg hb.1]; push_cast; exact hb.2
    exact_mod_cast this
  obtain ⟨hpl, hpb⟩ := patterns_spec k _ (List.getElem_mem hv)
  have hpv := patterns_getElem_value k _ hv
  have : w = (patterns k)[(windowValue w).toNat] := by
    apply windowValue_injective _ _ hw hpb (by rw [hl, hpl])
    rw [hpv, Int.toNat_of_nonneg hb.1]
  rw [this]
  exact List.getElem_mem hv

/-- The counts of the `k`-bit patterns add up to the number of offsets. -/
theorem sum_cyclicCount (bits : List Int) (hbits : ∀ b ∈ bits, b = 0 ∨ b = 1)
    (hn : 0 < bits.length) (k : Nat) :
    ((patterns k).map (cyclicCount bits k)).sum = bits.length := by
  have h := sum_countP_eq_length (patterns k) (patterns_nodup k)
    (fun i => cyclicWindow bits i k) (List.range bits.length) (by
      intro i _
      obtain ⟨hl, hb⟩ := cyclicWindow_bits bits hbits i k hn
      exact mem_patterns k _ hl hb)
  simpa [cyclicCount] using h

set_option maxRecDepth 100000 in
/-- C15 as stated fails: a 1 followed by seven 0s is a 0/1 sequence of length 8 and
m = 8 lies between 1 and 8 with m - 1 <= n, but with int8 elements the window at offset 0
gets the index -128, outside 0 .. 255, and neither serialPsiSqr nor appEntropyPhi builds
a histogram: both stop on an index out of range. -/
theorem windowBins_fails_on_int8 :
    (∀ b ∈ oneThenZeros, b = 0 ∨ b = 1) ∧ 1 ≤ oneThenZeros.length ∧
    8 - 1 ≤ oneThenZeros.length ∧
    sliceToInt IntegerType.int8 (cyclicWindow oneThenZeros 0 8) = .ok (-128) ∧
    windowBins IntegerType.int8 oneThenZeros 8 = .error .indexOutOfRange ∧
    (serialPsiSqr IntegerType.int8 oneThenZeros 8 : Except Failure ℚ)
      = .error .indexOutOfRange ∧
    appEntropyPhi plainFn IntegerType.int8 oneThenZeros 8 = .error .indexOutOfRange :=
  ⟨by decide, by decide, by decide, rfl, rfl, rfl, rfl⟩

/-- C15 as amended: on a 0/1 sequence of length n >= 1, for 1 <= m <= 8 with m - 1 <= n
and an element type that holds the m-bit values (every integer type does but int8 at
m = 8), the histogram that serialPsiSqr and appEntropyPhi build has 2^m bins, bin k holds
the number of offsets i < n whose cyclic window of m bits has the value k, the bins add
up to n, and every window value lies in 0 .. 2^m - 1; both functions compute their result
from these bins. -/
theorem windowBins_histogram (fn : Special R) (T : IntegerType) (bits : List Int) (m : Nat)
    (hbits : ∀ b ∈ bits, b = 0 ∨ b = 1) (hn : 1 ≤ bits.length)
    (hm1 : 1 ≤ m) (hm8 : m ≤ 8) (hmn : m - 1 ≤ bits.length)
    (hT : 2 ^ m - 1 ≤ T.maxVal) :
    ∃ bins : List Int, windowBins T bits (m : Int) = .ok bins ∧
      bins.length = 2 ^ m ∧
      (∀ k : Nat, k < 2 ^ m → bins[k]? = some
        (((List.range bits.length).countP
          (fun i => windowValue (cyclicWindow bits i m) = (k : Int)) : Nat) : Int)) ∧
      bins.sum = (bits.length : Int) ∧
      (∀ i : Nat, i < bits.length →
        0 ≤ windowValue (cyclicWindow bits i m)
        ∧ windowValue (cyclicWindow bits i m) ≤ 2 ^ m - 1
        ∧ windowValue (cyclicWindow bits i m)
            = ((List.range m).map
                (fun j => bits.getD ((i + j) % bits.length) 0 * 2 ^ (m - 1 - j))).sum) ∧
      (serialPsiSqr T bits (m : Int) : Except Failure R)
        = .ok ((2 : R) ^ m / (bits.length : R)
            * (bins.map (fun c => ((c * c : Int) : R))).sum - (bits.length : R)) ∧
      appEntropyPhi fn T bits (m : Int)
        = .ok (((bins.map (fun (c : Int) => (c : R) / (bits.length : R))).filter
            (fun c => ¬ c = 0)).map (fun c => c * fn.Log c)).sum := by
  have hw := windowBins_eq T bits m hbits hn hm1 hmn hT (by omega)
  have hn0 : ¬ (bits.length = 0) := by omega
  refine ⟨_, hw, by simp [patterns_length], ?_, ?_, ?_, ?_, ?_⟩
  · intro k hk
    have hv : k < (patterns m).length := by rwa [patterns_length]
    rw [List.getElem?_map, List.getElem?_eq_getElem hv]
    simp only [Option.map_some', Option.some.injEq, cyclicCount, Nat.cast_inj]
    apply List.countP_congr
    intro i hi
    rw [List.mem_range] at hi
    obtain ⟨hl, hb⟩ := cyclicWindow_bits bits hbits i m hn
    obtain ⟨hpl, hpb⟩ := patterns_spec m _ (List.getElem_mem hv)
    have hpv := patterns_getElem_value m k hv
    simp only [decide_eq_true_eq]
    constructor
    · intro h
      rw [h, hpv]
    · intro h
      apply windowValue_injective _ _ hb hpb (by rw [hl, hpl])
      rw [hpv, h]
  · have hs := sum_cyclicCount bits hbits hn m
    have hcast : ((patterns m).map (fun w => ((cyclicCount bits m w : Nat) : Int))).sum
        = ((((patterns m).map (cyclicCount bits m)).sum : Nat) : Int) := by
      rw [Nat.cast_list_sum, List.map_map]
      rfl
    rw [hcast, hs]
  · intro i hi
    obtain ⟨hl, hb⟩ := cyclicWindow_bits bits hbits i m hn
    have hbd := windowValue_bounds _ hb
    rw [hl] at hbd
    refine ⟨hbd.1, by omega, ?_⟩
    rw [windowValue_eq_sum, specWindowSum, hl]
    apply congrArg List.sum
    apply List.map_congr_left
    intro j hj
    rw [List.mem_range] at hj
    congr 1
    simp [cyclicWindow, List.getD_eq_getElem?_getD, List.getElem?_map, List.getElem?_range hj]
  · simp only [serialPsiSqr, hw, if_neg hn0, zpow_natCast]
  · simp only [appEntropyPhi, hw, if_neg hn0]

/-- Witness of C15 on the string of TestSerial1 with m = 3 and bytes. -/
theorem windowBins_histogram_witness :
    (∀ b ∈ serialBits, b = 0 ∨ b = 1) ∧ 1 ≤ serialBits.length ∧
    3 - 1 ≤ serialBits.length ∧ (2 : Int) ^ 3 - 1 ≤ IntegerType.uint8.maxVal ∧
    windowBins IntegerType.uint8 serialBits 3 = .ok [0, 1, 1, 2, 1, 2, 2, 1] ∧
    ∃ bins : List Int, windowBins IntegerType.uint8 serialBits ((3 : Nat) : Int) = .ok bins ∧
      bins.length = 2 ^ 3 ∧ bins.sum = (serialBits.length : Int) := by
  have hT : (2 : Int) ^ 3 - 1 ≤ IntegerType.uint8.maxVal := by decide
  obtain ⟨bins, h1, h2, _, h4, _⟩ := windowBins_histogram plainFn IntegerType.uint8
    serialBits 3 (by decide) (by decide) (by decide) (by decide) (by decide) hT
  exact ⟨by decide, by decide, by decide, hT, by rfl, bins, h1, h2, h4⟩

/-! ### The value of a window -/

theorem sliceToInt_eq_windowValue (T : IntegerType) (w : List Int)
    (hw : ∀ b ∈ w, b = 0 ∨ b = 1) (hne : w ≠ []) (hfit : 2 ^ w.length - 1 ≤ T.maxVal)
    (h63 : w.length ≤ 63) :
    sliceToInt T w = .ok (windowValue w) := by
  cases w with
  | nil => exact absurd rfl hne
  | cons first rest =>
    have hr : ∀ x ∈ rest, x = 0 ∨ x = 1 := fun x hx => hw x (List.mem_cons_of_mem _ hx)
    have hf := hw first (List.mem_cons_self _ _)
    have hf0 : 0 ≤ first := by rcases hf with h | h <;> omega
    have hf1 : first ≤ 1 := by rcases hf with h | h <;> omega
    have hp : (0 : Int) < 2 ^ rest.length := by positivity
    have hfit2 := hfit
    rw [List.length_cons, pow_succ] at hfit2
    have hfold := sliceToInt_fold T rest hr first hf0 (by nlinarith)
    have hb := windowValue_bounds (first :: rest) hw
    have hval : windowValue (first :: rest) = rest.foldl (fun v b => 2 * v + b) first := by
      simp [windowValue]
    have hlt : windowValue (first :: rest) < 2 ^ 63 := by
      have h1 : (2 : Int) ^ (first :: rest).length ≤ 2 ^ 63 :=
        pow_le_pow_right₀ (by norm_num) h63
      omega
    simp only [sliceToInt, hfold, ← hval]
    rw [wrap_int_small _ hb.1 hlt]

/-- C16 as stated fails: eight bits are no more than the width of int8, yet on the
int8 window 1,0,0,0,0,0,0,0 the fold overflows and sliceToInt returns -128, where the
most-significant-bit-first sum is 128. -/
theorem sliceToInt_int8_overflow :
    (∀ b ∈ [(1 : Int), 0, 0, 0, 0, 0, 0, 0], b = 0 ∨ b = 1) ∧
    [(1 : Int), 0, 0, 0, 0, 0, 0, 0].length ≤ IntegerType.int8.width ∧
    sliceToInt IntegerType.int8 [1, 0, 0, 0, 0, 0, 0, 0] = .ok (-128) ∧
    specWindowSum [1, 0, 0, 0, 0, 0, 0, 0] = 128 := by
  refine ⟨by decide, by decide, by rfl, by decide⟩

/-- C16 as amended: on a non-empty window of m bits, when the element type holds every
m-bit value (2^m - 1 is at most its largest value) and m <= 63, sliceToInt returns the
sum over j < m of w[j] * 2^(m-1-j), a number in 0 .. 2^m - 1, and two such windows of the
same length with the same result are equal. -/
theorem sliceToInt_value (T : IntegerType) (w : List Int)
    (hw : ∀ b ∈ w, b = 0 ∨ b = 1) (hne : w ≠ []) (hfit : 2 ^ w.length - 1 ≤ T.maxVal)
    (h63 : w.length ≤ 63) :
    sliceToInt T w = .ok (specWindowSum w) ∧
    0 ≤ specWindowSum w ∧ specWindowSum w ≤ 2 ^ w.length - 1 ∧
    ∀ w2 : List Int, (∀ b ∈ w2, b = 0 ∨ b = 1) → w2.length = w.length →
      sliceToInt T w2 = sliceToInt T w → w2 = w := by
  have hb := windowValue_bounds w hw
  have h1 := sliceToInt_eq_windowValue T w hw hne hfit h63
  refine ⟨by rw [h1, windowValue_eq_sum], ?_, ?_, ?_⟩
  · rw [← windowValue_eq_sum]; exact hb.1
  · rw [← windowValue_eq_sum]; omega
  · intro w2 hw2 hl heq
    have hne2 : w2 ≠ [] := by
      intro h
      rw [h] at hl
      exact hne (List.length_eq_zero.mp hl.symm)
    rw [h1, sliceToInt_eq_windowValue T w2 hw2 hne2 (by rw [hl]; exact hfit)
      (by rw [hl]; exact h63)] at heq
    exact windowValue_injective w2 w hw2 hw hl (by simpa using heq)

/-- Witness of the amended C16: the byte window 1,0,1 spells 5. -/
theorem sliceToInt_value_witness :
    (∀ b ∈ [(1 : Int), 0, 1], b = 0 ∨ b = 1) ∧ [(1 : Int), 0, 1] ≠ [] ∧
    (2 : Int) ^ [(1 : Int), 0, 1].length - 1 ≤ IntegerType.uint8.maxVal ∧
    sliceToInt IntegerType.uint8 [1, 0, 1] = .ok 5 ∧
    sliceToInt IntegerType.uint8 [1, 0, 1] = .ok (specWindowSum [1, 0, 1]) := by
  have h := sliceToInt_value IntegerType.uint8 [1, 0, 1] (by decide) (by decide) (by decide)
    (by decide)
  exact ⟨by decide, by decide, by decide, by rfl, h.1⟩

/-! ### Windows of `k` and of `k + 1` bits -/

theorem cyclicWindow_succ (bits : List Int) (i k : Nat) :
    cyclicWindow bits i (k + 1)
      = cyclicWindow bits i k ++ [bits.getD ((i + k) % bits.length) 0] := by
  simp [cyclicWindow, List.range_succ]

theorem cyclicWindow_succ_left (bits : List Int) (i k : Nat) :
    cyclicWindow bits i (k + 1)
      = bits.getD (i % bits.length) 0 :: cyclicWindow bits (i + 1) k := by
  simp only [cyclicWindow, List.range_succ_eq_map, List.map_cons, List.map_map, Nat.add_zero]
  congr 1
  apply List.map_congr_left
  intro j _
  simp only [Function.comp, Nat.succ_eq_add_one]
  congr 2
  omega

theorem cyclicWindow_mod (bits : List Int) (i k : Nat) :
    cyclicWindow bits (i % bits.length) k = cyclicWindow bits i k := by
  simp only [cyclicWindow]
  apply List.map_congr_left
  intro j _
  rw [Nat.mod_add_mod]

theorem getD_bit (bits : List Int) (hbits : ∀ b ∈ bits, b = 0 ∨ b = 1)
    (hn : 0 < bits.length) (i : Nat) :
    bits.getD (i % bits.length) 0 = 0 ∨ bits.getD (i % bits.length) 0 = 1 := by
  have hlt : i % bits.length < bits.length := Nat.mod_lt _ hn
  rw [List.getD_eq_getElem _ _ hlt]
  exact hbits _ (List.getElem_mem _)

theorem countP_add_of_pointwise {α : Type} (l : List α) (p q s : α → Bool)
    (h : ∀ i ∈ l, (if p i then 1 else 0) + (if q i then 1 else 0) = (if s i then 1 else 0)) :
    l.countP p + l.countP q = l.countP s := by
  induction l with
  | nil => rfl
  | cons a t ih =>
    have h1 := h a (List.mem_cons_self _ _)
    have h2 := ih (fun i hi => h i (List.mem_cons_of_mem _ hi))
    rw [List.countP_cons, List.countP_cons, List.countP_cons]
    omega

/-- The count of a pattern is the sum of the counts of its two extensions by one bit on
the right. -/
theorem cyclicCount_right (bits : List Int) (hbits : ∀ b ∈ bits, b = 0 ∨ b = 1)
    (hn : 0 < bits.length) (k : Nat) (w : List Int) :
    cyclicCount bits (k + 1) (w ++ [0]) + cyclicCount bits (k + 1) (w ++ [1])
      = cyclicCount bits k w := by
  simp only [cyclicCount]
  apply countP_add_of_pointwise
  intro i _
  rw [cyclicWindow_succ]
  have hx := getD_bit bits hbits hn (i + k)
  generalize bits.getD ((i + k) % bits.length) 0 = x at hx
  by_cases hw : cyclicWindow bits i k = w
  · rcases hx with hx | hx <;> subst hx <;> simp [hw]
  · have h0 : ¬ (cyclicWindow bits i k ++ [x] = w ++ [0]) := by
      intro h
      exact hw (List.append_inj' h rfl).1
    have h1 : ¬ (cyclicWindow bits i k ++ [x] = w ++ [1]) := by
      intro h
      exact hw (List.append_inj' h rfl).1
    simp only [h0, h1, hw, decide_False, Bool.false_eq_true, if_false]

theorem range_map_succ_mod (n : Nat) :
    (List.range n).map (fun i => (i + 1) % n) = (List.range n).rotate 1 := by
  apply List.ext_getElem
  · simp
  · intro j h1 h2
    rw [List.getElem_rotate]
    simp

theorem countP_shift (n : Nat) (p : Nat → Bool) :
    (List.range n).countP (fun i => p ((i + 1) % n)) = (List.range n).countP p := by
  have h := List.countP_map p (fun i => (i + 1) % n) (List.range n)
  rw [range_map_succ_mod, (List.rotate_perm _ 1).countP_eq] at h
  rw [h]
  rfl

/-- The count of a pattern is the sum of the counts of its two extensions by one bit on
the left: the windows are cyclic. -/
theorem cyclicCount_left (bits : List Int) (hbits : ∀ b ∈ bits, b = 0 ∨ b = 1)
    (hn : 0 < bits.length) (k : Nat) (w : List Int) :
    cyclicCount bits (k + 1) (0 :: w) + cyclicCount bits (k + 1) (1 :: w)
      = cyclicCount bits k w := by
  have hshift : cyclicCount bits k w
      = (List.range bits.length).countP (fun i => cyclicWindow bits (i + 1) k = w) := by
    have h := countP_shift bits.length (fun i => decide (cyclicWindow bits i k = w))
    simp only [cyclicWindow_mod] at h
    rw [cyclicCount, h]
  rw [hshift]
  simp only [cyclicCount]
  apply countP_add_of_pointwise
  intro i _
  rw [cyclicWindow_succ_left]
  have hx := getD_bit bits hbits hn i
  generalize bits.getD (i % bits.length) 0 = x at hx
  by_cases hw : cyclicWindow bits (i + 1) k = w
  · rcases hx with hx | hx <;> subst hx <;> simp [hw]
  · simp [hw]

theorem sum_patterns_right {M : Type} [AddCommMonoid M] (k : Nat) (g : List Int → M) :
    ((patterns (k + 1)).map g).sum
      = ((patterns k).map (fun w => g (w ++ [0]) + g (w ++ [1]))).sum := by
  rw [patterns]
  induction patterns k with
  | nil => rfl
  | cons w t ih =>
    rw [List.flatMap_cons, List.map_append, List.sum_append, ih, List.map_cons, List.sum_cons]
    simp [add_assoc]

theorem patterns_succ_left (k : Nat) :
    patterns (k + 1)
      = (patterns k).map (fun w => 0 :: w) ++ (patterns k).map (fun w => 1 :: w) := by
  induction k with
  | zero => rfl
  | succ k ih =>
    have hmap : ∀ (c : Int) (l : List (List Int)),
        (l.map (fun w => c :: w)).flatMap (fun w => [w ++ [0], w ++ [1]])
          = (l.flatMap (fun w => [w ++ [0], w ++ [1]])).map (fun w => c :: w) := by
      intro c l
      induction l with
      | nil => rfl
      | cons a t iht => simp [List.flatMap_cons, iht]
    conv_lhs => rw [patterns, ih, List.flatMap_append, hmap, hmap]
    rw [← patterns]

theorem sum_patterns_left {M : Type} [AddCommMonoid M] (k : Nat) (g : List Int → M) :
    ((patterns (k + 1)).map g).sum
      = ((patterns k).map (fun w => g (0 :: w) + g (1 :: w))).sum := by
  rw [patterns_succ_left, List.map_append, List.sum_append, List.map_map, List.map_map,
    List.sum_map_add]
  rfl

/-! ### The psi-square statistics never decrease -/

theorem cyclicCount_zero (bits : List Int) : cyclicCount bits 0 [] = bits.length := by
  simp [cyclicCount, cyclicWindow]

theorem specPsi2_zero (bits : List Int) (hn : 0 < bits.length) :
    (specPsi2 bits 0 : R) = 0 := by
  have hnR : (bits.length : R) ≠ 0 := by exact_mod_cast (Nat.pos_iff_ne_zero.mp hn)
  simp only [specPsi2, patterns, List.map_cons, List.map_nil, List.sum_cons, List.sum_nil,
    cyclicCount_zero, pow_zero, add_zero]
  field_simp
  ring

/-- The sum of the squared counts of the `(k+1)`-bit patterns, over the `k`-bit patterns
and their two extensions on the right. -/
theorem sumsq_succ (bits : List Int) (k : Nat) :
    ((patterns (k + 1)).map (fun w => ((cyclicCount bits (k + 1) w : Nat) : R) ^ 2)).sum
      = ((patterns k).map (fun w =>
          ((cyclicCount bits (k + 1) (w ++ [0]) : Nat) : R) ^ 2
          + ((cyclicCount bits (k + 1) (w ++ [1]) : Nat) : R) ^ 2)).sum :=
  sum_patterns_right k _

theorem sumsq_eq (bits : List Int) (hbits : ∀ b ∈ bits, b = 0 ∨ b = 1)
    (hn : 0 < bits.length) (k : Nat) :
    ((patterns k).map (fun w => ((cyclicCount bits k w : Nat) : R) ^ 2)).sum
      = ((patterns k).map (fun w =>
          (((cyclicCount bits (k + 1) (w ++ [0]) : Nat) : R)
          + ((cyclicCount bits (k + 1) (w ++ [1]) : Nat) : R)) ^ 2)).sum := by
  refine congrArg List.sum (List.map_congr_left ?_)
  intro w _
  rw [← cyclicCount_right bits hbits hn k w]
  push_cast
  ring

/-- First difference: psi2(k+1) - psi2(k) >= 0. -/
theorem specPsi2_mono (bits : List Int) (hbits : ∀ b ∈ bits, b = 0 ∨ b = 1)
    (hn : 0 < bits.length) (k : Nat) :
    (specPsi2 bits k : R) ≤ specPsi2 bits (k + 1) := by
  have hnR : (0 : R) < (bits.length : R) := by exact_mod_cast hn
  have hle : ((patterns k).map (fun w =>
          (((cyclicCount bits (k + 1) (w ++ [0]) : Nat) : R)
          + ((cyclicCount bits (k + 1) (w ++ [1]) : Nat) : R)) ^ 2)).sum
      ≤ ((patterns k).map (fun w => 2 *
          (((cyclicCount bits (k + 1) (w ++ [0]) : Nat) : R) ^ 2
          + ((cyclicCount bits (k + 1) (w ++ [1]) : Nat) : R) ^ 2))).sum := by
    apply List.sum_le_sum
    intro w _
    nlinarith [sq_nonneg (((cyclicCount bits (k + 1) (w ++ [0]) : Nat) : R)
      - ((cyclicCount bits (k + 1) (w ++ [1]) : Nat) : R))]
  rw [List.sum_map_mul_left] at hle
  simp only [specPsi2]
  rw [sumsq_succ, sumsq_eq bits hbits hn k]
  have hpos : (0 : R) < (2 : R) ^ k / (bits.length : R) := by positivity
  have h2 : (2 : R) ^ (k + 1) / (bits.length : R) = 2 * ((2 : R) ^ k / (bits.length : R)) := by
    rw [pow_succ]; ring
  rw [h2]
  nlinarith [mul_le_mul_of_nonneg_left hle (le_of_lt hpos)]

theorem specPsi2_nonneg (bits : List Int) (hbits : ∀ b ∈ bits, b = 0 ∨ b = 1)
    (hn : 0 < bits.length) (k : Nat) :
    (0 : R) ≤ specPsi2 bits k := by
  induction k with
  | zero => rw [specPsi2_zero bits hn]
  | succ k ih => exact le_trans ih (specPsi2_mono bits hbits hn k)

theorem sum_combination (us : List (List Int)) (A B C D E : List Int → R)
    (h : ∀ u, 4 * A u - 2 * B u - 2 * C u + D u = E u) :
    4 * (us.map A).sum - 2 * (us.map B).sum - 2 * (us.map C).sum + (us.map D).sum
      = (us.map E).sum := by
  induction us with
  | nil => simp
  | cons u t ih =>
    simp only [List.map_cons, List.sum_cons]
    linarith [h u]

/-- Second difference: psi2(k+2) - 2*psi2(k+1) + psi2(k) >= 0; it is a sum of squares
`(x - y - z + w)^2` over the `k`-bit patterns `u`, for the counts `x, y, z, w` of
`0u0, 0u1, 1u0, 1u1`. -/
theorem specPsi2_second (bits : List Int) (hbits : ∀ b ∈ bits, b = 0 ∨ b = 1)
    (hn : 0 < bits.length) (k : Nat) :
    (0 : R) ≤ specPsi2 bits (k + 2) - 2 * specPsi2 bits (k + 1) + specPsi2 bits k := by
  have hnR : (0 : R) < (bits.length : R) := by exact_mod_cast hn
  -- the four counts around a k-bit pattern
  have hS2 : ((patterns (k + 2)).map (fun w => ((cyclicCount bits (k + 2) w : Nat) : R) ^ 2)).sum
      = ((patterns k).map (fun u =>
          (((cyclicCount bits (k + 2) (0 :: u ++ [0]) : Nat) : R) ^ 2
            + ((cyclicCount bits (k + 2) (0 :: u ++ [1]) : Nat) : R) ^ 2)
          + (((cyclicCount bits (k + 2) (1 :: u ++ [0]) : Nat) : R) ^ 2
            + ((cyclicCount bits (k + 2) (1 :: u ++ [1]) : Nat) : R) ^ 2))).sum := by
    rw [sum_patterns_right (k + 1), sum_patterns_left k]
  have hrow : ((patterns (k + 1)).map
        (fun w => ((cyclicCount bits (k + 1) w : Nat) : R) ^ 2)).sum
      = ((patterns k).map (fun u =>
          (((cyclicCount bits (k + 2) (0 :: u ++ [0]) : Nat) : R)
            + ((cyclicCount bits (k + 2) (0 :: u ++ [1]) : Nat) : R)) ^ 2
          + (((cyclicCount bits (k + 2) (1 :: u ++ [0]) : Nat) : R)
            + ((cyclicCount bits (k + 2) (1 :: u ++ [1]) : Nat) : R)) ^ 2)).sum := by
    rw [sum_patterns_left k]
    refine congrArg List.sum (List.map_congr_left ?_)
    intro u _
    rw [← cyclicCount_right bits hbits hn (k + 1) (0 :: u),
      ← cyclicCount_right bits hbits hn (k + 1) (1 :: u)]
    push_cast
    rfl
  have hcol : ((patterns (k + 1)).map
        (fun w => ((cyclicCount bits (k + 1) w : Nat) : R) ^ 2)).sum
      = ((patterns k).map (fun u =>
          (((cyclicCount bits (k + 2) (0 :: u ++ [0]) : Nat) : R)
            + ((cyclicCount bits (k + 2) (1 :: u ++ [0]) : Nat) : R)) ^ 2
          + (((cyclicCount bits (k + 2) (0 :: u ++ [1]) : Nat) : R)
            + ((cyclicCount bits (k + 2) (1 :: u ++ [1]) : Nat) : R)) ^ 2)).sum := by
    rw [sum_patterns_right k]
    refine congrArg List.sum (List.map_congr_left ?_)
    intro u _
    rw [← cyclicCount_left bits hbits hn (k + 1) (u ++ [0]),
      ← cyclicCount_left bits hbits hn (k + 1) (u ++ [1])]
    push_cast
    rfl
  have hS0 : ((patterns k).map (fun w => ((cyclicCount bits k w : Nat) : R) ^ 2)).sum
      = ((patterns k).map (fun u =>
          (((cyclicCount bits (k + 2) (0 :: u ++ [0]) : Nat) : R)
            + ((cyclicCount bits (k + 2) (1 :: u ++ [0]) : Nat) : R)
            + (((cyclicCount bits (k + 2) (0 :: u ++ [1]) : Nat) : R)
            + ((cyclicCount bits (k + 2) (1 :: u ++ [1]) : Nat) : R))) ^ 2)).sum := by
    refine congrArg List.sum (List.map_congr_left ?_)
    intro u _
    rw [← cyclicCount_right bits hbits hn k u,
      ← cyclicCount_left bits hbits hn (k + 1) (u ++ [0]),
      ← cyclicCount_left bits hbits hn (k + 1) (u ++ [1])]
    push_cast
    rfl
  have hcomb := sum_combination (R := R) (patterns k)
    (fun u =>
          (((cyclicCount bits (k + 2) (0 :: u ++ [0]) : Nat) : R) ^ 2
            + ((cyclicCount bits (k + 2) (0 :: u ++ [1]) : Nat) : R) ^ 2)
          + (((cyclicCount bits (k + 2) (1 :: u ++ [0]) : Nat) : R) ^ 2
            + ((cyclicCount bits (k + 2) (1 :: u ++ [1]) : Nat) : R) ^ 2))
    (fun u =>
          (((cyclicCount bits (k + 2) (0 :: u ++ [0]) : Nat) : R)
            + ((cyclicCount bits (k + 2) (0 :: u ++ [1]) : Nat) : R)) ^ 2
          + (((cyclicCount bits (k + 2) (1 :: u ++ [0]) : Nat) : R)
            + ((cyclicCount bits (k + 2) (1 :: u ++ [1]) : Nat) : R)) ^ 2)
    (fun u =>
          (((cyclicCount bits (k + 2) (0 :: u ++ [0]) : Nat) : R)
            + ((cyclicCount bits (k + 2) (1 :: u ++ [0]) : Nat) : R)) ^ 2
          + (((cyclicCount bits (k + 2) (0 :: u ++ [1]) : Nat) : R)
            + ((cyclicCount bits (k + 2) (1 :: u ++ [1]) : Nat) : R)) ^ 2)
    (fun u =>
          (((cyclicCount bits (k + 2) (0 :: u ++ [0]) : Nat) : R)
            + ((cyclicCount bits (k + 2) (1 :: u ++ [0]) : Nat) : R)
            + (((cyclicCount bits (k + 2) (0 :: u ++ [1]) : Nat) : R)
            + ((cyclicCount bits (k + 2) (1 :: u ++ [1]) : Nat) : R))) ^ 2)
    (fun u =>
          (((cyclicCount bits (k + 2) (0 :: u ++ [0]) : Nat) : R)
            - ((cyclicCount bits (k + 2) (0 :: u ++ [1]) : Nat) : R)
            - ((cyclicCount bits (k + 2) (1 :: u ++ [0]) : Nat) : R)
            + ((cyclicCount bits (k + 2) (1 :: u ++ [1]) : Nat) : R)) ^ 2)
    (by intro u; ring)
  have hsq : (0 : R) ≤ ((patterns k).map (fun u =>
          (((cyclicCount bits (k + 2) (0 :: u ++ [0]) : Nat) : R)
            - ((cyclicCount bits (k + 2) (0 :: u ++ [1]) : Nat) : R)
            - ((cyclicCount bits (k + 2) (1 :: u ++ [0]) : Nat) : R)
            + ((cyclicCount bits (k + 2) (1 :: u ++ [1]) : Nat) : R)) ^ 2)).sum := by
    apply List.sum_nonneg
    intro x hx
    rw [List.mem_map] at hx
    obtain ⟨u, _, rfl⟩ := hx
    exact sq_nonneg _
  rw [← hcomb, ← hS2, ← hS0] at hsq
  nth_rewrite 1 [← hrow] at hsq
  rw [← hcol] at hsq
  simp only [specPsi2]
  have hpos : (0 : R) < (2 : R) ^ k / (bits.length : R) := by positivity
  have e2 : (2 : R) ^ (k + 2) / (bits.length : R) = 4 * ((2 : R) ^ k / (bits.length : R)) := by
    rw [pow_add]; ring
  have e1 : (2 : R) ^ (k + 1) / (bits.length : R) = 2 * ((2 : R) ^ k / (bits.length : R)) := by
    rw [pow_succ]; ring
  rw [e2, e1]
  nlinarith [mul_nonneg (le_of_lt hpos) hsq]

/-! ### Serial in exact arithmetic -/

/-- Once the three calls of `serialPsiSqr` have returned the psi-squares of the
specification, both calls of `GammaIncRegComp` are inside its domain (in exact
arithmetic the two differences are not negative) and Serial returns the pair. -/
theorem Serial_of_psi (fn : Special R) (T : IntegerType) (bits : List Int) (m : Nat)
    (hbits : ∀ b ∈ bits, b = 0 ∨ b = 1) (hn : 1 ≤ bits.length) (hm3 : 3 ≤ m)
    (p0 : (serialPsiSqr T bits (m : Int) : Except Failure R) = .ok (specPsi2 bits m))
    (p1 : (serialPsiSqr T bits ((m - 1 : Nat) : Int) : Except Failure R)
      = .ok (specPsi2 bits (m - 1)))
    (p2 : (serialPsiSqr T bits ((m - 2 : Nat) : Int) : Except Failure R)
      = .ok (specPsi2 bits (m - 2))) :
    Serial fn T bits (m : Int)
      = .ok (fn.GammaIncRegComp ((2 : R) ^ (m - 1) / 2)
              ((specPsi2 bits m - specPsi2 bits (m - 1)) / 2),
             fn.GammaIncRegComp ((2 : R) ^ (m - 2) / 2)
              ((specPsi2 bits m - 2 * specPsi2 bits (m - 1) + specPsi2 bits (m - 2)) / 2)) := by
  have e1 : (m : Int) - 1 = ((m - 1 : Nat) : Int) := by omega
  have e2 : (m : Int) - 2 = ((m - 2 : Nat) : Int) := by omega
  have hm1 : m - 1 = (m - 2) + 1 := by omega
  have hm2 : m = (m - 2) + 2 := by omega
  have hd1 : (0 : R) ≤ specPsi2 bits m - specPsi2 bits (m - 1) := by
    have := specPsi2_mono (R := R) bits hbits hn (m - 1)
    rw [show m - 1 + 1 = m by omega] at this
    linarith
  have hd2 : (0 : R) ≤ specPsi2 bits m - 2 * specPsi2 bits (m - 1) + specPsi2 bits (m - 2) := by
    have := specPsi2_second (R := R) bits hbits hn (m - 2)
    rw [← hm1, ← hm2] at this
    exact this
  have a1 : (0 : R) < 0.5 * (2 : R) ^ (m - 1) := by
    have : (0 : R) < (2 : R) ^ (m - 1) := by positivity
    norm_num
  have a2 : (0 : R) < 0.5 * (2 : R) ^ (m - 2) := by
    have : (0 : R) < (2 : R) ^ (m - 2) := by positivity
    norm_num
  have x1 : (0 : R) ≤ 0.5 * (specPsi2 bits m - specPsi2 bits (m - 1)) := by
    have h5 : (0 : R) ≤ 0.5 := by norm_num
    exact mul_nonneg h5 hd1
  have x2 : (0 : R) ≤ 0.5 * (specPsi2 bits m - 2.0 * specPsi2 bits (m - 1)
      + specPsi2 bits (m - 2)) := by
    have h5 : (0 : R) ≤ 0.5 := by norm_num
    have h2 : (2.0 : R) = 2 := by norm_num
    rw [h2]
    exact mul_nonneg h5 hd2
  simp only [Serial, e1, e2, p0, p1, p2, zpow_natCast, GammaIncRegComp_ok fn _ _ a1 x1,
    GammaIncRegComp_ok fn _ _ a2 x2]
  refine congrArg Except.ok (Prod.ext ?_ ?_)
  · simp only []
    congr 1
    · norm_num; ring
    · norm_num; ring
  · simp only []
    congr 1
    · norm_num; ring
    · norm_num; ring

/-- In exact arithmetic Serial returns when the element type holds the window values. -/
theorem Serial_returns (fn : Special R) (T : IntegerType) (bits : List Int) (m : Nat)
    (hbits : ∀ b ∈ bits, b = 0 ∨ b = 1) (hn : 1 ≤ bits.length)
    (hm3 : 3 ≤ m) (h45 : m ≤ 45) (hmn : m - 1 ≤ bits.length)
    (hT : 2 ^ m - 1 ≤ T.maxVal) :
    Serial fn T bits (m : Int)
      = .ok (fn.GammaIncRegComp ((2 : R) ^ (m - 1) / 2)
              ((specPsi2 bits m - specPsi2 bits (m - 1)) / 2),
             fn.GammaIncRegComp ((2 : R) ^ (m - 2) / 2)
              ((specPsi2 bits m - 2 * specPsi2 bits (m - 1) + specPsi2 bits (m - 2)) / 2)) :=
  Serial_of_psi fn T bits m hbits hn hm3
    (serialPsiSqr_eq T bits m hbits hn (by omega) hmn hT h45)
    (serialPsiSqr_eq T bits (m - 1) hbits hn (by omega) (by omega)
      (fits_mono T _ m (by omega) hT) (by omega))
    (serialPsiSqr_eq T bits (m - 2) hbits hn (by omega) (by omega)
      (fits_mono T _ m (by omega) hT) (by omega))

/-- In exact arithmetic, for windows of at most 8 bits and every element type, Serial
returns the pair of the specification or stops on an index out of range in one of the
three histograms. -/
theorem Serial_short (fn : Special R) (T : IntegerType) (bits : List Int) (m : Nat)
    (hbits : ∀ b ∈ bits, b = 0 ∨ b = 1) (hn : 1 ≤ bits.length)
    (hm3 : 3 ≤ m) (hm8 : m ≤ 8) (hmn : m - 1 ≤ bits.length) :
    Serial fn T bits (m : Int)
      = .ok (fn.GammaIncRegComp ((2 : R) ^ (m - 1) / 2)
              ((specPsi2 bits m - specPsi2 bits (m - 1)) / 2),
             fn.GammaIncRegComp ((2 : R) ^ (m - 2) / 2)
              ((specPsi2 bits m - 2 * specPsi2 bits (m - 1) + specPsi2 bits (m - 2)) / 2))
      ∨ Serial fn T bits (m : Int) = .error .indexOutOfRange := by
  have e1 : (m : Int) - 1 = ((m - 1 : Nat) : Int) := by omega
  have e2 : (m : Int) - 2 = ((m - 2 : Nat) : Int) := by omega
  have hp : Failure.indexOutOfRange ≠ Failure.notANumber := by decide
  rcases serialPsiSqr_short (R := R) T bits m hbits hn (by omega) hm8 hmn with p0 | p0
  · rcases serialPsiSqr_short (R := R) T bits (m - 1) hbits hn (by omega) (by omega)
      (by omega) with p1 | p1
    · rcases serialPsiSqr_short (R := R) T bits (m - 2) hbits hn (by omega) (by omega)
        (by omega) with p2 | p2
      · exact Or.inl (Serial_of_psi fn T bits m hbits hn hm3 p0 p1 p2)
      · right
        simp only [Serial, e1, e2, p0, p1, p2, andThen_of_panic _ _ hp]
    · right
      simp only [Serial, e1, e2, p0, p1, andThen_of_panic _ _ hp]
  · right
    simp only [Serial, p0, andThen_of_panic _ _ hp]

set_option maxRecDepth 100000 in
/-- C7 as stated fails: a 1 followed by seven 0s is a 0/1 sequence of length 8, m = 8
lies between 3 and 8 with m - 1 <= n, and on it with int8 elements Serial returns no
pair: the window that starts with the 1 has the value -128 in int8, and the call stops
on an index out of range. -/
theorem Serial_fails_on_int8 :
    (∀ b ∈ oneThenZeros, b = 0 ∨ b = 1) ∧ 1 ≤ oneThenZeros.length ∧
    8 - 1 ≤ oneThenZeros.length ∧
    Serial plainFn IntegerType.int8 oneThenZeros 8 = .error .indexOutOfRange :=
  ⟨by decide, by decide, by decide, rfl⟩

/-- C7 as amended: in exact arithmetic, on a 0/1 sequence of length n >= 1, for
3 <= m <= 8 with m - 1 <= n and an element type that holds the m-bit values (every
integer type does but int8 at m = 8), Serial returns the pair
( Q(2^(m-1)/2, (psi2(m) - psi2(m-1))/2),
Q(2^(m-2)/2, (psi2(m) - 2*psi2(m-1) + psi2(m-2))/2) ), psi2 being computed from the counts
of the cyclic windows; both second arguments are at least 0, inside the domain of Q. -/
theorem Serial_formula (fn : Special R) (T : IntegerType) (bits : List Int) (m : Nat)
    (hbits : ∀ b ∈ bits, b = 0 ∨ b = 1) (hn : 1 ≤ bits.length)
    (hm3 : 3 ≤ m) (hm8 : m ≤ 8) (hmn : m - 1 ≤ bits.length)
    (hT : 2 ^ m - 1 ≤ T.maxVal) :
    Serial fn T bits (m : Int)
      = .ok (fn.GammaIncRegComp ((2 : R) ^ (m - 1) / 2)
              ((specPsi2 bits m - specPsi2 bits (m - 1)) / 2),
             fn.GammaIncRegComp ((2 : R) ^ (m - 2) / 2)
              ((specPsi2 bits m - 2 * specPsi2 bits (m - 1) + specPsi2 bits (m - 2)) / 2)) :=
  Serial_returns fn T bits m hbits hn hm3 (by omega) hmn hT

/-- Witness of C7 on the string of TestSerial1 with m = 3: psi2(3) = 2.8, psi2(2) = 1.2,
psi2(1) = 0.4 and the result is (Q(2, 0.8), Q(1, 0.4)). -/
theorem Serial_formula_witness :
    (∀ b ∈ serialBits, b = 0 ∨ b = 1) ∧ 1 ≤ serialBits.length ∧
    3 - 1 ≤ serialBits.length ∧ (2 : Int) ^ 3 - 1 ≤ IntegerType.uint8.maxVal ∧
    specPsi2 serialBits 3 = (2.8 : ℚ) ∧ specPsi2 serialBits 2 = (1.2 : ℚ) ∧
    specPsi2 serialBits 1 = (0.4 : ℚ) ∧
    Serial plainFn IntegerType.uint8 serialBits 3
      = .ok (plainFn.GammaIncRegComp 2 0.8, plainFn.GammaIncRegComp 1 0.4) := by
  have hlen : serialBits.length = 10 := by decide
  have p3 : specPsi2 serialBits 3 = (2.8 : ℚ) := by
    rw [specPsi2_of_counts _ _ _ serialBits_counts.1, hlen]; norm_num
  have p2 : specPsi2 serialBits 2 = (1.2 : ℚ) := by
    rw [specPsi2_of_counts _ _ _ serialBits_counts.2.1, hlen]; norm_num
  have p1 : specPsi2 serialBits 1 = (0.4 : ℚ) := by
    rw [specPsi2_of_counts _ _ _ serialBits_counts.2.2, hlen]; norm_num
  have hT : (2 : Int) ^ 3 - 1 ≤ IntegerType.uint8.maxVal := by decide
  refine ⟨by decide, by decide, by decide, hT, p3, p2, p1, ?_⟩
  have h := Serial_formula plainFn IntegerType.uint8 serialBits 3 (by decide) (by decide)
    (by decide) (by decide) (by decide) hT
  have h3 : ((3 : Nat) : Int) = 3 := rfl
  rw [h3] at h
  rw [h]
  simp only [show (3 : Nat) - 1 = 2 from rfl, show (3 : Nat) - 2 = 1 from rfl, p3, p2, p1]
  norm_num

/-- C19: in exact arithmetic, on a 0/1 sequence of length n >= 1, for 3 <= m <= 8 with
m - 1 <= n, psi2(m) >= 0, psi2(m) - psi2(m-1) >= 0 and
psi2(m) - 2*psi2(m-1) + psi2(m-2) >= 0; whatever the element type, a call of serialPsiSqr
for windows of 1 to m bits that returns gives this psi2; Serial hands half of the two
differences to GammaIncRegComp, or stops before on an index out of range (a window value
the element type cannot hold, which needs int8 elements and m = 8): it never stops on the
panic of GammaIncRegComp, and it returns when the element type holds the m-bit values. -/
theorem Serial_arguments_nonneg (fn : Special R) (T : IntegerType) (bits : List Int)
    (m : Nat) (hbits : ∀ b ∈ bits, b = 0 ∨ b = 1) (hn : 1 ≤ bits.length)
    (hm3 : 3 ≤ m) (hm8 : m ≤ 8) (hmn : m - 1 ≤ bits.length) :
    (0 : R) ≤ specPsi2 bits m ∧
    (0 : R) ≤ specPsi2 bits m - specPsi2 bits (m - 1) ∧
    (0 : R) ≤ specPsi2 bits m - 2 * specPsi2 bits (m - 1) + specPsi2 bits (m - 2) ∧
    (∀ k : Nat, 1 ≤ k → k ≤ m → ∀ v : R,
      serialPsiSqr T bits (k : Int) = .ok v → v = specPsi2 bits k) ∧
    (Serial fn T bits (m : Int)
        = .ok (fn.GammaIncRegComp ((2 : R) ^ (m - 1) / 2)
                ((specPsi2 bits m - specPsi2 bits (m - 1)) / 2),
               fn.GammaIncRegComp ((2 : R) ^ (m - 2) / 2)
                ((specPsi2 bits m - 2 * specPsi2 bits (m - 1) + specPsi2 bits (m - 2)) / 2))
      ∨ Serial fn T bits (m : Int) = .error .indexOutOfRange) ∧
    Serial fn T bits (m : Int) ≠ .error .paramOutOfBounds ∧
    (2 ^ m - 1 ≤ T.maxVal → ∃ x y : R,
      Serial fn T bits (m : Int)
        = .ok (fn.GammaIncRegComp ((2 : R) ^ (m - 1) / 2) x,
               fn.GammaIncRegComp ((2 : R) ^ (m - 2) / 2) y) ∧
      x = (specPsi2 bits m - specPsi2 bits (m - 1)) / 2 ∧
      y = (specPsi2 bits m - 2 * specPsi2 bits (m - 1) + specPsi2 bits (m - 2)) / 2 ∧
      0 ≤ x ∧ 0 ≤ y) := by
  have hm1 : m - 1 = (m - 2) + 1 := by omega
  have hm2 : m = (m - 2) + 2 := by omega
  have h0 : (0 : R) ≤ specPsi2 bits m := specPsi2_nonneg bits hbits hn m
  have hd1 : (0 : R) ≤ specPsi2 bits m - specPsi2 bits (m - 1) := by
    have := specPsi2_mono (R := R) bits hbits hn (m - 1)
    rw [show m - 1 + 1 = m by omega] at this
    linarith
  have hd2 : (0 : R) ≤ specPsi2 bits m - 2 * specPsi2 bits (m - 1) + specPsi2 bits (m - 2) := by
    have := specPsi2_second (R := R) bits hbits hn (m - 2)
    rw [← hm1, ← hm2] at this
    exact this
  have hshort := Serial_short fn T bits m hbits hn hm3 hm8 hmn
  refine ⟨h0, hd1, hd2, ?_, hshort, ?_, ?_⟩
  · intro k hk1 hkm v hv
    rcases serialPsiSqr_short (R := R) T bits k hbits hn hk1 (by omega) (by omega) with h | h
    · rw [h] at hv
      simp only [Except.ok.injEq] at hv
      exact hv.symm
    · rw [h] at hv
      cases hv
  · intro h
    rcases hshort with h2 | h2
    · rw [h2] at h
      cases h
    · rw [h2] at h
      cases h
  · intro hT
    exact ⟨_, _, Serial_returns fn T bits m hbits hn hm3 (by omega) hmn hT, rfl, rfl,
      by linarith, by linarith⟩

set_option maxRecDepth 100000 in
/-- Witness of C19 on the string of TestSerial1 with m = 3 and bytes: the two second
arguments are (2.8 - 1.2)/2 = 0.8 and (2.8 - 2*1.2 + 0.4)/2 = 0.4; and on a 1 followed by
seven 0s with int8 elements and m = 8, where Serial stops on an index out of range. -/
theorem Serial_arguments_nonneg_witness :
    (∀ b ∈ serialBits, b = 0 ∨ b = 1) ∧ 1 ≤ serialBits.length ∧
    3 - 1 ≤ serialBits.length ∧
    (0 : ℚ) ≤ specPsi2 serialBits 3 ∧
    (0 : ℚ) ≤ specPsi2 serialBits 3 - specPsi2 serialBits (3 - 1) ∧
    (0 : ℚ) ≤ specPsi2 serialBits 3 - 2 * specPsi2 serialBits (3 - 1)
      + specPsi2 serialBits (3 - 2) ∧
    Serial plainFn IntegerType.uint8 serialBits ((3 : Nat) : Int)
      ≠ .error .paramOutOfBounds ∧
    Serial plainFn IntegerType.int8 oneThenZeros ((8 : Nat) : Int)
      ≠ .error .paramOutOfBounds := by
  have h := Serial_arguments_nonneg plainFn IntegerType.uint8 serialBits 3 (by decide)
    (by decide) (by decide) (by decide) (by decide)
  have h8 := Serial_arguments_nonneg plainFn IntegerType.int8 oneThenZeros 8 (by decide)
    (by decide) (by decide) (by decide) (by decide)
  exact ⟨by decide, by decide, by decide, h.1, h.2.1, h.2.2.1, h.2.2.2.2.2.1,
    h8.2.2.2.2.2.1⟩

/-! ### The entropy difference lies between 0 and ln 2 -/

theorem sum_filter_of_zero {α : Type} (l : List α) (p : α → Bool) (f : α → ℝ)
    (h : ∀ w ∈ l, p w = false → f w = 0) :
    ((l.filter p).map f).sum = (l.map f).sum := by
  induction l with
  | nil => rfl
  | cons a t ih =>
    have iht := ih (fun w hw => h w (List.mem_cons_of_mem _ hw))
    by_cases hp : p a = true
    · rw [List.filter_cons_of_pos hp, List.map_cons, List.sum_cons, iht, List.map_cons,
        List.sum_cons]
    · have hf : f a = 0 := h a (List.mem_cons_self _ _) (by simpa using hp)
      rw [List.filter_cons_of_neg hp, iht, List.map_cons, List.sum_cons, hf, zero_add]

/-- With the real logarithm, phi is the sum of `p * ln p` over all the patterns: the
patterns that do not occur contribute 0. -/
theorem specPhi_eq_sum (bits : List Int) (k : Nat) :
    specPhi Real.log bits k
      = ((patterns k).map (fun w => ((cyclicCount bits k w : Nat) : ℝ) / (bits.length : ℝ)
          * Real.log (((cyclicCount bits k w : Nat) : ℝ) / (bits.length : ℝ)))).sum := by
  rw [specPhi]
  apply sum_filter_of_zero
  intro w _ hw
  have h0 : cyclicCount bits k w = 0 := by
    simpa using hw
  simp [h0]

theorem xlogx_superadd (a b : Nat) (n : ℝ) (hn : 0 < n) :
    (a : ℝ) / n * Real.log ((a : ℝ) / n) + (b : ℝ) / n * Real.log ((b : ℝ) / n)
      ≤ ((a : ℝ) + (b : ℝ)) / n * Real.log (((a : ℝ) + (b : ℝ)) / n) := by
  rcases Nat.eq_zero_or_pos a with ha | ha
  · subst ha; simp
  rcases Nat.eq_zero_or_pos b with hb | hb
  · subst hb; simp
  have haR : (0 : ℝ) < (a : ℝ) := by exact_mod_cast ha
  have hbR : (0 : ℝ) < (b : ℝ) := by exact_mod_cast hb
  have hp : 0 < (a : ℝ) / n := div_pos haR hn
  have hq : 0 < (b : ℝ) / n := div_pos hbR hn
  have h1 : Real.log ((a : ℝ) / n) ≤ Real.log (((a : ℝ) + (b : ℝ)) / n) :=
    Real.log_le_log hp (div_le_div_of_nonneg_right (by linarith) (le_of_lt hn))
  have h2 : Real.log ((b : ℝ) / n) ≤ Real.log (((a : ℝ) + (b : ℝ)) / n) :=
    Real.log_le_log hq (div_le_div_of_nonneg_right (by linarith) (le_of_lt hn))
  have e : ((a : ℝ) + (b : ℝ)) / n = (a : ℝ) / n + (b : ℝ) / n := by ring
  rw [e] at h1 h2 ⊢
  nlinarith [mul_le_mul_of_nonneg_left h1 (le_of_lt hp),
    mul_le_mul_of_nonneg_left h2 (le_of_lt hq)]

theorem xlogx_gap (a b : Nat) (n : ℝ) (hn : 0 < n) :
    ((a : ℝ) + (b : ℝ)) / n * Real.log (((a : ℝ) + (b : ℝ)) / n)
      ≤ (a : ℝ) / n * Real.log ((a : ℝ) / n) + (b : ℝ) / n * Real.log ((b : ℝ) / n)
        + ((a : ℝ) + (b : ℝ)) / n * Real.log 2 := by
  have hl2 : 0 < Real.log 2 := Real.log_pos (by norm_num)
  rcases Nat.eq_zero_or_pos a with ha | ha
  · subst ha
    have : (0 : ℝ) ≤ (b : ℝ) / n * Real.log 2 := by positivity
    simp
    linarith
  rcases Nat.eq_zero_or_pos b with hb | hb
  · subst hb
    have : (0 : ℝ) ≤ (a : ℝ) / n * Real.log 2 := by positivity
    simp
    linarith
  have haR : (0 : ℝ) < (a : ℝ) := by exact_mod_cast ha
  have hbR : (0 : ℝ) < (b : ℝ) := by exact_mod_cast hb
  have hp : 0 < (a : ℝ) / n := div_pos haR hn
  have hq : 0 < (b : ℝ) / n := div_pos hbR hn
  have e : ((a : ℝ) + (b : ℝ)) / n = (a : ℝ) / n + (b : ℝ) / n := by ring
  rw [e]
  generalize (a : ℝ) / n = p at hp ⊢
  generalize (b : ℝ) / n = q at hq ⊢
  have hpq : 0 < p + q := by linarith
  have k1 : Real.log ((p + q) / (2 * p)) ≤ (p + q) / (2 * p) - 1 :=
    Real.log_le_sub_one_of_pos (by positivity)
  have k2 : Real.log ((p + q) / (2 * q)) ≤ (p + q) / (2 * q) - 1 :=
    Real.log_le_sub_one_of_pos (by positivity)
  rw [Real.log_div (ne_of_gt hpq) (by positivity),
    Real.log_mul (by norm_num) (ne_of_gt hp)] at k1
  rw [Real.log_div (ne_of_gt hpq) (by positivity),
    Real.log_mul (by norm_num) (ne_of_gt hq)] at k2
  have m1 := mul_le_mul_of_nonneg_left k1 (le_of_lt hp)
  have m2 := mul_le_mul_of_nonneg_left k2 (le_of_lt hq)
  have c1 : p * ((p + q) / (2 * p) - 1) = (q - p) / 2 := by
    field_simp
    ring
  have c2 : q * ((p + q) / (2 * q) - 1) = (p - q) / 2 := by
    field_simp
    ring
  rw [c1] at m1
  rw [c2] at m2
  nlinarith

/-- In exact real arithmetic phi(k+1) <= phi(k). -/
theorem specPhi_antitone (bits : List Int) (hbits : ∀ b ∈ bits, b = 0 ∨ b = 1)
    (hn : 0 < bits.length) (k : Nat) :
    specPhi Real.log bits (k + 1) ≤ specPhi Real.log bits k := by
  have hnR : (0 : ℝ) < (bits.length : ℝ) := by exact_mod_cast hn
  rw [specPhi_eq_sum, specPhi_eq_sum, sum_patterns_right]
  apply List.sum_le_sum
  intro w _
  have h := xlogx_superadd (cyclicCount bits (k + 1) (w ++ [0]))
    (cyclicCount bits (k + 1) (w ++ [1])) (bits.length : ℝ) hnR
  rw [← cyclicCount_right bits hbits hn k w]
  push_cast
  exact h

/-- In exact real arithmetic phi(k) - phi(k+1) <= ln 2. -/
theorem specPhi_gap (bits : List Int) (hbits : ∀ b ∈ bits, b = 0 ∨ b = 1)
    (hn : 0 < bits.length) (k : Nat) :
    specPhi Real.log bits k - specPhi Real.log bits (k + 1) ≤ Real.log 2 := by
  have hnR : (0 : ℝ) < (bits.length : ℝ) := by exact_mod_cast hn
  have hsum : ((patterns k).map (fun w =>
        ((cyclicCount bits k w : Nat) : ℝ) / (bits.length : ℝ) * Real.log 2)).sum
      = Real.log 2 := by
    have hc : ((patterns k).map (fun w => ((cyclicCount bits k w : Nat) : ℝ))).sum
        = (bits.length : ℝ) := by
      have h := sum_cyclicCount bits hbits hn k
      have h2 : ((((patterns k).map (cyclicCount bits k)).sum : Nat) : ℝ) = (bits.length : ℝ) := by
        rw [h]
      rw [Nat.cast_list_sum, List.map_map] at h2
      exact h2
    have hform : ((patterns k).map (fun w =>
          ((cyclicCount bits k w : Nat) : ℝ) / (bits.length : ℝ) * Real.log 2))
        = ((patterns k).map (fun w =>
          ((cyclicCount bits k w : Nat) : ℝ) * (Real.log 2 / (bits.length : ℝ)))) := by
      apply List.map_congr_left
      intro w _
      ring
    rw [hform, List.sum_map_mul_right, hc]
    field_simp
  have hle : ((patterns k).map (fun w =>
        ((cyclicCount bits k w : Nat) : ℝ) / (bits.length : ℝ)
          * Real.log (((cyclicCount bits k w : Nat) : ℝ) / (bits.length : ℝ)))).sum
      ≤ ((patterns k).map (fun w =>
        (((cyclicCount bits (k + 1) (w ++ [0]) : Nat) : ℝ) / (bits.length : ℝ)
          * Real.log (((cyclicCount bits (k + 1) (w ++ [0]) : Nat) : ℝ) / (bits.length : ℝ))
        + ((cyclicCount bits (k + 1) (w ++ [1]) : Nat) : ℝ) / (bits.length : ℝ)
          * Real.log (((cyclicCount bits (k + 1) (w ++ [1]) : Nat) : ℝ) / (bits.length : ℝ)))
        + ((cyclicCount bits k w : Nat) : ℝ) / (bits.length : ℝ) * Real.log 2)).sum := by
    apply List.sum_le_sum
    intro w _
    have h := xlogx_gap (cyclicCount bits (k + 1) (w ++ [0]))
      (cyclicCount bits (k + 1) (w ++ [1])) (bits.length : ℝ) hnR
    rw [← cyclicCount_right bits hbits hn k w]
    push_cast
    exact h
  rw [List.sum_map_add, hsum] at hle
  rw [specPhi_eq_sum, specPhi_eq_sum bits (k + 1), sum_patterns_right]
  linarith

/-! ### AppEntropy in exact arithmetic -/

/-- What appEntropyM returns once both calls of `appEntropyPhi` have returned the phi of
the specification: their difference, which the clamp leaves as it is. -/
theorem appEntropyM_of_phi (erfc : ℝ → ℝ) (Q : ℝ → ℝ → ℝ) (T : IntegerType)
    (bits : List Int) (m : Nat) (hbits : ∀ b ∈ bits, b = 0 ∨ b = 1) (hn : 1 ≤ bits.length)
    (p0 : appEntropyPhi (⟨Real.sqrt, Real.log, erfc, Q⟩ : Special ℝ) T bits (m : Int)
      = .ok (specPhi Real.log bits m))
    (p1 : appEntropyPhi (⟨Real.sqrt, Real.log, erfc, Q⟩ : Special ℝ) T bits
      ((m + 1 : Nat) : Int) = .ok (specPhi Real.log bits (m + 1))) :
    appEntropyM (⟨Real.sqrt, Real.log, erfc, Q⟩ : Special ℝ) T bits (m : Int)
      = .ok (specPhi Real.log bits m - specPhi Real.log bits (m + 1)) := by
  have e1 : (m : Int) + 1 = ((m + 1 : Nat) : Int) := by omega
  have hge := specPhi_antitone bits hbits (by omega) m
  simp only [appEntropyM, e1, p0, p1]
  split_ifs with h
  · have h0 : specPhi Real.log bits m - specPhi Real.log bits (m + 1) = 0 := by linarith
    rw [h0]
    norm_num
  · rfl

/-- What appEntropyM returns when the element type holds the window values. -/
theorem appEntropyM_eq (erfc : ℝ → ℝ) (Q : ℝ → ℝ → ℝ) (T : IntegerType) (bits : List Int)
    (m : Nat) (hbits : ∀ b ∈ bits, b = 0 ∨ b = 1) (hn : 1 ≤ bits.length)
    (hm1 : 1 ≤ m) (h44 : m ≤ 44) (hmn : m ≤ bits.length)
    (hT : 2 ^ (m + 1) - 1 ≤ T.maxVal) :
    appEntropyPhi (⟨Real.sqrt, Real.log, erfc, Q⟩ : Special ℝ) T bits (m : Int)
      = .ok (specPhi Real.log bits m) ∧
    appEntropyPhi (⟨Real.sqrt, Real.log, erfc, Q⟩ : Special ℝ) T bits ((m : Int) + 1)
      = .ok (specPhi Real.log bits (m + 1)) ∧
    appEntropyM (⟨Real.sqrt, Real.log, erfc, Q⟩ : Special ℝ) T bits (m : Int)
      = .ok (specPhi Real.log bits m - specPhi Real.log bits (m + 1)) := by
  have e1 : (m : Int) + 1 = ((m + 1 : Nat) : Int) := by omega
  have p0 := appEntropyPhi_eq (⟨Real.sqrt, Real.log, erfc, Q⟩ : Special ℝ) T bits m hbits hn
    hm1 (by omega) (fits_mono T _ (m + 1) (by omega) hT) (by omega)
  have p1 := appEntropyPhi_eq (⟨Real.sqrt, Real.log, erfc, Q⟩ : Special ℝ) T bits (m + 1)
    hbits hn (by omega) (by omega) hT (by omega)
  exact ⟨p0, by rw [e1]; exact p1, appEntropyM_of_phi erfc Q T bits m hbits hn p0 p1⟩

/-- Once appEntropyM has returned phi(m) - phi(m+1), the statistic is not negative (in
exact arithmetic), the call of `GammaIncRegComp` is inside its domain and AppEntropy
returns Q(2^m/2, chi2/2). -/
theorem AppEntropy_of_M (erfc : ℝ → ℝ) (Q : ℝ → ℝ → ℝ) (T : IntegerType)
    (bits : List Int) (m : Nat) (hbits : ∀ b ∈ bits, b = 0 ∨ b = 1) (hn : 1 ≤ bits.length)
    (h62 : m ≤ 62)
    (hM : appEntropyM (⟨Real.sqrt, Real.log, erfc, Q⟩ : Special ℝ) T bits (m : Int)
      = .ok (specPhi Real.log bits m - specPhi Real.log bits (m + 1))) :
    AppEntropy (⟨Real.sqrt, Real.log, erfc, Q⟩ : Special ℝ) T bits (m : Int)
      = .ok (Q ((2 : ℝ) ^ m / 2)
          (2 * (bits.length : ℝ)
            * (Real.log 2 - (specPhi Real.log bits m - specPhi Real.log bits (m + 1))) / 2)) := by
  have hgap := specPhi_gap bits hbits (by omega) m
  have hnR : (0 : ℝ) < (bits.length : ℝ) := by exact_mod_cast (show 0 < bits.length by omega)
  simp only [AppEntropy, hM, wrap_one_shift m h62]
  refine (GammaIncRegComp_ok _ _ _ ?_ ?_).trans ?_
  · push_cast
    positivity
  · have h2 : (2.0 : ℝ) = 2 := by norm_num
    rw [h2]
    have : 0 ≤ Real.log 2 - (specPhi Real.log bits m - specPhi Real.log bits (m + 1)) := by
      linarith
    positivity
  · refine congrArg Except.ok ?_
    show Q _ _ = Q _ _
    congr 1
    · push_cast; norm_num; ring
    · norm_num; ring

/-- In exact arithmetic AppEntropy returns when the element type holds the window
values. -/
theorem AppEntropy_returns (erfc : ℝ → ℝ) (Q : ℝ → ℝ → ℝ) (T : IntegerType)
    (bits : List Int) (m : Nat) (hbits : ∀ b ∈ bits, b = 0 ∨ b = 1) (hn : 1 ≤ bits.length)
    (hm1 : 1 ≤ m) (h44 : m ≤ 44) (hmn : m ≤ bits.length)
    (hT : 2 ^ (m + 1) - 1 ≤ T.maxVal) :
    AppEntropy (⟨Real.sqrt, Real.log, erfc, Q⟩ : Special ℝ) T bits (m : Int)
      = .ok (Q ((2 : ℝ) ^ m / 2)
          (2 * (bits.length : ℝ)
            * (Real.log 2 - (specPhi Real.log bits m - specPhi Real.log bits (m + 1))) / 2)) :=
  AppEntropy_of_M erfc Q T bits m hbits hn (by omega)
    (appEntropyM_eq erfc Q T bits m hbits hn hm1 h44 hmn hT).2.2

theorem specPhi_of_counts (bits : List Int) (k : Nat) (cs : List Nat)
    (h : (patterns k).map (cyclicCount bits k) = cs) :
    specPhi Real.log bits k
      = (cs.map (fun c : Nat => (c : ℝ) / (bits.length : ℝ)
          * Real.log ((c : ℝ) / (bits.length : ℝ)))).sum := by
  rw [specPhi_eq_sum, ← h, List.map_map]
  rfl

theorem testBits100_counts :
    (patterns 2).map (cyclicCount testBits100 2) = [32, 26, 26, 16]
    ∧ (patterns 3).map (cyclicCount testBits100 3) = [15, 17, 15, 11, 17, 9, 11, 5] := by
  decide

theorem deBruijn16_counts :
    (patterns 3).map (cyclicCount deBruijn16 3) = [2, 2, 2, 2, 2, 2, 2, 2]
    ∧ (patterns 4).map (cyclicCount deBruijn16 4)
        = [1, 1, 1, 1, 1, 1, 1, 1, 1, 1, 1, 1, 1, 1, 1, 1] := by
  decide

/-- The phi of the string of TestAppEntropy1 for windows of 3 and of 4 bits. -/
theorem entropyBits_phi :
    specPhi Real.log entropyBits 3
      = 4 * (1 / 10 * Real.log (1 / 10)) + 2 * (3 / 10 * Real.log (3 / 10)) ∧
    specPhi Real.log entropyBits 4
      = 5 * (1 / 10 * Real.log (1 / 10)) + 2 / 10 * Real.log (2 / 10)
        + 3 / 10 * Real.log (3 / 10) := by
  have hlen : entropyBits.length = 10 := by decide
  constructor
  · rw [specPhi_of_counts _ _ _ entropyBits_counts.1, hlen]
    simp only [List.map_cons, List.map_nil, List.sum_cons, List.sum_nil, Nat.cast_ofNat,
      Nat.cast_zero, Nat.cast_one, zero_div, zero_mul]
    ring
  · rw [specPhi_of_counts _ _ _ entropyBits_counts.2, hlen]
    simp only [List.map_cons, List.map_nil, List.sum_cons, List.sum_nil, Nat.cast_ofNat,
      Nat.cast_zero, Nat.cast_one, zero_div, zero_mul]
    ring

/-- The phi of the 100 bits of TestAppEntropy2 for windows of 2 and of 3 bits. -/
theorem testBits100_phi :
    specPhi Real.log testBits100 2
      = 32 / 100 * Real.log (32 / 100) + 2 * (26 / 100 * Real.log (26 / 100))
        + 16 / 100 * Real.log (16 / 100) ∧
    specPhi Real.log testBits100 3
      = 2 * (15 / 100 * Real.log (15 / 100)) + 2 * (17 / 100 * Real.log (17 / 100))
        + 2 * (11 / 100 * Real.log (11 / 100)) + 9 / 100 * Real.log (9 / 100)
        + 5 / 100 * Real.log (5 / 100) := by
  have hlen : testBits100.length = 100 := by decide
  constructor
  · rw [specPhi_of_counts _ _ _ testBits100_counts.1, hlen]
    simp only [List.map_cons, List.map_nil, List.sum_cons, List.sum_nil, Nat.cast_ofNat]
    ring
  · rw [specPhi_of_counts _ _ _ testBits100_counts.2, hlen]
    simp only [List.map_cons, List.map_nil, List.sum_cons, List.sum_nil, Nat.cast_ofNat]
    ring

set_option maxRecDepth 100000 in
/-- C8 as stated fails: a 1 followed by seven 0s is a 0/1 sequence of length 8, m = 7
lies between 1 and 7 with m <= n, and on it with int8 elements AppEntropy returns no
value: phi(7) is computed, but the 8-bit window that starts with the 1 has the value
-128 in int8 and the histogram for phi(8) stops on an index out of range. -/
theorem AppEntropy_fails_on_int8 :
    (∀ b ∈ oneThenZeros, b = 0 ∨ b = 1) ∧ 1 ≤ oneThenZeros.length ∧
    7 ≤ oneThenZeros.length ∧
    AppEntropy (⟨Real.sqrt, Real.log, fun x => x, fun _ x => x⟩ : Special ℝ)
      IntegerType.int8 oneThenZeros 7 = .error .indexOutOfRange :=
  ⟨by decide, by decide, by decide, rfl⟩

/-- C8 as amended: in exact real arithmetic, on a 0/1 sequence of length n >= 1, for
1 <= m <= 7 with m <= n and an element type that holds the (m+1)-bit values (every
integer type does but int8 at m = 7), AppEntropy returns Q(2^m/2, chi2/2) with
chi2 = 2*n*(ln 2 - ApEn) and ApEn = max(0, phi(m) - phi(m+1)), phi being computed from
the counts of the cyclic windows, the patterns that do not occur contributing nothing;
chi2 is at least 0, inside the domain of Q. -/
theorem AppEntropy_formula (erfc : ℝ → ℝ) (Q : ℝ → ℝ → ℝ) (T : IntegerType)
    (bits : List Int) (m : Nat)
    (hbits : ∀ b ∈ bits, b = 0 ∨ b = 1) (hn : 1 ≤ bits.length)
    (hm1 : 1 ≤ m) (hm7 : m ≤ 7) (hmn : m ≤ bits.length)
    (hT : 2 ^ (m + 1) - 1 ≤ T.maxVal) :
    AppEntropy (⟨Real.sqrt, Real.log, erfc, Q⟩ : Special ℝ) T bits (m : Int)
      = .ok (Q ((2 : ℝ) ^ m / 2)
          (2 * (bits.length : ℝ)
            * (Real.log 2 - max 0 (specPhi Real.log bits m - specPhi Real.log bits (m + 1)))
            / 2)) := by
  have hge := specPhi_antitone bits hbits (by omega) m
  rw [max_eq_right (by linarith)]
  exact AppEntropy_returns erfc Q T bits m hbits hn hm1 (by omega) hmn hT

/-- Witness of C8 on the two strings of the tests, with bytes as elements.  On
"0100110101" with m = 3: phi(3) and phi(4) from the counts 0,1,3,1,1,3,1,0 and
0,0,0,1,1,2,1,0,0,1,3,0,0,1,0,0; the first argument of Q is 4 and the second is
10 * (ln 2 - (phi(3) - phi(4))).  On the 100 bits of TestAppEntropy2 with m = 2: phi(2)
and phi(3) from the counts 32,26,26,16 and 15,17,15,11,17,9,11,5; the first argument of Q
is 2 and the second is 100 * (ln 2 - (phi(2) - phi(3))).  (Q is taken as the projection
on its first and on its second argument.) -/
theorem AppEntropy_formula_witness :
    (∀ b ∈ entropyBits, b = 0 ∨ b = 1) ∧ 1 ≤ entropyBits.length ∧ 3 ≤ entropyBits.length ∧
    (2 : Int) ^ (3 + 1) - 1 ≤ IntegerType.uint8.maxVal ∧
    AppEntropy (⟨Real.sqrt, Real.log, fun x => x, fun a _ => a⟩ : Special ℝ)
      IntegerType.uint8 entropyBits 3 = .ok 4 ∧
    AppEntropy (⟨Real.sqrt, Real.log, fun x => x, fun _ x => x⟩ : Special ℝ)
      IntegerType.uint8 entropyBits 3
      = .ok (10 * (Real.log 2
          - ((4 * (1 / 10 * Real.log (1 / 10)) + 2 * (3 / 10 * Real.log (3 / 10)))
            - (5 * (1 / 10 * Real.log (1 / 10)) + 2 / 10 * Real.log (2 / 10)
              + 3 / 10 * Real.log (3 / 10))))) ∧
    (∀ b ∈ testBits100, b = 0 ∨ b = 1) ∧ 1 ≤ testBits100.length ∧ 2 ≤ testBits100.length ∧
    (2 : Int) ^ (2 + 1) - 1 ≤ IntegerType.uint8.maxVal ∧
    AppEntropy (⟨Real.sqrt, Real.log, fun x => x, fun a _ => a⟩ : Special ℝ)
      IntegerType.uint8 testBits100 2 = .ok 2 ∧
    AppEntropy (⟨Real.sqrt, Real.log, fun x => x, fun _ x => x⟩ : Special ℝ)
      IntegerType.uint8 testBits100 2
      = .ok (100 * (Real.log 2
          - ((32 / 100 * Real.log (32 / 100) + 2 * (26 / 100 * Real.log (26 / 100))
              + 16 / 100 * Real.log (16 / 100))
            - (2 * (15 / 100 * Real.log (15 / 100)) + 2 * (17 / 100 * Real.log (17 / 100))
              + 2 * (11 / 100 * Real.log (11 / 100)) + 9 / 100 * Real.log (9 / 100)
              + 5 / 100 * Real.log (5 / 100))))) := by
  have hT4 : (2 : Int) ^ (3 + 1) - 1 ≤ IntegerType.uint8.maxVal := by decide
  have hT3 : (2 : Int) ^ (2 + 1) - 1 ≤ IntegerType.uint8.maxVal := by decide
  have h3 : ((3 : Nat) : Int) = 3 := rfl
  have h2 : ((2 : Nat) : Int) = 2 := rfl
  have hlenE : ((entropyBits.length : Nat) : ℝ) = 10 := by
    have : entropyBits.length = 10 := by decide
    rw [this]; norm_num
  have hlenT : ((testBits100.length : Nat) : ℝ) = 100 := by
    have : testBits100.length = 100 := by decide
    rw [this]; norm_num
  have hgeE := specPhi_antitone entropyBits (by decide) (by decide) 3
  have hgeT := specPhi_antitone testBits100 (by decide) (by decide) 2
  have a1 := AppEntropy_formula (fun x => x) (fun a _ => a) IntegerType.uint8 entropyBits 3
    (by decide) (by decide) (by decide) (by decide) (by decide) hT4
  have a2 := AppEntropy_formula (fun x => x) (fun _ x => x) IntegerType.uint8 entropyBits 3
    (by decide) (by decide) (by decide) (by decide) (by decide) hT4
  have b1 := AppEntropy_formula (fun x => x) (fun a _ => a) IntegerType.uint8 testBits100 2
    (by decide) (by decide) (by decide) (by decide) (by decide) hT3
  have b2 := AppEntropy_formula (fun x => x) (fun _ x => x) IntegerType.uint8 testBits100 2
    (by decide) (by decide) (by decide) (by decide) (by decide) hT3
  rw [h3] at a1 a2
  rw [h2] at b1 b2
  refine ⟨by decide, by decide, by decide, hT4, ?_, ?_, by decide, by decide, by decide,
    hT3, ?_, ?_⟩
  · rw [a1]
    norm_num
  · rw [a2, max_eq_right (by linarith), hlenE, entropyBits_phi.1, entropyBits_phi.2]
    refine congrArg Except.ok ?_
    ring
  · rw [b1]
    norm_num
  · rw [b2, max_eq_right (by linarith), hlenT, testBits100_phi.1, testBits100_phi.2]
    refine congrArg Except.ok ?_
    ring

/-- With m = 64 the histogram has `1 << 64 = 0` bins, so the first window is out of
range. -/
theorem windowBins_64 (T : IntegerType) (bits : List Int) (hn : 63 ≤ bits.length) :
    windowBins T bits 64 = .error .indexOutOfRange := by
  have hsize : IntegerType.int.wrap ((1 : Int) <<< (64 : Int)) = 0 := by
    have h := Int.shiftLeft_eq_mul_pow 1 64
    have e : ((64 : Nat) : Int) = 64 := rfl
    rw [e] at h
    rw [h]
    simp only [IntegerType.wrap, IntegerType.signed, IntegerType.width, if_true]
    norm_num
  have hneg : ¬ ((0 : Int) < 0 ∨ maxAlloc < 8 * 0) := by
    rw [maxAlloc]
    norm_num
  cases bits with
  | nil => simp at hn
  | cons a t =>
    have hcond : ¬ ((64 : Int) - 1 < 0 ∨ ((a :: t).length : Int) < (64 : Int) - 1) := by
      omega
    have htake : List.take (Int.toNat 64) (a :: t ++ List.take (Int.toNat (64 - 1)) (a :: t))
        = a :: List.take 63 (t ++ List.take 63 (a :: t)) := rfl
    have hor : ∀ idx : Int, idx < 0 ∨ (0 : Int) ≤ idx := fun idx => by omega
    simp only [windowBins]
    rw [if_neg hcond, hsize, if_neg hneg]
    simp only [List.length_cons, List.range_succ_eq_map, List.foldlM_cons, Int.toNat_zero,
      List.replicate_zero, List.drop_zero, htake, sliceToInt, List.length_nil, Nat.cast_zero,
      hor, if_true]
    rfl

set_option maxRecDepth 100000 in
/-- C18 as stated fails.  The 100 bits of the tests are a 0/1 sequence with
1 <= 64 <= n, and on them appEntropyM with m = 64 does not return phi(64) - phi(65): the
histogram of appEntropyPhi has 1 << 64 = 0 bins and the first window is out of range.
And on a 1 followed by seven 0s with int8 elements and m = 7 it does not return
phi(7) - phi(8): the 8-bit window that starts with the 1 has the value -128. -/
theorem appEntropyM_fails_at_64 :
    (∀ b ∈ testBits100, b = 0 ∨ b = 1) ∧ 1 ≤ testBits100.length ∧ 64 ≤ testBits100.length ∧
    appEntropyM (⟨Real.sqrt, Real.log, fun x => x, fun _ x => x⟩ : Special ℝ)
      IntegerType.uint8 testBits100 64 = .error .indexOutOfRange ∧
    (∀ b ∈ oneThenZeros, b = 0 ∨ b = 1) ∧ 1 ≤ oneThenZeros.length ∧
    7 ≤ oneThenZeros.length ∧
    appEntropyM (⟨Real.sqrt, Real.log, fun x => x, fun _ x => x⟩ : Special ℝ)
      IntegerType.int8 oneThenZeros 7 = .error .indexOutOfRange := by
  refine ⟨by decide, by decide, by decide, ?_, by decide, by decide, by decide, rfl⟩
  simp only [appEntropyM, appEntropyPhi, windowBins_64 IntegerType.uint8 testBits100 (by decide)]
  rw [andThen_of_panic _ _ (by decide)]

/-- C18 as amended: in exact real arithmetic, on a 0/1 sequence of length n >= 1 and
for 1 <= m <= n, phi(m) - phi(m+1) >= 0; and when m <= 7 and the element type holds the
(m+1)-bit window values, appEntropyPhi returns phi(m) and phi(m+1) and appEntropyM
returns exactly phi(m) - phi(m+1): the clamp does not change the value. -/
theorem appEntropyM_no_clamp (erfc : ℝ → ℝ) (Q : ℝ → ℝ → ℝ) (T : IntegerType)
    (bits : List Int) (m : Nat) (hbits : ∀ b ∈ bits, b = 0 ∨ b = 1)
    (hn : 1 ≤ bits.length) (hm1 : 1 ≤ m) (hmn : m ≤ bits.length) :
    0 ≤ specPhi Real.log bits m - specPhi Real.log bits (m + 1) ∧
    (m ≤ 7 → 2 ^ (m + 1) - 1 ≤ T.maxVal →
      appEntropyPhi (⟨Real.sqrt, Real.log, erfc, Q⟩ : Special ℝ) T bits (m : Int)
        = .ok (specPhi Real.log bits m) ∧
      appEntropyPhi (⟨Real.sqrt, Real.log, erfc, Q⟩ : Special ℝ) T bits ((m : Int) + 1)
        = .ok (specPhi Real.log bits (m + 1)) ∧
      appEntropyM (⟨Real.sqrt, Real.log, erfc, Q⟩ : Special ℝ) T bits (m : Int)
        = .ok (specPhi Real.log bits m - specPhi Real.log bits (m + 1))) := by
  have hge := specPhi_antitone bits hbits (by omega) m
  refine ⟨by linarith, ?_⟩
  intro h7 hT
  exact appEntropyM_eq erfc Q T bits m hbits hn hm1 (by omega) hmn hT

/-- Witness of the amended C18 on the string of TestAppEntropy1 with m = 3 and bytes:
appEntropyM returns phi(3) - phi(4) = -(1/10) ln(1/10) + (3/10) ln(3/10) - (2/10) ln(2/10). -/
theorem appEntropyM_no_clamp_witness :
    (∀ b ∈ entropyBits, b = 0 ∨ b = 1) ∧ 1 ≤ entropyBits.length ∧ 3 ≤ entropyBits.length ∧
    (2 : Int) ^ (3 + 1) - 1 ≤ IntegerType.uint8.maxVal ∧
    0 ≤ specPhi Real.log entropyBits 3 - specPhi Real.log entropyBits (3 + 1) ∧
    appEntropyM (⟨Real.sqrt, Real.log, fun x => x, fun _ x => x⟩ : Special ℝ)
      IntegerType.uint8 entropyBits ((3 : Nat) : Int)
      = .ok (-(1 / 10 * Real.log (1 / 10)) + 3 / 10 * Real.log (3 / 10)
          - 2 / 10 * Real.log (2 / 10)) := by
  have hT : (2 : Int) ^ (3 + 1) - 1 ≤ IntegerType.uint8.maxVal := by decide
  have h := appEntropyM_no_clamp (fun x => x) (fun _ x => x) IntegerType.uint8 entropyBits 3
    (by decide) (by decide) (by decide) (by decide)
  refine ⟨by decide, by decide, by decide, hT, h.1, ?_⟩
  rw [(h.2 (by decide) hT).2.2, entropyBits_phi.1, entropyBits_phi.2]
  refine congrArg Except.ok ?_
  ring

set_option maxRecDepth 100000 in
/-- C20 as stated fails.  On the 100 bits of the tests AppEntropy with m = 64, which is
at most n, hands no statistic to GammaIncRegComp: it stops in appEntropyPhi on an index
out of range.  And on a 1 followed by seven 0s with int8 elements and m = 7 it stops in
the same way, on the 8-bit window of value -128. -/
theorem AppEntropy_fails_at_64 :
    (∀ b ∈ testBits100, b = 0 ∨ b = 1) ∧ 1 ≤ testBits100.length ∧ 64 ≤ testBits100.length ∧
    AppEntropy (⟨Real.sqrt, Real.log, fun x => x, fun _ x => x⟩ : Special ℝ)
      IntegerType.uint8 testBits100 64 = .error .indexOutOfRange ∧
    (∀ b ∈ oneThenZeros, b = 0 ∨ b = 1) ∧ 1 ≤ oneThenZeros.length ∧
    7 ≤ oneThenZeros.length ∧
    AppEntropy (⟨Real.sqrt, Real.log, fun x => x, fun _ x => x⟩ : Special ℝ)
      IntegerType.int8 oneThenZeros 7 = .error .indexOutOfRange := by
  refine ⟨by decide, by decide, by decide, ?_, by decide, by decide, by decide, rfl⟩
  simp only [AppEntropy, appEntropyM, appEntropyPhi,
    windowBins_64 IntegerType.uint8 testBits100 (by decide)]
  rw [andThen_of_panic _ _ (by decide), andThen_of_panic _ _ (by decide)]

/-- C20 as amended: in exact real arithmetic, on a 0/1 sequence of length n >= 1, for
1 <= m <= n with m <= 7 and an element type that holds the (m+1)-bit window values,
appEntropyM returns a value ApEn of at most ln 2, so the statistic
chi2 = 2*n*(ln 2 - ApEn), whose half AppEntropy hands to GammaIncRegComp, is at least 0;
and chi2 is at most 2*n*ln 2. -/
theorem AppEntropy_statistic_bounds (erfc : ℝ → ℝ) (Q : ℝ → ℝ → ℝ) (T : IntegerType)
    (bits : List Int) (m : Nat) (hbits : ∀ b ∈ bits, b = 0 ∨ b = 1)
    (hn : 1 ≤ bits.length) (hm1 : 1 ≤ m) (hmn : m ≤ bits.length) (hm7 : m ≤ 7)
    (hT : 2 ^ (m + 1) - 1 ≤ T.maxVal) :
    ∃ ApEn : ℝ,
      appEntropyM (⟨Real.sqrt, Real.log, erfc, Q⟩ : Special ℝ) T bits (m : Int) = .ok ApEn ∧
      ApEn ≤ Real.log 2 ∧
      AppEntropy (⟨Real.sqrt, Real.log, erfc, Q⟩ : Special ℝ) T bits (m : Int)
        = .ok (Q ((2 : ℝ) ^ m / 2) (2 * (bits.length : ℝ) * (Real.log 2 - ApEn) / 2)) ∧
      0 ≤ 2 * (bits.length : ℝ) * (Real.log 2 - ApEn) ∧
      2 * (bits.length : ℝ) * (Real.log 2 - ApEn) ≤ 2 * (bits.length : ℝ) * Real.log 2 := by
  have hM := (appEntropyM_eq erfc Q T bits m hbits hn hm1 (by omega) hmn hT).2.2
  have hge := specPhi_antitone bits hbits (by omega) m
  have hgap := specPhi_gap bits hbits (by omega) m
  have hnR : (0 : ℝ) < (bits.length : ℝ) := by exact_mod_cast (show 0 < bits.length by omega)
  refine ⟨_, hM, hgap, AppEntropy_of_M erfc Q T bits m hbits hn (by omega) hM, ?_, ?_⟩
  · have : 0 ≤ Real.log 2 - (specPhi Real.log bits m - specPhi Real.log bits (m + 1)) := by
      linarith
    positivity
  · have : 0 ≤ specPhi Real.log bits m - specPhi Real.log bits (m + 1) := by linarith
    nlinarith

/-- Witness of the amended C20 on the string of TestAppEntropy1 with m = 3 and bytes. -/
theorem AppEntropy_statistic_bounds_witness :
    (∀ b ∈ entropyBits, b = 0 ∨ b = 1) ∧ 1 ≤ entropyBits.length ∧ 3 ≤ entropyBits.length ∧
    (2 : Int) ^ (3 + 1) - 1 ≤ IntegerType.uint8.maxVal ∧
    ∃ ApEn : ℝ,
      appEntropyM (⟨Real.sqrt, Real.log, fun x => x, fun _ x => x⟩ : Special ℝ)
        IntegerType.uint8 entropyBits ((3 : Nat) : Int) = .ok ApEn ∧
      ApEn ≤ Real.log 2 ∧
      AppEntropy (⟨Real.sqrt, Real.log, fun x => x, fun _ x => x⟩ : Special ℝ)
        IntegerType.uint8 entropyBits ((3 : Nat) : Int)
        = .ok (2 * (entropyBits.length : ℝ) * (Real.log 2 - ApEn) / 2) ∧
      0 ≤ 2 * (entropyBits.length : ℝ) * (Real.log 2 - ApEn) ∧
      2 * (entropyBits.length : ℝ) * (Real.log 2 - ApEn)
        ≤ 2 * (entropyBits.length : ℝ) * Real.log 2 := by
  have hT : (2 : Int) ^ (3 + 1) - 1 ≤ IntegerType.uint8.maxVal := by decide
  obtain ⟨v, h1, h2, h3, h4, h5⟩ := AppEntropy_statistic_bounds (fun x => x) (fun _ x => x)
    IntegerType.uint8 entropyBits 3 (by decide) (by decide) (by decide) (by decide)
    (by decide) hT
  exact ⟨by decide, by decide, by decide, hT, v, h1, h2, h3, h4, h5⟩

/-- On the 16 bits "0000100110101111" with m = 3 the entropy difference is ln 2
exactly: the statistic is 0, on the edge of the domain of `GammaIncRegComp`, and in exact
arithmetic AppEntropy returns Q(4, 0). -/
theorem AppEntropy_deBruijn16 (erfc : ℝ → ℝ) (Q : ℝ → ℝ → ℝ) :
    specPhi Real.log deBruijn16 3 - specPhi Real.log deBruijn16 4 = Real.log 2 ∧
    AppEntropy (⟨Real.sqrt, Real.log, erfc, Q⟩ : Special ℝ) IntegerType.uint8 deBruijn16 3
      = .ok (Q 4 0) := by
  have hlen : deBruijn16.length = 16 := by decide
  have hlenR : ((deBruijn16.length : Nat) : ℝ) = 16 := by
    rw [hlen]; norm_num
  have h3 : specPhi Real.log deBruijn16 3 = Real.log (2 / 16) := by
    rw [specPhi_of_counts _ _ _ deBruijn16_counts.1, hlen]
    simp only [List.map_cons, List.map_nil, List.sum_cons, List.sum_nil, Nat.cast_ofNat]
    ring
  have h4 : specPhi Real.log deBruijn16 4 = Real.log (1 / 16) := by
    rw [specPhi_of_counts _ _ _ deBruijn16_counts.2, hlen]
    simp only [List.map_cons, List.map_nil, List.sum_cons, List.sum_nil, Nat.cast_ofNat,
      Nat.cast_one]
    ring
  have hdiff : specPhi Real.log deBruijn16 3 - specPhi Real.log deBruijn16 4 = Real.log 2 := by
    rw [h3, h4, show (2 : ℝ) / 16 = 2 * (1 / 16) by norm_num,
      Real.log_mul (by norm_num) (by norm_num)]
    ring
  refine ⟨hdiff, ?_⟩
  have hT : (2 : Int) ^ (3 + 1) - 1 ≤ IntegerType.uint8.maxVal := by decide
  have h := AppEntropy_returns erfc Q IntegerType.uint8 deBruijn16 3 (by decide) (by decide)
    (by decide) (by decide) (by decide) hT
  have e3 : ((3 : Nat) : Int) = 3 := rfl
  rw [e3] at h
  rw [h, hdiff, hlenR]
  refine congrArg Except.ok ?_
  congr 1 <;> norm_num

/-- In exact real arithmetic the five tests other than Runs return p-values in [0,1] on
0/1 sequences of length at least 100, with erfc above 1 only at negative arguments and Q
between 0 and 1. -/
theorem pvalues_in_unit_interval (erfc : ℝ → ℝ) (Q : ℝ → ℝ → ℝ)
    (herfc : ∀ x, 0 < erfc x ∧ erfc x < 2 ∧ (1 < erfc x ↔ x < 0))
    (hQ : ∀ a x, 0 ≤ Q a x ∧ Q a x ≤ 1)
    (T : IntegerType) (bits : List Int) (hbits : ∀ b ∈ bits, b = 0 ∨ b = 1)
    (hlen : 100 ≤ bits.length) (M : Nat) (hM : 1 ≤ M) (hMn : M ≤ bits.length)
    (m : Nat) (hm3 : 3 ≤ m) (hm8 : m ≤ 8) (hT : 2 ^ (m + 1) - 1 ≤ T.maxVal) :
    (∃ p, MonoBit (⟨Real.sqrt, Real.log, erfc, Q⟩ : Special ℝ) bits = .ok p ∧ 0 ≤ p ∧ p ≤ 1) ∧
    (∃ p, Frequency (⟨Real.sqrt, Real.log, erfc, Q⟩ : Special ℝ) bits (M : Int) = .ok p
      ∧ 0 ≤ p ∧ p ≤ 1) ∧
    (∃ p, LongestRunOfOnes8 (⟨Real.sqrt, Real.log, erfc, Q⟩ : Special ℝ) bits = .ok p
      ∧ 0 ≤ p ∧ p ≤ 1) ∧
    (∃ p q, Serial (⟨Real.sqrt, Real.log, erfc, Q⟩ : Special ℝ) T bits (m : Int) = .ok (p, q)
      ∧ 0 ≤ p ∧ p ≤ 1 ∧ 0 ≤ q ∧ q ≤ 1) ∧
    (∃ p, AppEntropy (⟨Real.sqrt, Real.log, erfc, Q⟩ : Special ℝ) T bits (m : Int) = .ok p
      ∧ 0 ≤ p ∧ p ≤ 1) := by
  refine ⟨?_, ?_, ?_, ?_, ?_⟩
  · obtain ⟨S, hS⟩ := MonoBit_ok (⟨Real.sqrt, Real.log, erfc, Q⟩ : Special ℝ) bits hbits hlen
    refine ⟨_, hS, le_of_lt (herfc _).1, ?_⟩
    rw [← not_lt, (herfc _).2.2, not_lt]
    positivity
  · obtain ⟨a, x, h⟩ := Frequency_ok (⟨Real.sqrt, Real.log, erfc, Q⟩ : Special ℝ) bits M hM
      hMn hlen
    exact ⟨_, h, (hQ _ _).1, (hQ _ _).2⟩
  · obtain ⟨a, x, h⟩ := LongestRunOfOnes8_ok (⟨Real.sqrt, Real.log, erfc, Q⟩ : Special ℝ)
      bits (by omega)
    exact ⟨_, h, (hQ _ _).1, (hQ _ _).2⟩
  · have h := Serial_returns (⟨Real.sqrt, Real.log, erfc, Q⟩ : Special ℝ) T bits m
      hbits (by omega) hm3 (by omega) (by omega) (fits_mono T m (m + 1) (by omega) hT)
    exact ⟨_, _, h, (hQ _ _).1, (hQ _ _).2, (hQ _ _).1, (hQ _ _).2⟩
  · have h := AppEntropy_returns erfc Q T bits m hbits (by omega) (by omega) (by omega)
      (by omega) hT
    exact ⟨_, h, (hQ _ _).1, (hQ _ _).2⟩

/-- In exact real arithmetic the six tests return on every 0/1 sequence of length at
least 100, whatever the element type (the windows of RunAll have at most 4 bits), so
RunAll returns a verdict there. -/
theorem RunAll_returns_exact (erfc : ℝ → ℝ) (Q : ℝ → ℝ → ℝ) (T : IntegerType)
    (b : List Int) (hbits : ∀ x ∈ b, x = 0 ∨ x = 1) (hlen : 100 ≤ b.length) :
    (∃ p, MonoBit (⟨Real.sqrt, Real.log, erfc, Q⟩ : Special ℝ) b = .ok p) ∧
    (∃ p, Frequency (⟨Real.sqrt, Real.log, erfc, Q⟩ : Special ℝ) b 3 = .ok p) ∧
    (∃ p, Runs (⟨Real.sqrt, Real.log, erfc, Q⟩ : Special ℝ) b = .ok p) ∧
    (∃ p, LongestRunOfOnes8 (⟨Real.sqrt, Real.log, erfc, Q⟩ : Special ℝ) b = .ok p) ∧
    (∃ p q, Serial (⟨Real.sqrt, Real.log, erfc, Q⟩ : Special ℝ) T b 3 = .ok (p, q)) ∧
    (∃ p, AppEntropy (⟨Real.sqrt, Real.log, erfc, Q⟩ : Special ℝ) T b 3 = .ok p) ∧
    ∃ v, RunAll (⟨Real.sqrt, Real.log, erfc, Q⟩ : Special ℝ) T b = .ok v := by
  obtain ⟨p1, h1⟩ : ∃ p, MonoBit (⟨Real.sqrt, Real.log, erfc, Q⟩ : Special ℝ) b = .ok p := by
    obtain ⟨S, hS⟩ := MonoBit_ok (⟨Real.sqrt, Real.log, erfc, Q⟩ : Special ℝ) b hbits hlen
    exact ⟨_, hS⟩
  obtain ⟨p2, h2⟩ : ∃ p, Frequency (⟨Real.sqrt, Real.log, erfc, Q⟩ : Special ℝ) b 3 = .ok p := by
    obtain ⟨a, x, h⟩ := Frequency_ok (⟨Real.sqrt, Real.log, erfc, Q⟩ : Special ℝ) b 3
      (by omega) (by omega) hlen
    exact ⟨_, h⟩
  obtain ⟨p3, h3⟩ := Runs_ok (⟨Real.sqrt, Real.log, erfc, Q⟩ : Special ℝ) b hlen
  obtain ⟨p4, h4⟩ : ∃ p, LongestRunOfOnes8 (⟨Real.sqrt, Real.log, erfc, Q⟩ : Special ℝ) b
      = .ok p := by
    obtain ⟨a, x, h⟩ := LongestRunOfOnes8_ok (⟨Real.sqrt, Real.log, erfc, Q⟩ : Special ℝ) b
      (by omega)
    exact ⟨_, h⟩
  have hT3 : (2 : Int) ^ 3 - 1 ≤ T.maxVal := fits_mono T 3 4 (by omega) (fifteen_le_maxVal T)
  have h5 := Serial_returns (⟨Real.sqrt, Real.log, erfc, Q⟩ : Special ℝ) T b 3 hbits
    (by omega) (by omega) (by omega) (by omega) hT3
  have h7 := AppEntropy_returns erfc Q T b 3 hbits (by omega) (by omega) (by omega)
    (by omega) (fifteen_le_maxVal T)
  have e3 : ((3 : Nat) : Int) = 3 := rfl
  rw [e3] at h5 h7
  refine ⟨⟨_, h1⟩, ⟨_, h2⟩, ⟨_, h3⟩, ⟨_, h4⟩, ⟨_, _, h5⟩, ⟨_, h7⟩, ?_⟩
  simp only [RunAll, h1, h2, h3, h4, h5, h7]
  split_ifs <;> exact ⟨_, rfl⟩

/-! ### The battery on the test string, and the edges of the domain -/

/-- Witness of C2 on the 100-bit string of the tests, with bytes as elements.  With
special functions that are constantly 1 every test returns 1 and RunAll returns success;
with an erfc that is constantly 0 MonoBit returns 0 and RunAll returns the error of
MonoBit, whatever the five other tests return. -/
theorem RunAll_verdict_witness :
    RunAll (⟨Real.sqrt, Real.log, fun _ => 1, fun _ _ => 1⟩ : Special ℝ)
      IntegerType.uint8 testBits100 = .ok .pass ∧
    RunAll (⟨Real.sqrt, Real.log, fun _ => 0, fun _ _ => 1⟩ : Special ℝ)
      IntegerType.uint8 testBits100 = .ok (.failedMonobit 0) := by
  have hbits : ∀ b ∈ testBits100, b = 0 ∨ b = 1 := by decide
  have hlen : 100 ≤ testBits100.length := by decide
  have e3 : ((3 : Nat) : Int) = 3 := rfl
  constructor
  · have hv := RunAll_verdict (⟨Real.sqrt, Real.log, fun _ => 1, fun _ _ => 1⟩ : Special ℝ)
      IntegerType.uint8 testBits100
    obtain ⟨S, h1⟩ := MonoBit_ok (⟨Real.sqrt, Real.log, fun _ => 1, fun _ _ => 1⟩ : Special ℝ)
      testBits100 hbits hlen
    obtain ⟨a, x, h2⟩ := Frequency_ok
      (⟨Real.sqrt, Real.log, fun _ => 1, fun _ _ => 1⟩ : Special ℝ) testBits100 3
      (by decide) (by decide) hlen
    rw [e3] at h2
    have h3 : Runs (⟨Real.sqrt, Real.log, fun _ => 1, fun _ _ => 1⟩ : Special ℝ) testBits100
        = .ok 1 := by
      have h := Runs_eq (⟨Real.sqrt, Real.log, fun _ => 1, fun _ _ => 1⟩ : Special ℝ) 1
        testBits100.tail hlen
      have hc : (1 :: testBits100.tail).count 1 = 42 := by decide
      have hl : (1 :: testBits100.tail).length = 100 := by decide
      rw [hc, hl] at h
      have hne : ¬ ((((42 : Nat) : ℝ) / ((100 : Nat) : ℝ))
          * (1 - ((42 : Nat) : ℝ) / ((100 : Nat) : ℝ)) = 0) := by norm_num
      rw [if_neg hne] at h
      exact h
    obtain ⟨a4, x4, h4⟩ := LongestRunOfOnes8_ok
      (⟨Real.sqrt, Real.log, fun _ => 1, fun _ _ => 1⟩ : Special ℝ) testBits100 (by decide)
    have h5 := Serial_returns (⟨Real.sqrt, Real.log, fun _ => 1, fun _ _ => 1⟩ : Special ℝ)
      IntegerType.uint8 testBits100 3 hbits (by decide) (by decide) (by decide) (by decide)
      (by decide)
    have h7 := AppEntropy_returns (fun _ => 1) (fun _ _ => 1) IntegerType.uint8 testBits100 3
      hbits (by decide) (by decide) (by decide) (by decide) (by decide)
    rw [e3] at h5 h7
    exact hv.2.2.mpr ⟨1, 1, 1, 1, 1, 1, 1, h1, h2, h3, h4, h5, h7, by norm_num, by norm_num,
      by norm_num, by norm_num, by norm_num, by norm_num, by norm_num⟩
  · have hv := RunAll_verdict (⟨Real.sqrt, Real.log, fun _ => 0, fun _ _ => 1⟩ : Special ℝ)
      IntegerType.uint8 testBits100
    obtain ⟨S, h1⟩ := MonoBit_ok (⟨Real.sqrt, Real.log, fun _ => 0, fun _ _ => 1⟩ : Special ℝ)
      testBits100 hbits hlen
    exact (hv.2.1 0 h1).1 (by norm_num)

/-- With a block size above the length there is no block: the first argument of
`GammaIncRegComp` is 0 and Frequency stops on the panic of the library. -/
theorem Frequency_no_block (fn : Special R) (bits : List Int) (M : Nat)
    (hlen : 100 ≤ bits.length) (hM : bits.length < M) :
    Frequency fn bits (M : Int) = .error .paramOutOfBounds := by
  rw [Frequency_eq fn bits M (by omega) hlen, Nat.div_eq_of_lt hM]
  have h : (0.5 : R) * (((0 : Nat) : Int) : R) ≤ 0 := by norm_num
  simp only [mathext.GammaIncRegComp, if_pos (Or.inl h)]

/-- On the empty sequence Serial and AppEntropy stop on `bits[:m-1]`, in the first call
of the histogram code or, after a NaN of the first call (m = 1), in the second. -/
theorem empty_sequence_fails (fn : Special R) (T : IntegerType) (m : Int) :
    Serial fn T [] m = .error .sliceBounds ∧ AppEntropy fn T [] m = .error .sliceBounds := by
  have hw : ∀ k : Int, k ≠ 1 → windowBins T [] k = .error .sliceBounds := by
    intro k hk
    have hc : k - 1 < 0 ∨ ((([] : List Int).length : Nat) : Int) < k - 1 := by
      simp only [List.length_nil, Nat.cast_zero]
      omega
    simp only [windowBins, if_pos hc]
  have hs : ∀ k : Int, k ≠ 1 →
      (serialPsiSqr T [] k : Except Failure R) = .error .sliceBounds := by
    intro k hk
    simp only [serialPsiSqr, hw k hk]
  have hp : ∀ k : Int, k ≠ 1 → appEntropyPhi fn T [] k = .error .sliceBounds := by
    intro k hk
    simp only [appEntropyPhi, hw k hk]
  have hw1 : ∃ bins, windowBins T [] 1 = .ok bins := ⟨_, rfl⟩
  obtain ⟨bins, hb⟩ := hw1
  have hs1 : (serialPsiSqr T [] 1 : Except Failure R) = .error .notANumber := by
    simp only [serialPsiSqr, hb, List.length_nil, if_true]
  have hp1 : appEntropyPhi fn T [] 1 = .error .notANumber := by
    simp only [appEntropyPhi, hb, List.length_nil, if_true]
  have hpanic : Failure.sliceBounds ≠ Failure.notANumber := by decide
  by_cases hm : m = 1
  · subst hm
    constructor
    · simp only [Serial, hs1, hs (1 - 1) (by omega), Failure.andThen, if_true,
        if_neg hpanic]
    · simp only [AppEntropy, appEntropyM, hp1, hp (1 + 1) (by omega), Failure.andThen,
        if_true, if_neg hpanic]
  · constructor
    · simp only [Serial, hs m hm, andThen_of_panic _ _ hpanic]
    · simp only [AppEntropy, appEntropyM, hp m hm, andThen_of_panic _ _ hpanic]

theorem edgeBits100_counts :
    (patterns 3).map (cyclicCount edgeBits100 3) = [13, 12, 10, 13, 12, 11, 13, 16]
    ∧ (patterns 2).map (cyclicCount edgeBits100 2) = [25, 23, 23, 29]
    ∧ (patterns 1).map (cyclicCount edgeBits100 1) = [48, 52] := by
  decide

/-- On `edgeBits100` with m = 3 and bytes: psi2(3) = 1.76, psi2(2) = 0.96,
psi2(1) = 0.16, the second difference is exactly 0, on the edge of the domain of
`GammaIncRegComp`, and in exact arithmetic Serial returns (Q(2, 0.4), Q(1, 0)). -/
theorem Serial_edgeBits100 (fn : Special R) :
    (specPsi2 edgeBits100 3 : R) = 1.76 ∧ (specPsi2 edgeBits100 2 : R) = 0.96 ∧
    (specPsi2 edgeBits100 1 : R) = 0.16 ∧
    (specPsi2 edgeBits100 3 : R) - 2 * specPsi2 edgeBits100 2 + specPsi2 edgeBits100 1 = 0 ∧
    Serial fn IntegerType.uint8 edgeBits100 3
      = .ok (fn.GammaIncRegComp 2 0.4, fn.GammaIncRegComp 1 0) := by
  have hlen : edgeBits100.length = 100 := by decide
  have p3 : (specPsi2 edgeBits100 3 : R) = 1.76 := by
    rw [specPsi2_of_counts _ _ _ edgeBits100_counts.1, hlen]; norm_num
  have p2 : (specPsi2 edgeBits100 2 : R) = 0.96 := by
    rw [specPsi2_of_counts _ _ _ edgeBits100_counts.2.1, hlen]; norm_num
  have p1 : (specPsi2 edgeBits100 1 : R) = 0.16 := by
    rw [specPsi2_of_counts _ _ _ edgeBits100_counts.2.2, hlen]; norm_num
  refine ⟨p3, p2, p1, by rw [p3, p2, p1]; norm_num, ?_⟩
  have h := Serial_returns fn IntegerType.uint8 edgeBits100 3 (by decide) (by decide)
    (by decide) (by decide) (by decide) (by decide)
  have h3 : ((3 : Nat) : Int) = 3 := rfl
  rw [h3] at h
  rw [h]
  simp only [show (3 : Nat) - 1 = 2 from rfl, show (3 : Nat) - 2 = 1 from rfl, p3, p2, p1]
  norm_num

end Facts

end Randcheck
